import Mathlib

/-!
# Mirrored delay line, mirrored FIFO, WAV writer and filter factory

A shallow embedding of `include/MirroredDelayLine.h`, `include/MirroredFifo.h`,
`include/WavWriter.h` and `include/FilterFactory.h`.

* `std::vector<DataType>` is a `List α`; an element access `m_storage[i]` with `i` past the
  end of the vector is undefined behaviour in the source and is the `none` result here.
* `size_t` has 64 bits.  The constructors (`construct`, `constructFill`) compute the
  storage length modulo `2 ^ 64` and fail when the vector would exceed its `max_size()`,
  which is a parameter (at most `PTRDIFF_MAX / sizeof(DataType)` in libstdc++); running out
  of memory is outside the embedding.  `new` and `newFill` are the objects they return
  when nothing wraps, that is when the storage length (`2 * length` for the delay line,
  `2 * (length + 1)` for the fifo) is below `2 ^ 64`.  On those objects the arithmetic on
  indices is `+ 1`,
  `+ m_fifoLength`, `+ m_delayLineLength` and differences of indices, all of which stay
  below the storage length, so that `Nat` and `size_t` agree; the index sum of
  `operator[]`, whose argument is any `size_t`, is reduced modulo `2 ^ 64`.
* In `WavWriter` the `uint16_t`, `uint32_t` and `size_t` results are reduced modulo
  `2 ^ 16`, `2 ^ 32` and `2 ^ 64`; a file is the list of its bytes; the host is little
  endian, as the source assumes when it writes the header and the samples from memory.
-/

namespace SherlockCode

/-! ## MirroredDelayLine -/

/-- The private members of `class MirroredDelayLine`. -/
structure MirroredDelayLine (α : Type) where
  m_delayLineLength : Nat
  m_totalStorageLength : Nat
  m_storage : List α
  m_index : Nat
deriving DecidableEq

/-- The object a `memset` with fill argument `c` leaves in every slot of type `α`: each byte
of the slot is `(unsigned char) c`. -/
class ByteFill (α : Type) where
  memsetValue : α → α

/-- The `int` (32 bit, two's complement) whose four bytes all equal `(unsigned char) c`. -/
def memsetInt (c : Int) : Int :=
  let w := (c % 256) * 16843009
  if w < 2147483648 then w else w - 4294967296

instance : ByteFill Int := ⟨memsetInt⟩

/-- `std::vector<DataType> v(n, value)`, also `v(n)` with the value-initialised element:
the constructor throws `std::length_error` when `n` exceeds `max_size()`, which is `none`. -/
def vectorOfSize {α : Type} (max_size n : Nat) (value : α) : Option (List α) :=
  if n ≤ max_size then some (List.replicate n value) else none

namespace MirroredDelayLine

variable {α : Type}

/-- The object that `MirroredDelayLine(size_t delayLineLength)` builds when `2*m_delayLineLength`
does not wrap, see `construct`; the storage is value-initialised. -/
def new [Inhabited α] (delayLineLength : Nat) : MirroredDelayLine α :=
  { m_delayLineLength := delayLineLength
    m_totalStorageLength := 2 * delayLineLength
    m_storage := List.replicate (2 * delayLineLength) default
    m_index := 0 }

/-- The object that `MirroredDelayLine(size_t delayLineLength, const DataType& clearValue)`
builds when `2*m_delayLineLength` does not wrap, see `constructFill`. -/
def newFill (delayLineLength : Nat) (clearValue : α) : MirroredDelayLine α :=
  { m_delayLineLength := delayLineLength
    m_totalStorageLength := 2 * delayLineLength
    m_storage := List.replicate (2 * delayLineLength) clearValue
    m_index := 0 }

/-- The constructor `MirroredDelayLine(size_t delayLineLength)`, with its member
initialisers in order: `m_totalStorageLength(2*m_delayLineLength)` is a `size_t` product,
modulo `2 ^ 64`, and `m_storage(m_totalStorageLength)` is the vector constructor. -/
def construct [Inhabited α] (max_size delayLineLength : Nat) : Option (MirroredDelayLine α) :=
  let m_totalStorageLength := 2 * delayLineLength % 18446744073709551616
  (vectorOfSize max_size m_totalStorageLength default).bind (fun m_storage =>
    some { m_delayLineLength := delayLineLength
           m_totalStorageLength := m_totalStorageLength
           m_storage := m_storage
           m_index := 0 })

/-- The constructor `MirroredDelayLine(size_t delayLineLength, const DataType& clearValue)`,
with its member initialisers in order. -/
def constructFill (max_size delayLineLength : Nat) (clearValue : α) :
    Option (MirroredDelayLine α) :=
  let m_totalStorageLength := 2 * delayLineLength % 18446744073709551616
  (vectorOfSize max_size m_totalStorageLength clearValue).bind (fun m_storage =>
    some { m_delayLineLength := delayLineLength
           m_totalStorageLength := m_totalStorageLength
           m_storage := m_storage
           m_index := 0 })

/-- `clear(clearValue)`: `m_index = 0`, then `memset` over the first
`m_totalStorageLength` slots of the storage. -/
def clear [ByteFill α] (d : MirroredDelayLine α) (clearValue : α) :
    Option (MirroredDelayLine α) :=
  if d.m_totalStorageLength ≤ d.m_storage.length then
    some { d with
      m_index := 0
      m_storage := List.replicate d.m_totalStorageLength (ByteFill.memsetValue clearValue)
        ++ d.m_storage.drop d.m_totalStorageLength }
  else none

/-- `length()`. -/
def length (d : MirroredDelayLine α) : Nat := d.m_delayLineLength

/-- `data()`: the pointer `&m_storage[m_index]`, seen as the memory from that slot on. -/
def data (d : MirroredDelayLine α) : List α := d.m_storage.drop d.m_index

/-- `append(data)`. -/
def append (d : MirroredDelayLine α) (data : α) : Option (MirroredDelayLine α) :=
  if d.m_index < d.m_storage.length then
    let s1 := d.m_storage.set d.m_index data
    if d.m_index + d.m_delayLineLength < s1.length then
      let s2 := s1.set (d.m_index + d.m_delayLineLength) data
      let i := d.m_index + 1
      some { d with m_storage := s2, m_index := if i = d.m_delayLineLength then 0 else i }
    else none
  else none

/-- `operator[](index)`: `m_storage[index + m_index]`, the sum being a `size_t` sum, modulo
`2 ^ 64`. -/
def subscript (d : MirroredDelayLine α) (index : Nat) : Option α :=
  d.m_storage[(index + d.m_index) % 18446744073709551616]?

/-- `debug_printContents()`: the values printed, `m_storage[m_index + i]` for
`i < m_delayLineLength`. -/
def debug_printContents (d : MirroredDelayLine α) : Option (List α) :=
  (List.range d.m_delayLineLength).mapM (fun i => d.m_storage[d.m_index + i]?)

/-- The window a caller reads through `data()`: `data()[0 .. length())`. -/
def window (d : MirroredDelayLine α) : List α := d.data.take d.length

/-- Appending the values of a list one at a time, in order. -/
def appendAll (d : MirroredDelayLine α) : List α → Option (MirroredDelayLine α)
  | [] => some d
  | x :: xs => (d.append x).bind (fun d1 => appendAll d1 xs)

/-- The states that `append` and `clear` calls reach from the objects `new N` and
`newFill N clearValue`. -/
inductive Reachable [Inhabited α] [ByteFill α] (N : Nat) : MirroredDelayLine α → Prop
  | new : Reachable N (MirroredDelayLine.new N)
  | newFill (clearValue : α) : Reachable N (MirroredDelayLine.newFill N clearValue)
  | append {d d1 : MirroredDelayLine α} (x : α) :
      Reachable N d → d.append x = some d1 → Reachable N d1
  | clear {d d1 : MirroredDelayLine α} (v : α) :
      Reachable N d → d.clear v = some d1 → Reachable N d1

/-- The states of a delay line constructed with `delayLineLength = N`: a call of either
constructor that returns, then `append` and `clear` calls. -/
inductive Built [Inhabited α] [ByteFill α] (max_size N : Nat) : MirroredDelayLine α → Prop
  | construct {d : MirroredDelayLine α} :
      MirroredDelayLine.construct max_size N = some d → Built max_size N d
  | constructFill {d : MirroredDelayLine α} (clearValue : α) :
      MirroredDelayLine.constructFill max_size N clearValue = some d → Built max_size N d
  | append {d d1 : MirroredDelayLine α} (x : α) :
      Built max_size N d → d.append x = some d1 → Built max_size N d1
  | clear {d d1 : MirroredDelayLine α} (v : α) :
      Built max_size N d → d.clear v = some d1 → Built max_size N d1

end MirroredDelayLine

/-- The naive shift register of `doTimingComparisons`:
`for (i = 0; i < delayLineLength-1; i++) intVector[i] = intVector[i+1];` -/
def naiveShift (delayLineLength : Nat) : Nat → Nat → List α → Option (List α)
  | 0, i, v => if i < delayLineLength - 1 then none else some v
  | fuel + 1, i, v =>
    if i < delayLineLength - 1 then
      match v[i + 1]? with
      | none => none
      | some y => if i < v.length then naiveShift delayLineLength fuel (i + 1) (v.set i y) else none
    else some v

/-- The naive append of `doTimingComparisons`: the shifting loop, then
`intVector[delayLineLength-1] = r`. -/
def naiveAppend (delayLineLength : Nat) (intVector : List α) (r : α) : Option (List α) :=
  (naiveShift delayLineLength delayLineLength 0 intVector).bind (fun v =>
    if delayLineLength - 1 < v.length then some (v.set (delayLineLength - 1) r) else none)

/-! ## MirroredFifo -/

/-- The private members of `class MirroredFifo`. -/
structure MirroredFifo (α : Type) where
  m_fifoLength : Nat
  m_totalStorageLength : Nat
  m_storage : List α
  m_headIndex : Nat
  m_tailIndex : Nat
deriving DecidableEq

namespace MirroredFifo

variable {α : Type}

/-- The object that `MirroredFifo(size_t fifoLength)` builds when neither `fifoLength+1` nor
`2*m_fifoLength` wraps, see `construct`: `m_fifoLength` is `fifoLength + 1`, the storage
has `2 * m_fifoLength` value-initialised slots. -/
def new [Inhabited α] (fifoLength : Nat) : MirroredFifo α :=
  { m_fifoLength := fifoLength + 1
    m_totalStorageLength := 2 * (fifoLength + 1)
    m_storage := List.replicate (2 * (fifoLength + 1)) default
    m_headIndex := 0
    m_tailIndex := 0 }

/-- The constructor `MirroredFifo(size_t fifoLength)`, with its member initialisers in
order: `m_fifoLength(fifoLength+1)` and `m_totalStorageLength(2*m_fifoLength)` are `size_t`
results, modulo `2 ^ 64`, and `m_storage(m_totalStorageLength)` is the vector
constructor. -/
def construct [Inhabited α] (max_size fifoLength : Nat) : Option (MirroredFifo α) :=
  let m_fifoLength := (fifoLength + 1) % 18446744073709551616
  let m_totalStorageLength := 2 * m_fifoLength % 18446744073709551616
  (vectorOfSize max_size m_totalStorageLength default).bind (fun m_storage =>
    some { m_fifoLength := m_fifoLength
           m_totalStorageLength := m_totalStorageLength
           m_storage := m_storage
           m_headIndex := 0
           m_tailIndex := 0 })

/-- `clear()`. -/
def clear (f : MirroredFifo α) : MirroredFifo α :=
  { f with m_headIndex := 0, m_tailIndex := 0 }

/-- `canRead()`. -/
def canRead (f : MirroredFifo α) : Nat :=
  if f.m_headIndex = f.m_tailIndex then 0
  else if f.m_tailIndex > f.m_headIndex then f.m_tailIndex - f.m_headIndex
  else f.m_tailIndex + f.m_fifoLength - f.m_headIndex

/-- `canWrite()`. -/
def canWrite (f : MirroredFifo α) : Nat :=
  if f.m_headIndex = f.m_tailIndex then f.m_fifoLength - 1
  else if f.m_tailIndex > f.m_headIndex then
    f.m_fifoLength - (f.m_tailIndex - f.m_headIndex) - 1
  else f.m_fifoLength - (f.m_tailIndex + f.m_fifoLength - f.m_headIndex) - 1

/-- The block shared by both loops of `write` and by `writeOne`:
`m_storage[m_tailIndex] = x; m_storage[m_tailIndex+m_fifoLength] = x; m_tailIndex++;`
and the wrap of the tail index. -/
def storeAtTail (f : MirroredFifo α) (x : α) : Option (MirroredFifo α) :=
  if f.m_tailIndex < f.m_storage.length then
    let s1 := f.m_storage.set f.m_tailIndex x
    if f.m_tailIndex + f.m_fifoLength < s1.length then
      let s2 := s1.set (f.m_tailIndex + f.m_fifoLength) x
      let t := f.m_tailIndex + 1
      some { f with m_storage := s2, m_tailIndex := if t = f.m_fifoLength then 0 else t }
    else none
  else none

/-- The block `m_headIndex++; if( m_headIndex == m_fifoLength ) m_headIndex = 0;` of the
second loop of `write` and of `writeOne`. -/
def bumpHead (f : MirroredFifo α) : MirroredFifo α :=
  let h := f.m_headIndex + 1
  { f with m_headIndex := if h = f.m_fifoLength then 0 else h }

/-- The first loop of `write`, `for( i = 0; i < length && i < canWriteCount; i++ )`, from
loop counter `i` on; the result is the final counter and state.  `data[i]` past the end of
the caller's array, a store past the end of the storage and running out of fuel with the
loop condition still true are `none`. -/
def writeLoopFree (length canWriteCount : Nat) (data : List α) :
    Nat → Nat → MirroredFifo α → Option (Nat × MirroredFifo α)
  | 0, i, f => if i < length ∧ i < canWriteCount then none else some (i, f)
  | fuel + 1, i, f =>
    if i < length ∧ i < canWriteCount then
      match data[i]? with
      | none => none
      | some x =>
        (f.storeAtTail x).bind (fun f1 => writeLoopFree length canWriteCount data fuel (i + 1) f1)
    else some (i, f)

/-- The second loop of `write`, `for( i; i < length; i++)`, from loop counter `i` on. -/
def writeLoopOver (length : Nat) (data : List α) :
    Nat → Nat → MirroredFifo α → Option (MirroredFifo α)
  | 0, i, f => if i < length then none else some f
  | fuel + 1, i, f =>
    if i < length then
      match data[i]? with
      | none => none
      | some x =>
        (f.storeAtTail x).bind (fun f1 => writeLoopOver length data fuel (i + 1) f1.bumpHead)
    else some f

/-- `write(length, data, overwrite)`: the returned count and the state afterwards.  Each
loop runs at most `length` times, which is the fuel it gets. -/
def write (f : MirroredFifo α) (length : Nat) (data : List α) (overwrite : Bool) :
    Option (Nat × MirroredFifo α) :=
  let canWriteCount := f.canWrite
  let length := if !overwrite && decide (length > canWriteCount) then canWriteCount else length
  (writeLoopFree length canWriteCount data length 0 f).bind (fun r =>
    (writeLoopOver length data length r.1 r.2).bind (fun f2 => some (length, f2)))

/-- `writeOne(data, overwrite)`: the returned count and the state afterwards. -/
def writeOne (f : MirroredFifo α) (data : α) (overwrite : Bool) :
    Option (Nat × MirroredFifo α) :=
  let canWriteCount := f.canWrite
  if !overwrite && decide (canWriteCount = 0) then some (0, f)
  else
    (f.storeAtTail data).bind (fun f1 =>
      if canWriteCount = 0 then some (1, f1.bumpHead) else some (1, f1))

/-- `read(length, data)`: the returned count, the items copied to the caller's array by
`memcpy` and the state afterwards.  A copy that runs past the end of the storage is
`none`. -/
def read (f : MirroredFifo α) (length : Nat) : Option (Nat × List α × MirroredFifo α) :=
  let canReadCount := f.canRead
  if canReadCount = 0 then some (0, [], f)
  else
    let length := if length > canReadCount then canReadCount else length
    if f.m_headIndex + length ≤ f.m_storage.length then
      let out := (f.m_storage.drop f.m_headIndex).take length
      let h := f.m_headIndex + length
      some (length, out,
        { f with m_headIndex := if h ≥ f.m_fifoLength then h - f.m_fifoLength else h })
    else none

/-- `readOne()`: the returned item and the state afterwards. -/
def readOne (f : MirroredFifo α) : Option (α × MirroredFifo α) :=
  match f.m_storage[f.m_headIndex]? with
  | none => none
  | some thing =>
    let h := f.m_headIndex + 1
    some (thing, { f with m_headIndex := if h ≥ f.m_fifoLength then h - f.m_fifoLength else h })

/-- `debug_printContents()`: the values printed, `m_storage[m_headIndex + i]` for
`i < canRead()`. -/
def debug_printContents (f : MirroredFifo α) : Option (List α) :=
  (List.range f.canRead).mapM (fun i => f.m_storage[f.m_headIndex + i]?)

/-- The queued items, oldest first: the slice `m_storage[m_headIndex .. m_headIndex + canRead())`
that `read` copies and `debug_printContents` prints. -/
def queued (f : MirroredFifo α) : List α :=
  (f.m_storage.drop f.m_headIndex).take f.canRead

/-- The states that calls of `write`, `writeOne`, `read`, `readOne` and `clear` reach from
the object `new N`. -/
inductive Reachable [Inhabited α] (N : Nat) : MirroredFifo α → Prop
  | new : Reachable N (MirroredFifo.new N)
  | write {f f1 : MirroredFifo α} {n : Nat} (length : Nat) (data : List α) (overwrite : Bool) :
      Reachable N f → f.write length data overwrite = some (n, f1) → Reachable N f1
  | writeOne {f f1 : MirroredFifo α} {n : Nat} (x : α) (overwrite : Bool) :
      Reachable N f → f.writeOne x overwrite = some (n, f1) → Reachable N f1
  | read {f f1 : MirroredFifo α} {n : Nat} {out : List α} (length : Nat) :
      Reachable N f → f.read length = some (n, out, f1) → Reachable N f1
  | readOne {f f1 : MirroredFifo α} {x : α} :
      Reachable N f → f.readOne = some (x, f1) → Reachable N f1
  | clear {f : MirroredFifo α} : Reachable N f → Reachable N f.clear

/-- The states of a fifo constructed with `fifoLength = N`: a call of the constructor that
returns, then any calls of `write`, `writeOne`, `read`, `readOne` and `clear`. -/
inductive Built [Inhabited α] (max_size N : Nat) : MirroredFifo α → Prop
  | construct {f : MirroredFifo α} :
      MirroredFifo.construct max_size N = some f → Built max_size N f
  | write {f f1 : MirroredFifo α} {n : Nat} (length : Nat) (data : List α) (overwrite : Bool) :
      Built max_size N f → f.write length data overwrite = some (n, f1) → Built max_size N f1
  | writeOne {f f1 : MirroredFifo α} {n : Nat} (x : α) (overwrite : Bool) :
      Built max_size N f → f.writeOne x overwrite = some (n, f1) → Built max_size N f1
  | read {f f1 : MirroredFifo α} {n : Nat} {out : List α} (length : Nat) :
      Built max_size N f → f.read length = some (n, out, f1) → Built max_size N f1
  | readOne {f f1 : MirroredFifo α} {x : α} :
      Built max_size N f → f.readOne = some (x, f1) → Built max_size N f1
  | clear {f : MirroredFifo α} : Built max_size N f → Built max_size N f.clear

end MirroredFifo

/-! ## Invariants -/

/-- The representation invariant of a delay line of length `N`. -/
structure DelayInv {α : Type} (N : Nat) (d : MirroredDelayLine α) : Prop where
  len : d.m_delayLineLength = N
  total : d.m_totalStorageLength = 2 * N
  size : d.m_storage.length = 2 * N
  idx : d.m_index < N
  mirror : ∀ i, i < N → d.m_storage[i]? = d.m_storage[i + N]?

/-- The representation invariant of a fifo of usable capacity `N`. -/
structure FifoInv {α : Type} (N : Nat) (f : MirroredFifo α) : Prop where
  len : f.m_fifoLength = N + 1
  total : f.m_totalStorageLength = 2 * (N + 1)
  size : f.m_storage.length = 2 * (N + 1)
  head : f.m_headIndex < N + 1
  tail : f.m_tailIndex < N + 1
  mirror : ∀ i, i < N + 1 → f.m_storage[i]? = f.m_storage[i + (N + 1)]?

/-- The last `n` elements of a list. -/
def lastN {α : Type} (n : Nat) (l : List α) : List α := l.drop (l.length - n)

/-! ## Call sequences and the reference ring read -/

namespace MirroredFifo

variable {α : Type}

/-- Writing the arrays of a list one after the other, each whole array `xs` with
`write(|xs|, xs, false)`. -/
def writeAll (f : MirroredFifo α) : List (List α) → Option (MirroredFifo α)
  | [] => some f
  | xs :: rest => (f.write xs.length xs false).bind (fun r => writeAll r.2 rest)

/-- The read of an ordinary ring buffer, to compare the contiguous copy of `read` with:
item `i` of the `n` items is `m_storage[(m_headIndex + i) % m_fifoLength]`, every index
reduced modulo the slot count. -/
def moduloRead (f : MirroredFifo α) (n : Nat) : Option (List α) :=
  (List.range n).mapM (fun i => f.m_storage[(f.m_headIndex + i) % f.m_fifoLength]?)

/-- Calling `writeOne(x, overwrite)` for each `x` of a list in order: the sum of the
returned counts and the state afterwards. -/
def writeEach (f : MirroredFifo α) (overwrite : Bool) : List α → Option (Nat × MirroredFifo α)
  | [] => some (0, f)
  | x :: xs =>
    (f.writeOne x overwrite).bind (fun r =>
      (writeEach r.2 overwrite xs).bind (fun s => some (r.1 + s.1, s.2)))

end MirroredFifo

/-! ## Example states -/

/-- The fifo of capacity 3 after `write(2, {1, 2})`. -/
def fifoTwoQueued : MirroredFifo Int :=
  { m_fifoLength := 4, m_totalStorageLength := 8, m_storage := [1, 2, 0, 0, 1, 2, 0, 0]
    m_headIndex := 0, m_tailIndex := 2 }

/-- The fifo of capacity 3 after `write(3, {1, 2, 3})` and `read(2, out)`. -/
def fifoHeadMoved : MirroredFifo Int :=
  { m_fifoLength := 4, m_totalStorageLength := 8, m_storage := [1, 2, 3, 0, 1, 2, 3, 0]
    m_headIndex := 2, m_tailIndex := 3 }

/-- The fifo of capacity 3 after `write(3, {1, 2, 3})`, `read(2, out)` and `read(1, out)`:
empty, with head and tail at slot 3. -/
def fifoDrained : MirroredFifo Int :=
  { m_fifoLength := 4, m_totalStorageLength := 8, m_storage := [1, 2, 3, 0, 1, 2, 3, 0]
    m_headIndex := 3, m_tailIndex := 3 }

/-- The fifo of capacity 3 after three more items `{7, 8, 9}` were written to `fifoDrained`:
the queued slice starts at slot 3 and runs into the mirrored half. -/
def fifoWrapped : MirroredFifo Int :=
  { m_fifoLength := 4, m_totalStorageLength := 8, m_storage := [8, 9, 3, 7, 8, 9, 3, 7]
    m_headIndex := 3, m_tailIndex := 2 }

/-- The delay line of length 3 after `append(1)`, `append(2)`, `append(3)`, `append(4)`. -/
def delayLineFour : MirroredDelayLine Int :=
  { m_delayLineLength := 3, m_totalStorageLength := 6, m_storage := [4, 2, 3, 4, 2, 3]
    m_index := 1 }

/-- `std::vector<int>::max_size()` of libstdc++ on a 64 bit host, `PTRDIFF_MAX / sizeof(int)`. -/
def maxSizeInt : Nat := 2305843009213693951

/-- The object `MirroredDelayLine<int>(9223372036854775808, 0)`, of length `2 ^ 63`: the
storage length `2 * 2 ^ 63` wraps to 0. -/
def delayLineNoStorage : MirroredDelayLine Int :=
  { m_delayLineLength := 9223372036854775808, m_totalStorageLength := 0, m_storage := []
    m_index := 0 }

/-- The object `MirroredFifo<int>(9223372036854775807)`, of capacity `2 ^ 63 - 1`:
`m_fifoLength` is `2 ^ 63` and the storage length `2 * 2 ^ 63` wraps to 0. -/
def fifoNoStorage : MirroredFifo Int :=
  { m_fifoLength := 9223372036854775808, m_totalStorageLength := 0, m_storage := []
    m_headIndex := 0, m_tailIndex := 0 }

/-- The object `MirroredFifo<int>(9223372036854775808)`, of capacity `2 ^ 63`: `m_fifoLength`
is `2 ^ 63 + 1` and the storage length `2 * (2 ^ 63 + 1)` wraps to 2. -/
def fifoShortStorage : MirroredFifo Int :=
  { m_fifoLength := 9223372036854775809, m_totalStorageLength := 2, m_storage := [0, 0]
    m_headIndex := 0, m_tailIndex := 0 }

/-- The fifo `fifoShortStorage` after `readOne()`: the head is at slot 1 and `canRead()` is
`2 ^ 63`. -/
def fifoShortStorageRead : MirroredFifo Int :=
  { m_fifoLength := 9223372036854775809, m_totalStorageLength := 2, m_storage := [0, 0]
    m_headIndex := 1, m_tailIndex := 0 }

/-- The fifo `fifoShortStorage` after two calls of `readOne()`: the head is at slot 2, past
the two slots of the storage, and `canRead()` is `2 ^ 63 - 1`. -/
def fifoShortStorageReadTwice : MirroredFifo Int :=
  { m_fifoLength := 9223372036854775809, m_totalStorageLength := 2, m_storage := [0, 0]
    m_headIndex := 2, m_tailIndex := 0 }

/-! ## WavWriter -/

/-- `struct wavutil_header`.  The `char[4]` tags are lists of characters, the `uint16_t`
and `uint32_t` fields are natural numbers below `2 ^ 16` and `2 ^ 32`. -/
structure wavutil_header where
  riffTag : List Char
  riffChunkLength : Nat
  waveTag : List Char
  fmtTag : List Char
  fmtChunkLength : Nat
  audioFormat : Nat
  numChannels : Nat
  sampleRate : Nat
  byteRate : Nat
  blockAlign : Nat
  bitsPerSample : Nat
  dataTag : List Char
  dataChunkLength : Nat
deriving DecidableEq

/-- `WAVE_FORMAT_PCM`. -/
def WAVE_FORMAT_PCM : Nat := 1

/-- `WAVE_FORMAT_IEEE_FLOAT`. -/
def WAVE_FORMAT_IEEE_FLOAT : Nat := 3

/-- A stdio stream opened on a file: the bytes of the file and the file position. -/
structure FILE where
  content : List Nat
  position : Nat
deriving DecidableEq

namespace WavWriter

/-- `sizeof(struct wavutil_header)`: thirteen fields of 4, 4, 4, 4, 4, 2, 2, 4, 4, 2, 2, 4
and 4 bytes, each at an offset that is a multiple of its alignment, so without padding. -/
def sizeofHeader : Nat := 44

/-- The `w` bytes of an unsigned value in memory, least significant byte first. -/
def leBytes : Nat → Nat → List Nat
  | 0, _ => []
  | w + 1, v => v % 256 :: leBytes w (v / 256)

/-- The unsigned value of bytes in memory, least significant byte first. -/
def leValue : List Nat → Nat
  | [] => 0
  | b :: bs => b + 256 * leValue bs

/-- The memory image of a header, which `fwrite(&header, sizeof(header), 1, file)` writes:
the fields in declaration order. -/
def headerBytes (h : wavutil_header) : List Nat :=
  h.riffTag.map Char.toNat ++ leBytes 4 h.riffChunkLength ++ h.waveTag.map Char.toNat ++
    h.fmtTag.map Char.toNat ++ leBytes 4 h.fmtChunkLength ++ leBytes 2 h.audioFormat ++
    leBytes 2 h.numChannels ++ leBytes 4 h.sampleRate ++ leBytes 4 h.byteRate ++ leBytes 2 h.blockAlign ++
    leBytes 2 h.bitsPerSample ++ h.dataTag.map Char.toNat ++ leBytes 4 h.dataChunkLength

/-- The header whose memory image is the given 44 bytes, as `fread(&header, ..)` leaves
it. -/
def headerOfBytes (b : List Nat) : wavutil_header :=
  { riffTag := (b.take 4).map Char.ofNat
    riffChunkLength := leValue ((b.drop 4).take 4)
    waveTag := ((b.drop 8).take 4).map Char.ofNat
    fmtTag := ((b.drop 12).take 4).map Char.ofNat
    fmtChunkLength := leValue ((b.drop 16).take 4)
    audioFormat := leValue ((b.drop 20).take 2)
    numChannels := leValue ((b.drop 22).take 2)
    sampleRate := leValue ((b.drop 24).take 4)
    byteRate := leValue ((b.drop 28).take 4)
    blockAlign := leValue ((b.drop 32).take 2)
    bitsPerSample := leValue ((b.drop 34).take 2)
    dataTag := ((b.drop 36).take 4).map Char.ofNat
    dataChunkLength := leValue ((b.drop 40).take 4) }

/-- `fwrite(buf, 1, |buf|, file)`: the bytes replace or extend the file from the file
position on (a position past the end leaves a gap of zero bytes). -/
def fwrite (file : FILE) (buf : List Nat) : FILE :=
  { content := file.content.take file.position ++
      List.replicate (file.position - file.content.length) 0 ++ buf ++
      file.content.drop (file.position + buf.length)
    position := file.position + buf.length }

/-- `fseek(file, offset, SEEK_SET)`. -/
def fseek (file : FILE) (offset : Nat) : FILE := { file with position := offset }

/-- `ftell(file)`. -/
def ftell (file : FILE) : Nat := file.position

/-- `fread(buf, 1, count, file)`: the bytes read, at most `count`, and the stream after. -/
def fread (file : FILE) (count : Nat) : List Nat × FILE :=
  let got := (file.content.drop file.position).take count
  (got, { file with position := file.position + got.length })

/-- `createEmptyHeader()`. -/
def createEmptyHeader : wavutil_header :=
  { riffTag := "RIFF".toList.take 4
    riffChunkLength := sizeofHeader - 8
    waveTag := "WAVE".toList.take 4
    fmtTag := "fmt ".toList.take 4
    fmtChunkLength := 16
    audioFormat := 0
    numChannels := 0
    sampleRate := 0
    byteRate := 0
    blockAlign := 0
    bitsPerSample := 0
    dataTag := "data".toList.take 4
    dataChunkLength := 0 }

/-- The local `header` of `writeHeader` after its assignments.  `byteRate` is computed in
`uint32_t` arithmetic, `blockAlign` in `int` (where the product of two `uint16_t` values
does not overflow) and then stored in a `uint16_t`. -/
def buildHeader (audioFormat numChannels sampleRate bitsPerSample : Nat) : wavutil_header :=
  { createEmptyHeader with
    audioFormat := audioFormat
    numChannels := numChannels
    sampleRate := sampleRate
    byteRate := (sampleRate * (bitsPerSample / 8) % 4294967296 * numChannels) % 4294967296
    blockAlign := ((bitsPerSample / 8) * numChannels) % 65536
    bitsPerSample := bitsPerSample }

/-- `writeHeader(file, audioFormat, numChannels, sampleRate, bitsPerSample)`; `none` is
the null stream, on which nothing is written. -/
def writeHeader (file : Option FILE) (audioFormat numChannels sampleRate bitsPerSample : Nat) :
    Option FILE :=
  match file with
  | none => none
  | some f =>
    some (fwrite f (headerBytes (buildHeader audioFormat numChannels sampleRate bitsPerSample)))

/-- `writeData(file, data, length)`, with `data` the bytes of the caller's array.  `none`
is the null stream; it also stands for the undefined read of `length` bytes from a
shorter array.  The lengths are computed in `size_t` and stored in `uint32_t`. -/
def writeData (file : Option FILE) (data : List Nat) (length : Nat) : Option FILE :=
  match file with
  | none => none
  | some f =>
    if length ≤ data.length then
      let f1 := fwrite f (data.take length)
      let fileLength := ftell f1
      let dataChunkLength :=
        (fileLength + 18446744073709551616 - sizeofHeader) % 18446744073709551616 % 4294967296
      let riffChunkLength :=
        (fileLength + 18446744073709551616 - 8) % 18446744073709551616 % 4294967296
      let f2 := fwrite (fseek f1 (sizeofHeader - 4)) (leBytes 4 dataChunkLength)
      let f3 := fwrite (fseek f2 4) (leBytes 4 riffChunkLength)
      some (fseek f3 fileLength)
    else none

/-- The two bytes of an `int16_t` in memory. -/
def int16Bytes (s : Int) : List Nat := leBytes 2 (s % 65536).toNat

/-- The `int16_t` whose unsigned bit pattern is `u`. -/
def toInt16 (u : Nat) : Int := if u < 32768 then (u : Int) else (u : Int) - 65536

/-- The bytes of an `int16_t` array, the view `(uint8_t*)data`. -/
def samplesBytes (data : List Int) : List Nat := data.flatMap int16Bytes

/-- The `int16_t` array whose memory holds the given bytes. -/
def samplesOfBytes : List Nat → List Int
  | lo :: hi :: rest => toInt16 (lo + 256 * hi) :: samplesOfBytes rest
  | _ => []

/-- `writeWav16(data, sampleCount, sampleRate, filename)`, given the result `file` of
`fopen(filename, "wb+")`: the stream when it is closed, `none` when nothing is written. -/
def writeWav16 (data : List Int) (sampleCount sampleRate : Nat) (file : Option FILE) :
    Option FILE :=
  match file with
  | none => none
  | some f =>
    let f1 := writeHeader (some f) WAVE_FORMAT_PCM 1 sampleRate 16
    writeData f1 (samplesBytes data) (sampleCount * 2 % 4294967296)

/-- `readWav16(filename)`, given the result `file` of `fopen(filename, "rb")`: the
returned samples.  `none` is the undefined `fread` of more bytes than the resized vector
holds, which an odd `dataChunkLength` causes.  `&samples[0]` only forms an address; with
a `dataChunkLength` below 2 the vector is empty and nothing is stored through it. -/
def readWav16 (file : Option FILE) : Option (List Int) :=
  match file with
  | none => some []
  | some f =>
    let r := fread f sizeofHeader
    let image := r.1 ++ List.replicate (sizeofHeader - r.1.length) 0
    let header := headerOfBytes image
    if header.audioFormat ≠ 1 then some []
    else if header.numChannels ≠ 1 then some []
    else if header.bitsPerSample ≠ 16 then some []
    else
      let count := header.dataChunkLength / 2
      let r2 := fread r.2 header.dataChunkLength
      if r2.1.length ≤ 2 * count then
        some (samplesOfBytes (r2.1 ++ List.replicate (2 * count - r2.1.length) 0))
      else none

end WavWriter

/-! ## FilterFactory

`Float` of the source is the C type `float`; here the binary floating point type of Lean
stands for it and for the `double` intermediate values, so the numeric values of the
coefficients are not those of the source.  `int` is `Int`; the one `int` expression that
can leave the range of `int` is `order + 1`, see `addInt`.  The `default:` branches of the
`switch` statements are taken by values outside the enumerations only and have no
counterpart here. -/

/-- `FilterWindowType::Type`. -/
inductive FilterWindowType where
  | RECTANGULAR
  | BARTLETT
  | HANNING
  | HAMMING
  | BLACKMAN

/-- `FilterType::Type`. -/
inductive FilterType where
  | LOWPASS
  | HIGHPASS
  | BANDPASS
  | BANDSTOP
  | ALLPASS

/-- `struct FilterHolderType`. -/
structure FilterHolderType where
  order : Int
  coefficients : List Float

namespace FilterFactory

/-- `M_PI`. -/
def M_PI : Float := 3.14159265358979323846

/-- `INT_MAX`, for a 32 bit `int`. -/
def INT_MAX : Int := 2147483647

/-- `INT_MIN`, for a 32 bit `int`. -/
def INT_MIN : Int := -2147483648

/-- The `int` expression `a + b`; a sum outside the range of `int` is undefined behaviour,
which is `none`. -/
def addInt (a b : Int) : Option Int :=
  if INT_MIN ≤ a + b ∧ a + b ≤ INT_MAX then some (a + b) else none

/-- `std::vector<Float> v(count, value)` with an `int` count: a negative count converts to
a `size_t` above `max_size()` and the constructor throws, which is `none`. -/
def vectorOf (count : Int) (value : Float) : Option (List Float) :=
  if 0 ≤ count then some (List.replicate count.toNat value) else none

/-- The assignment `v[n] = value` with an `int` index; an index outside the vector is
`none`. -/
def setAt (v : List Float) (n : Int) (value : Float) : Option (List Float) :=
  if 0 ≤ n ∧ n.toNat < v.length then some (v.set n.toNat value) else none

/-- The read `v[n]` with an `int` index; an index outside the vector is `none`. -/
def getAt (v : List Float) (n : Int) : Option Float :=
  if 0 ≤ n then v[n.toNat]? else none

/-- The loop `for( int n = ..; n < bound; n++ ) body`, from counter `n` on; running out of
fuel with the loop condition still true is `none`. -/
def forLoop {σ : Type} (bound : Int) (body : Int → σ → Option σ) : Nat → Int → σ → Option σ
  | 0, n, s => if n < bound then none else some s
  | fuel + 1, n, s =>
    if n < bound then (body n s).bind (fun s1 => forLoop bound body fuel (n + 1) s1)
    else some s

/-- `createWindowWeights(order, windowType)`; `count` is the value of `order+1`, which every
branch computes first. -/
def createWindowWeights (order : Int) (windowType : FilterWindowType) : Option (List Float) :=
  (addInt order 1).bind (fun count =>
  match windowType with
  | .RECTANGULAR => vectorOf count 1.0
  | .BARTLETT =>
    (vectorOf count 0.0).bind (fun window =>
      forLoop count (fun n w =>
        setAt w n (1.0 - (2.0 * Float.abs (Float.ofInt (n - order.tdiv 2)) / Float.ofInt order)))
        count.toNat 0 window)
  | .HANNING =>
    (vectorOf count 0.0).bind (fun window =>
      forLoop count (fun n w =>
        setAt w n (0.5 - 0.5 * Float.cos (2.0 * M_PI * (Float.ofInt n / Float.ofInt order))))
        count.toNat 0 window)
  | .HAMMING =>
    (vectorOf count 0.0).bind (fun window =>
      forLoop count (fun n w =>
        setAt w n (0.54 - 0.46 * Float.cos (2.0 * M_PI * (Float.ofInt n / Float.ofInt order))))
        count.toNat 0 window)
  | .BLACKMAN =>
    (vectorOf count 0.0).bind (fun window =>
      forLoop count (fun n w =>
        setAt w n (0.42 - 0.5 * Float.cos (2.0 * M_PI * (Float.ofInt n / Float.ofInt order))
          + 0.08 * Float.cos (4.0 * M_PI * (Float.ofInt n / Float.ofInt order))))
        count.toNat 0 window))

/-- The term `sin( 2.0 * M_PI * Ft * (Float)(n - (order/2)) ) / (M_PI * (Float)(n - (order/2)))`
of `createSincWeights`. -/
def sincTerm (order n : Int) (Ft : Float) : Float :=
  Float.sin (2.0 * M_PI * Ft * Float.ofInt (n - order.tdiv 2))
    / (M_PI * Float.ofInt (n - order.tdiv 2))

/-- `createSincWeights(order, filterType, Fs, Fc1, Fc2)`; `count` is the value of `order+1`,
which every branch computes before it does anything that can fail. -/
def createSincWeights (order : Int) (filterType : FilterType) (Fs Fc1 Fc2 : Float) :
    Option (List Float) :=
  (addInt order 1).bind (fun count =>
  match filterType with
  | .LOWPASS =>
    let Ft := Fc1 / Fs
    (vectorOf count 0.0).bind (fun weights =>
      forLoop count (fun n w =>
        if n = order.tdiv 2 then setAt w n (2.0 * Ft)
        else setAt w n (sincTerm order n Ft))
        count.toNat 0 weights)
  | .HIGHPASS =>
    let Ft := Fc1 / Fs
    (vectorOf count 0.0).bind (fun weights =>
      forLoop count (fun n w =>
        if n = order.tdiv 2 then setAt w n (1.0 - (2.0 * Ft))
        else setAt w n (-1.0 * Float.sin (2.0 * M_PI * Ft * Float.ofInt (n - order.tdiv 2))
          / (M_PI * Float.ofInt (n - order.tdiv 2))))
        count.toNat 0 weights)
  | .BANDPASS =>
    let Ft1 := Fc1 / Fs
    let Ft2 := Fc2 / Fs
    (vectorOf count 0.0).bind (fun weights =>
      forLoop count (fun n w =>
        if n = order.tdiv 2 then setAt w n (2.0 * (Ft2 - Ft1))
        else setAt w n (sincTerm order n Ft2 - sincTerm order n Ft1))
        count.toNat 0 weights)
  | .BANDSTOP =>
    let Ft1 := Fc1 / Fs
    let Ft2 := Fc2 / Fs
    (vectorOf count 0.0).bind (fun weights =>
      forLoop count (fun n w =>
        if n = order.tdiv 2 then setAt w n (1.0 - (2.0 * (Ft2 - Ft1)))
        else setAt w n (sincTerm order n Ft1 - sincTerm order n Ft2))
        count.toNat 0 weights)
  | .ALLPASS =>
    (vectorOf count 0.0).bind (fun weights => setAt weights (order.tdiv 2) 1.0))

/-- `createFilterWeights(order, windowType, filterType, Fs, Fc1, Fc2)`; `count` is the
value of `order+1` in the conditions of the three loops. -/
def createFilterWeights (order : Int) (windowType : FilterWindowType)
    (filterType : FilterType) (Fs Fc1 Fc2 : Float) : Option (List Float) :=
  (createWindowWeights order windowType).bind (fun window =>
    (createSincWeights order filterType Fs Fc1 Fc2).bind (fun weights0 =>
      (addInt order 1).bind (fun count =>
      (forLoop count (fun n w =>
          (getAt window n).bind (fun a => (getAt w n).bind (fun b => setAt w n (a * b))))
        count.toNat 0 weights0).bind (fun weights1 =>
        let FtSelected : Float :=
          match filterType with
          | .LOWPASS => 0.0
          | .BANDSTOP => 0.0
          | .HIGHPASS => 0.499
          | .BANDPASS => (Fc1 / Fs + Fc2 / Fs) / 2.0
          | .ALLPASS => 0.0
        (forLoop count (fun n g =>
            (getAt weights1 n).bind (fun wn =>
              some (g.1 + wn * Float.cos (2.0 * M_PI * FtSelected * Float.ofInt (n - order.tdiv 2)),
                g.2 - wn * Float.sin (2.0 * M_PI * FtSelected * Float.ofInt (n - order.tdiv 2)))))
          count.toNat 0 ((0.0 : Float), (0.0 : Float))).bind (fun g =>
          let gain := Float.sqrt (g.1 * g.1 + g.2 * g.2)
          forLoop count (fun n w => (getAt w n).bind (fun wn => setAt w n (wn / gain)))
            count.toNat 0 weights1)))))

/-- `createFilter(order, windowType, filterType, Fs, Fc1, Fc2)`. -/
def createFilter (order : Int) (windowType : FilterWindowType) (filterType : FilterType)
    (Fs Fc1 Fc2 : Float) : Option FilterHolderType :=
  (createFilterWeights order windowType filterType Fs Fc1 Fc2).bind (fun coefficients =>
    some { order := order, coefficients := coefficients })

end FilterFactory

/-! ## Lemmas on the constructors -/

section Constructors

variable {α : Type}

theorem vectorOfSize_spec (max_size n : Nat) (value : α) (h : n ≤ max_size) :
    vectorOfSize max_size n value = some (List.replicate n value) := by
  unfold vectorOfSize
  rw [if_pos h]

theorem vectorOfSize_length {max_size n : Nat} {value : α} {v : List α}
    (h : vectorOfSize max_size n value = some v) : v = List.replicate n value ∧ n ≤ max_size := by
  unfold vectorOfSize at h
  by_cases hn : n ≤ max_size
  · rw [if_pos hn] at h
    cases h
    exact ⟨rfl, hn⟩
  · rw [if_neg hn] at h
    cases h

theorem delayLine_construct_spec [Inhabited α] {max_size N : Nat}
    (hN : 2 * N < 18446744073709551616) (hM : 2 * N ≤ max_size) :
    MirroredDelayLine.construct max_size N = some (MirroredDelayLine.new N : MirroredDelayLine α) := by
  unfold MirroredDelayLine.construct
  simp only [Nat.mod_eq_of_lt hN, vectorOfSize_spec _ _ _ hM, Option.some_bind]
  rfl

theorem delayLine_constructFill_spec {max_size N : Nat} (v : α)
    (hN : 2 * N < 18446744073709551616) (hM : 2 * N ≤ max_size) :
    MirroredDelayLine.constructFill max_size N v = some (MirroredDelayLine.newFill N v) := by
  unfold MirroredDelayLine.constructFill
  simp only [Nat.mod_eq_of_lt hN, vectorOfSize_spec _ _ _ hM, Option.some_bind]
  rfl

theorem delayLine_construct_eq [Inhabited α] {max_size N : Nat} {d : MirroredDelayLine α}
    (hN : 2 * N < 18446744073709551616) (hc : MirroredDelayLine.construct max_size N = some d) :
    d = MirroredDelayLine.new N ∧ 2 * N ≤ max_size := by
  unfold MirroredDelayLine.construct at hc
  simp only [Nat.mod_eq_of_lt hN] at hc
  cases hv : vectorOfSize max_size (2 * N) (default : α) with
  | none =>
    rw [hv] at hc
    cases hc
  | some v =>
    rw [hv] at hc
    obtain ⟨hv1, hv2⟩ := vectorOfSize_length hv
    subst hv1
    simp only [Option.some_bind, Option.some.injEq] at hc
    exact ⟨hc.symm, hv2⟩

theorem delayLine_constructFill_eq {max_size N : Nat} {v : α} {d : MirroredDelayLine α}
    (hN : 2 * N < 18446744073709551616)
    (hc : MirroredDelayLine.constructFill max_size N v = some d) :
    d = MirroredDelayLine.newFill N v ∧ 2 * N ≤ max_size := by
  unfold MirroredDelayLine.constructFill at hc
  simp only [Nat.mod_eq_of_lt hN] at hc
  cases hv : vectorOfSize max_size (2 * N) v with
  | none =>
    rw [hv] at hc
    cases hc
  | some w =>
    rw [hv] at hc
    obtain ⟨hv1, hv2⟩ := vectorOfSize_length hv
    subst hv1
    simp only [Option.some_bind, Option.some.injEq] at hc
    exact ⟨hc.symm, hv2⟩

theorem delayLine_built_reachable [Inhabited α] [ByteFill α] {max_size N : Nat}
    {d : MirroredDelayLine α} (hN : 2 * N < 18446744073709551616)
    (hb : MirroredDelayLine.Built max_size N d) : MirroredDelayLine.Reachable N d := by
  induction hb with
  | construct hc =>
    rw [(delayLine_construct_eq hN hc).1]
    exact MirroredDelayLine.Reachable.new
  | constructFill v hc =>
    rw [(delayLine_constructFill_eq hN hc).1]
    exact MirroredDelayLine.Reachable.newFill v
  | append x _ ha ih => exact MirroredDelayLine.Reachable.append x ih ha
  | clear v _ hc ih => exact MirroredDelayLine.Reachable.clear v ih hc

theorem delayLine_reachable_built [Inhabited α] [ByteFill α] {max_size N : Nat}
    {d : MirroredDelayLine α} (hN : 2 * N < 18446744073709551616) (hM : 2 * N ≤ max_size)
    (hr : MirroredDelayLine.Reachable N d) : MirroredDelayLine.Built max_size N d := by
  induction hr with
  | new => exact MirroredDelayLine.Built.construct (delayLine_construct_spec hN hM)
  | newFill v => exact MirroredDelayLine.Built.constructFill v (delayLine_constructFill_spec v hN hM)
  | append x _ ha ih => exact MirroredDelayLine.Built.append x ih ha
  | clear v _ hc ih => exact MirroredDelayLine.Built.clear v ih hc

theorem fifo_construct_spec [Inhabited α] {max_size N : Nat}
    (hN : 2 * (N + 1) < 18446744073709551616) (hM : 2 * (N + 1) ≤ max_size) :
    MirroredFifo.construct max_size N = some (MirroredFifo.new N : MirroredFifo α) := by
  unfold MirroredFifo.construct
  have h1 : (N + 1) % 18446744073709551616 = N + 1 := Nat.mod_eq_of_lt (by omega)
  simp only [h1, Nat.mod_eq_of_lt hN, vectorOfSize_spec _ _ _ hM, Option.some_bind]
  rfl

theorem fifo_construct_eq [Inhabited α] {max_size N : Nat} {f : MirroredFifo α}
    (hN : 2 * (N + 1) < 18446744073709551616) (hc : MirroredFifo.construct max_size N = some f) :
    f = MirroredFifo.new N ∧ 2 * (N + 1) ≤ max_size := by
  unfold MirroredFifo.construct at hc
  have h1 : (N + 1) % 18446744073709551616 = N + 1 := Nat.mod_eq_of_lt (by omega)
  simp only [h1, Nat.mod_eq_of_lt hN] at hc
  cases hv : vectorOfSize max_size (2 * (N + 1)) (default : α) with
  | none =>
    rw [hv] at hc
    cases hc
  | some v =>
    rw [hv] at hc
    obtain ⟨hv1, hv2⟩ := vectorOfSize_length hv
    subst hv1
    simp only [Option.some_bind, Option.some.injEq] at hc
    exact ⟨hc.symm, hv2⟩

theorem fifo_built_reachable [Inhabited α] {max_size N : Nat} {f : MirroredFifo α}
    (hN : 2 * (N + 1) < 18446744073709551616) (hb : MirroredFifo.Built max_size N f) :
    MirroredFifo.Reachable N f := by
  induction hb with
  | construct hc =>
    rw [(fifo_construct_eq hN hc).1]
    exact MirroredFifo.Reachable.new
  | write length data overwrite _ hw ih => exact MirroredFifo.Reachable.write length data overwrite ih hw
  | writeOne x overwrite _ hw ih => exact MirroredFifo.Reachable.writeOne x overwrite ih hw
  | read length _ hrd ih => exact MirroredFifo.Reachable.read length ih hrd
  | readOne _ hrd ih => exact MirroredFifo.Reachable.readOne ih hrd
  | clear _ ih => exact MirroredFifo.Reachable.clear ih

theorem fifo_reachable_built [Inhabited α] {max_size N : Nat} {f : MirroredFifo α}
    (hN : 2 * (N + 1) < 18446744073709551616) (hM : 2 * (N + 1) ≤ max_size)
    (hr : MirroredFifo.Reachable N f) : MirroredFifo.Built max_size N f := by
  induction hr with
  | new => exact MirroredFifo.Built.construct (fifo_construct_spec hN hM)
  | write length data overwrite _ hw ih => exact MirroredFifo.Built.write length data overwrite ih hw
  | writeOne x overwrite _ hw ih => exact MirroredFifo.Built.writeOne x overwrite ih hw
  | read length _ hrd ih => exact MirroredFifo.Built.read length ih hrd
  | readOne _ hrd ih => exact MirroredFifo.Built.readOne ih hrd
  | clear _ ih => exact MirroredFifo.Built.clear ih

theorem delayLineNoStorage_built :
    MirroredDelayLine.Built maxSizeInt 9223372036854775808 delayLineNoStorage :=
  MirroredDelayLine.Built.constructFill 0 (by decide)

theorem fifoNoStorage_built : MirroredFifo.Built maxSizeInt 9223372036854775807 fifoNoStorage :=
  MirroredFifo.Built.construct (by decide)

theorem fifoShortStorage_built :
    MirroredFifo.Built maxSizeInt 9223372036854775808 fifoShortStorage :=
  MirroredFifo.Built.construct (by decide)

theorem fifoShortStorageRead_built :
    MirroredFifo.Built maxSizeInt 9223372036854775808 fifoShortStorageRead :=
  MirroredFifo.Built.readOne fifoShortStorage_built
    (by decide : fifoShortStorage.readOne = some (0, fifoShortStorageRead))

theorem fifoShortStorageReadTwice_built :
    MirroredFifo.Built maxSizeInt 9223372036854775808 fifoShortStorageReadTwice :=
  MirroredFifo.Built.readOne fifoShortStorageRead_built
    (by decide : fifoShortStorageRead.readOne = some (0, fifoShortStorageReadTwice))

end Constructors

/-! ## Lemmas on the delay line -/

section DelayLine

variable {α : Type}

theorem getElem_opt_set_set (s : List α) (a b j : Nat) (x : α) (ha : a < s.length)
    (hb : b < s.length) :
    ((s.set a x).set b x)[j]? = if j = a ∨ j = b then some x else s[j]? := by
  simp only [List.getElem?_set, List.length_set]
  by_cases h1 : b = j
  · subst h1
    rw [if_pos rfl, if_pos hb, if_pos (Or.inr rfl)]
  · rw [if_neg h1]
    by_cases h2 : a = j
    · subst h2
      rw [if_pos rfl, if_pos ha, if_pos (Or.inl rfl)]
    · rw [if_neg h2, if_neg (by omega)]

theorem delayInv_newFill (N : Nat) (hN : 0 < N) (v : α) :
    DelayInv N (MirroredDelayLine.newFill N v) where
  len := rfl
  total := rfl
  size := by simp [MirroredDelayLine.newFill]
  idx := hN
  mirror := by
    intro i hi
    simp only [MirroredDelayLine.newFill, List.getElem?_replicate]
    rw [if_pos (by omega), if_pos (by omega)]

theorem delayInv_new [Inhabited α] (N : Nat) (hN : 0 < N) :
    DelayInv N (MirroredDelayLine.new N : MirroredDelayLine α) :=
  delayInv_newFill N hN default

theorem delayInv_clear [ByteFill α] {N : Nat} {d d1 : MirroredDelayLine α} (v : α)
    (h : DelayInv N d) (hc : d.clear v = some d1) : DelayInv N d1 := by
  have hN : 0 < N := Nat.lt_of_le_of_lt (Nat.zero_le _) h.idx
  unfold MirroredDelayLine.clear at hc
  rw [if_pos (by rw [h.total, h.size])] at hc
  cases hc
  refine ⟨h.len, h.total, ?_, hN, ?_⟩
  · simp [h.total, h.size]
  · intro i hi
    simp only [h.total, List.getElem?_append, List.length_replicate, List.getElem?_replicate]
    rw [if_pos (by omega), if_pos (by omega), if_pos (by omega), if_pos (by omega)]

/-- The state after `append`, slot by slot. -/
theorem delayInv_append {N : Nat} {d : MirroredDelayLine α} (x : α) (h : DelayInv N d) :
    ∃ d1, d.append x = some d1 ∧ DelayInv N d1 ∧
      d1.m_index = (if d.m_index + 1 = N then 0 else d.m_index + 1) ∧
      ∀ j, d1.m_storage[j]? =
        if j = d.m_index ∨ j = d.m_index + N then some x else d.m_storage[j]? := by
  have hi := h.idx
  have hs := h.size
  have hl := h.len
  have hst : ∀ j, ((d.m_storage.set d.m_index x).set (d.m_index + N) x)[j]? =
      if j = d.m_index ∨ j = d.m_index + N then some x else d.m_storage[j]? :=
    fun j => getElem_opt_set_set _ _ _ _ _ (by omega) (by omega)
  refine ⟨{ d with
      m_storage := (d.m_storage.set d.m_index x).set (d.m_index + N) x
      m_index := if d.m_index + 1 = N then 0 else d.m_index + 1 }, ?_, ?_, ?_, ?_⟩
  rotate_left
  · refine ⟨hl, h.total, by simp [hs], ?_, ?_⟩
    · show (if d.m_index + 1 = N then 0 else d.m_index + 1) < N
      split <;> omega
    · intro i hiN
      show ((d.m_storage.set d.m_index x).set (d.m_index + N) x)[i]? =
        ((d.m_storage.set d.m_index x).set (d.m_index + N) x)[i + N]?
      rw [hst, hst]
      by_cases hc : i = d.m_index
      · rw [if_pos (Or.inl hc), if_pos (Or.inr (by omega))]
      · rw [if_neg (by omega), if_neg (by omega)]
        exact h.mirror i hiN
  · rfl
  · exact hst
  · unfold MirroredDelayLine.append
    rw [if_pos (by omega)]
    simp only [List.length_set]
    rw [if_pos (by omega), hl]

theorem reachable_delayInv [Inhabited α] [ByteFill α] {N : Nat} (hN : 0 < N)
    {d : MirroredDelayLine α} (h : MirroredDelayLine.Reachable N d) : DelayInv N d := by
  induction h with
  | new => exact delayInv_new N hN
  | newFill v => exact delayInv_newFill N hN v
  | append x _ ha ih =>
    obtain ⟨d2, h2, hinv, -⟩ := delayInv_append x ih
    rw [h2] at ha
    cases ha
    exact hinv
  | clear v _ hc ih => exact delayInv_clear v ih hc


theorem window_getElem_opt (d : MirroredDelayLine α) (n : Nat) :
    d.window[n]? = if n < d.m_delayLineLength then d.m_storage[d.m_index + n]? else none := by
  simp only [MirroredDelayLine.window, MirroredDelayLine.data, MirroredDelayLine.length,
    List.getElem?_take, List.getElem?_drop]

theorem window_length {N : Nat} {d : MirroredDelayLine α} (h : DelayInv N d) :
    d.window.length = N := by
  have := h.idx
  simp only [MirroredDelayLine.window, MirroredDelayLine.data, MirroredDelayLine.length,
    List.length_take, List.length_drop, h.size, h.len]
  omega

/-- One `append` drops the first element of the window and puts the new value last. -/
theorem window_append {N : Nat} {d d1 : MirroredDelayLine α} (x : α) (h : DelayInv N d)
    (ha : d.append x = some d1) : d1.window = d.window.drop 1 ++ [x] := by
  obtain ⟨d2, h2, hinv, hidx, hst⟩ := delayInv_append x h
  rw [h2] at ha
  cases ha
  have hi := h.idx
  have hwl := window_length h
  apply List.ext_getElem?
  intro n
  have hL : d1.window[n]? = if n < N then d1.m_storage[d1.m_index + n]? else none := by
    rw [window_getElem_opt, hinv.len]
  have hR : (d.window.drop 1 ++ [x])[n]? =
      if n < N - 1 then d.m_storage[d.m_index + (1 + n)]? else [x][n - (N - 1)]? := by
    rw [List.getElem?_append, List.length_drop, hwl, List.getElem?_drop, window_getElem_opt, h.len]
    by_cases hn : n < N - 1
    · rw [if_pos hn, if_pos hn, if_pos (by omega)]
    · rw [if_neg hn, if_neg hn]
  rw [hL, hR, hst]
  by_cases hn : n < N - 1
  · rw [if_pos (by omega), if_pos hn]
    by_cases hw : d.m_index + 1 = N
    · rw [hidx, if_pos hw, if_neg (by omega), Nat.zero_add, h.mirror n (by omega)]
      congr 1
      omega
    · rw [hidx, if_neg hw, if_neg (by omega)]
      congr 1
      omega
  · rw [if_neg hn]
    by_cases hn2 : n < N
    · have hn3 : n - (N - 1) = 0 := by omega
      rw [if_pos hn2, hn3]
      by_cases hw : d.m_index + 1 = N
      · rw [hidx, if_pos hw, if_pos (by omega)]
        rfl
      · rw [hidx, if_neg hw, if_pos (by omega)]
        rfl
    · rw [if_neg hn2, List.getElem?_eq_none (by simp; omega)]

theorem drop_one_append_cons {l : List α} (hl : 0 < l.length) (x : α) (xs : List α) :
    (l.drop 1 ++ [x]) ++ xs = (l ++ x :: xs).drop 1 := by
  cases l with
  | nil => simp at hl
  | cons a l => simp

theorem appendAll_window {N : Nat} (xs : List α) :
    ∀ {d : MirroredDelayLine α}, DelayInv N d →
      ∃ d1, d.appendAll xs = some d1 ∧ DelayInv N d1 ∧
        d1.window = (d.window ++ xs).drop xs.length := by
  induction xs with
  | nil =>
    intro d h
    exact ⟨d, rfl, h, by simp⟩
  | cons x xs ih =>
    intro d h
    obtain ⟨d2, h2, hinv, -⟩ := delayInv_append x h
    obtain ⟨d3, h3, hinv3, hw3⟩ := ih hinv
    refine ⟨d3, ?_, hinv3, ?_⟩
    · simp only [MirroredDelayLine.appendAll, h2, Option.bind, h3]
    · have hwl := window_length h
      have hN : 0 < N := Nat.lt_of_le_of_lt (Nat.zero_le _) h.idx
      rw [hw3, window_append x h h2, drop_one_append_cons (by omega), List.drop_drop,
        List.length_cons, Nat.add_comm]

theorem window_newFill (N : Nat) (v : α) :
    (MirroredDelayLine.newFill N v).window = List.replicate N v := by
  simp only [MirroredDelayLine.window, MirroredDelayLine.data, MirroredDelayLine.length,
    MirroredDelayLine.newFill, List.drop_zero, List.take_replicate]
  congr 1
  omega

theorem naiveShift_spec (N : Nat) :
    ∀ (fuel i : Nat) (u : List α), u.length = N → i ≤ N - 1 → N - 1 ≤ i + fuel →
      ∃ r, naiveShift N fuel i u = some r ∧ r.length = N ∧
        ∀ j, r[j]? = if j < i then u[j]? else if j < N - 1 then u[j + 1]? else u[j]? := by
  intro fuel
  induction fuel with
  | zero =>
    intro i u hu hi hf
    refine ⟨u, ?_, hu, ?_⟩
    · unfold naiveShift
      rw [if_neg (by omega)]
    · intro j
      by_cases hj : j < i
      · rw [if_pos hj]
      · rw [if_neg hj, if_neg (by omega)]
  | succ fuel ih =>
    intro i u hu hi hf
    by_cases hc : i < N - 1
    · have hb : i + 1 < u.length := by omega
      have hy : u[i + 1]? = some u[i + 1] := List.getElem?_eq_getElem hb
      obtain ⟨r, hr, hrl, hrj⟩ := ih (i + 1) (u.set i u[i + 1])
        (by rw [List.length_set, hu]) (by omega) (by omega)
      refine ⟨r, ?_, hrl, ?_⟩
      · unfold naiveShift
        rw [if_pos hc, hy]
        simp only []
        rw [if_pos (by omega)]
        exact hr
      · intro j
        rw [hrj, List.getElem?_set, List.getElem?_set]
        by_cases h1 : j < i
        · rw [if_pos (by omega), if_pos h1, if_neg (by omega)]
        · rw [if_neg h1]
          by_cases h2 : j = i
          · subst h2
            rw [if_pos (by omega), if_pos rfl, if_pos (by omega), if_pos hc, hy]
          · rw [if_neg (by omega)]
            by_cases h3 : j < N - 1
            · rw [if_pos h3, if_pos h3, if_neg (by omega)]
            · rw [if_neg h3, if_neg h3, if_neg (by omega)]
    · refine ⟨u, ?_, hu, ?_⟩
      · unfold naiveShift
        rw [if_neg hc]
      · intro j
        by_cases hj : j < i
        · rw [if_pos hj]
        · rw [if_neg hj, if_neg (by omega)]

/-- The naive shift-register append moves every element down one place and stores the new
value last. -/
theorem naiveAppend_eq {N : Nat} (hN : 0 < N) (u : List α) (hu : u.length = N) (r : α) :
    naiveAppend N u r = some (u.drop 1 ++ [r]) := by
  obtain ⟨v, hv, hvl, hvj⟩ := naiveShift_spec N N 0 u hu (by omega) (by omega)
  unfold naiveAppend
  rw [hv]
  simp only [Option.bind]
  rw [if_pos (by omega)]
  congr 1
  apply List.ext_getElem?
  intro j
  have hR : (u.drop 1 ++ [r])[j]? = if j < N - 1 then u[j + 1]? else [r][j - (N - 1)]? := by
    rw [List.getElem?_append, List.length_drop, hu, List.getElem?_drop, Nat.add_comm]
  have hV : v[j]? = if j < N - 1 then u[j + 1]? else u[j]? := by
    rw [hvj, if_neg (Nat.not_lt_zero j)]
  rw [List.getElem?_set, hvl, hV, hR]
  by_cases h1 : N - 1 = j
  · subst h1
    rw [if_pos rfl, if_pos (by omega), if_neg (by omega), Nat.sub_self]
    rfl
  · rw [if_neg h1]
    by_cases h2 : j < N - 1
    · rw [if_pos h2, if_pos h2]
    · rw [if_neg h2, if_neg h2, List.getElem?_eq_none (by omega),
        List.getElem?_eq_none (by simp; omega)]

theorem subscript_eq_window {N : Nat} {d : MirroredDelayLine α} (h : DelayInv N d)
    (hS : 2 * N < 18446744073709551616) (i : Nat)
    (hi : i < N) : d.subscript i = d.window[i]? := by
  have hidx := h.idx
  rw [window_getElem_opt, h.len, if_pos hi, MirroredDelayLine.subscript,
    Nat.mod_eq_of_lt (by omega), Nat.add_comm]

/-! ## Claims on the delay line -/

/-- C1, as the code has it: for every `N > 0` with `2N < 2^64`, every fill value and every
list `xs` of `k ≥ N` values appended one at a time to the object `d0` that the constructor
call `MirroredDelayLine(N, fill)` returned, every append succeeds and the window read
through `data()`, the slice `storage[cursor .. cursor+N)`, is the last `N` values of `xs`
in the order they were appended. -/
theorem delayLine_window_is_last_N (max_size N : Nat) (hN : 0 < N)
    (hS : 2 * N < 18446744073709551616) (fill : α) (d0 : MirroredDelayLine α)
    (hc : MirroredDelayLine.constructFill max_size N fill = some d0) (xs : List α)
    (hk : N ≤ xs.length) :
    ∃ d, d0.appendAll xs = some d ∧
      d.length = N ∧ d.data.take d.length = xs.drop (xs.length - N) := by
  rw [(delayLine_constructFill_eq hS hc).1]
  obtain ⟨d, hd, hinv, hw⟩ := appendAll_window xs (delayInv_newFill N hN fill)
  refine ⟨d, hd, hinv.len, ?_⟩
  show d.window = _
  rw [hw, window_newFill]
  have hlen : xs.length = (List.replicate N fill).length + (xs.length - N) := by
    rw [List.length_replicate]
    omega
  conv_lhs => rw [hlen]
  rw [List.drop_append]

/-- Scenario of C1, as the code has it: `MirroredDelayLine(5, 0)` after appending `0..9`. -/
theorem delayLine_window_is_last_N_witness :
    0 < 5 ∧ 2 * 5 < 18446744073709551616 ∧
    MirroredDelayLine.constructFill maxSizeInt 5 (0 : Int)
      = some (MirroredDelayLine.newFill 5 0) ∧
    5 ≤ [(0 : Int), 1, 2, 3, 4, 5, 6, 7, 8, 9].length ∧
    ∃ d, (MirroredDelayLine.newFill 5 (0 : Int)).appendAll [0, 1, 2, 3, 4, 5, 6, 7, 8, 9]
        = some d ∧ d.length = 5 ∧
      d.data.take d.length = [(0 : Int), 1, 2, 3, 4, 5, 6, 7, 8, 9].drop (10 - 5) :=
  ⟨by decide, by decide, by decide, by decide,
    delayLine_window_is_last_N maxSizeInt 5 (by decide) (by decide) 0
      (MirroredDelayLine.newFill 5 0) (by decide) [0, 1, 2, 3, 4, 5, 6, 7, 8, 9] (by decide)⟩

/-- C1 as stated fails: `MirroredDelayLine<int>(9223372036854775808, 0)`, of length
`N = 2^63 > 0`, is constructed with an empty storage, because `2 * N` wraps to 0, and the
first `append` of any sequence stores past its end. -/
theorem delayLine_window_storage_wraps :
    MirroredDelayLine.constructFill maxSizeInt 9223372036854775808 (0 : Int)
      = some delayLineNoStorage ∧
    delayLineNoStorage.length = 9223372036854775808 ∧
    delayLineNoStorage.window = [] ∧
    ∀ (x : Int) (xs : List Int), delayLineNoStorage.appendAll (x :: xs) = none :=
  ⟨by decide, rfl, by decide, fun _ _ => rfl⟩

/-- C2, as the code has it: in every state of a delay line constructed with `N > 0` and
`2N < 2^64`, `append(v)` succeeds and shifts the window left by one place: afterwards
`operator[](N-1)` is `v`, `operator[](i)` is the previous `operator[](i+1)` for every
`i < N-1`, and the new window is what the naive shift-register append of
`doTimingComparisons` makes of the old window. -/
theorem delayLine_append_shifts_window [Inhabited α] [ByteFill α] (max_size N : Nat)
    (hN : 0 < N) (hS : 2 * N < 18446744073709551616)
    (d : MirroredDelayLine α) (hb : MirroredDelayLine.Built max_size N d) (v : α) :
    ∃ d1, d.append v = some d1 ∧
      d1.subscript (N - 1) = some v ∧
      (∀ i, i < N - 1 → ∃ y, d.subscript (i + 1) = some y ∧ d1.subscript i = some y) ∧
      d1.window = d.window.drop 1 ++ [v] ∧
      naiveAppend N d.window v = some d1.window := by
  have hinv := reachable_delayInv hN (delayLine_built_reachable hS hb)
  obtain ⟨d1, h1, hinv1, -⟩ := delayInv_append v hinv
  have hw := window_append v hinv h1
  have hwl := window_length hinv
  refine ⟨d1, h1, ?_, ?_, hw, ?_⟩
  · rw [subscript_eq_window hinv1 hS _ (by omega), hw, List.getElem?_append, List.length_drop,
      hwl, if_neg (by omega), Nat.sub_self]
    rfl
  · intro i hi
    have hlt : i + 1 < d.window.length := by omega
    refine ⟨d.window[i + 1], ?_, ?_⟩
    · rw [subscript_eq_window hinv hS _ (by omega)]
      exact List.getElem?_eq_getElem hlt
    · rw [subscript_eq_window hinv1 hS _ (by omega), hw, List.getElem?_append, List.length_drop,
        hwl, if_pos hi, List.getElem?_drop, Nat.add_comm]
      exact List.getElem?_eq_getElem hlt
  · rw [hw]
    exact naiveAppend_eq hN _ hwl v

/-- C2, as the code has it, at the state of `MirroredDelayLine(3, 0)` after `append(1)`,
appending `9`. -/
theorem delayLine_append_shifts_window_witness :
    ∃ d1, ({ m_delayLineLength := 3, m_totalStorageLength := 6,
             m_storage := [1, 0, 0, 1, 0, 0], m_index := 1 } :
            MirroredDelayLine Int).append 9 = some d1 ∧
      d1.subscript (3 - 1) = some 9 ∧
      (∀ i, i < 3 - 1 → ∃ y,
        ({ m_delayLineLength := 3, m_totalStorageLength := 6,
           m_storage := [1, 0, 0, 1, 0, 0], m_index := 1 } :
          MirroredDelayLine Int).subscript (i + 1) = some y ∧ d1.subscript i = some y) ∧
      d1.window = ({ m_delayLineLength := 3, m_totalStorageLength := 6,
                     m_storage := [1, 0, 0, 1, 0, 0], m_index := 1 } :
                    MirroredDelayLine Int).window.drop 1 ++ [9] ∧
      naiveAppend 3 ({ m_delayLineLength := 3, m_totalStorageLength := 6,
                       m_storage := [1, 0, 0, 1, 0, 0], m_index := 1 } :
                      MirroredDelayLine Int).window 9 = some d1.window :=
  delayLine_append_shifts_window maxSizeInt 3 (by decide) (by decide) _
    (MirroredDelayLine.Built.append 1
      (MirroredDelayLine.Built.constructFill 0
        (by decide : MirroredDelayLine.constructFill maxSizeInt 3 (0 : Int)
          = some (MirroredDelayLine.newFill 3 0)))
      (by decide)) 9

/-- C2 as stated fails: the delay line of length `2^63` is constructed with an empty
storage, and on it `append(v)` stores past the end for every `v` instead of shifting the
window. -/
theorem delayLine_append_storage_wraps :
    MirroredDelayLine.Built maxSizeInt 9223372036854775808 delayLineNoStorage ∧
    ∀ v : Int, delayLineNoStorage.append v = none :=
  ⟨delayLineNoStorage_built, fun _ => rfl⟩

/-- C3, as the code has it: mirror invariant of the delay line.  For every `N > 0` with
`2N < 2^64` and every state reached from a returned call of either constructor by `append`
and `clear` calls, the slots `i` and `i + N` of the storage exist and hold the same value,
for every `i < N`. -/
theorem delayLine_mirror_invariant [Inhabited α] [ByteFill α] (max_size N : Nat)
    (hN : 0 < N) (hS : 2 * N < 18446744073709551616)
    (d : MirroredDelayLine α) (hb : MirroredDelayLine.Built max_size N d) (i : Nat)
    (hi : i < N) :
    ∃ y, d.m_storage[i]? = some y ∧ d.m_storage[i + N]? = some y := by
  have hinv := reachable_delayInv hN (delayLine_built_reachable hS hb)
  have hlt : i < d.m_storage.length := by rw [hinv.size]; omega
  refine ⟨d.m_storage[i], List.getElem?_eq_getElem hlt, ?_⟩
  rw [← hinv.mirror i hi]
  exact List.getElem?_eq_getElem hlt

/-- C3, as the code has it, at the state of `MirroredDelayLine(2)` after `clear(1)` and
`append(7)`. -/
theorem delayLine_mirror_invariant_witness :
    ∃ y, ({ m_delayLineLength := 2, m_totalStorageLength := 4,
            m_storage := [7, 16843009, 7, 16843009], m_index := 1 } :
           MirroredDelayLine Int).m_storage[0]? = some y ∧
        ({ m_delayLineLength := 2, m_totalStorageLength := 4,
           m_storage := [7, 16843009, 7, 16843009], m_index := 1 } :
          MirroredDelayLine Int).m_storage[0 + 2]? = some y :=
  delayLine_mirror_invariant maxSizeInt 2 (by decide) (by decide) _
    (MirroredDelayLine.Built.append 7
      (MirroredDelayLine.Built.clear 1
        (MirroredDelayLine.Built.construct
          (by decide : MirroredDelayLine.construct maxSizeInt 2
            = some (MirroredDelayLine.new 2 : MirroredDelayLine Int)))
        (by decide : (MirroredDelayLine.new 2 : MirroredDelayLine Int).clear 1 =
          some { m_delayLineLength := 2, m_totalStorageLength := 4,
                 m_storage := [16843009, 16843009, 16843009, 16843009], m_index := 0 }))
      (by decide)) 0 (by decide)

/-- C3 as stated fails: in the delay line of length `N = 2^63`, whose storage length
`2 * N` wraps to 0, there is no slot 0 and no slot `0 + N`. -/
theorem delayLine_mirror_storage_wraps :
    MirroredDelayLine.Built maxSizeInt 9223372036854775808 delayLineNoStorage ∧
    delayLineNoStorage.m_storage.length = 0 ∧
    delayLineNoStorage.m_storage[0]? = none ∧
    delayLineNoStorage.m_storage[0 + 9223372036854775808]? = none :=
  ⟨delayLineNoStorage_built, rfl, rfl, rfl⟩


end DelayLine

/-! ## Lemmas on the fifo -/

section Fifo

variable {α : Type}

theorem fifoInv_new [Inhabited α] (N : Nat) : FifoInv N (MirroredFifo.new N : MirroredFifo α) where
  len := rfl
  total := rfl
  size := by simp [MirroredFifo.new]
  head := Nat.succ_pos N
  tail := Nat.succ_pos N
  mirror := by
    intro i hi
    simp only [MirroredFifo.new, List.getElem?_replicate]
    rw [if_pos (by omega), if_pos (by omega)]

theorem fifoInv_clear {N : Nat} {f : MirroredFifo α} (h : FifoInv N f) : FifoInv N f.clear :=
  ⟨h.len, h.total, h.size, Nat.succ_pos N, Nat.succ_pos N, h.mirror⟩

theorem canRead_eq {N : Nat} {f : MirroredFifo α} (h : FifoInv N f) :
    f.canRead = (f.m_tailIndex + (N + 1) - f.m_headIndex) % (N + 1) := by
  have hh := h.head
  have ht := h.tail
  unfold MirroredFifo.canRead
  rw [h.len]
  by_cases h1 : f.m_headIndex = f.m_tailIndex
  · rw [if_pos h1, h1, Nat.add_sub_cancel_left, Nat.mod_self]
  · rw [if_neg h1]
    by_cases h2 : f.m_tailIndex > f.m_headIndex
    · rw [if_pos h2]
      have : f.m_tailIndex + (N + 1) - f.m_headIndex = (f.m_tailIndex - f.m_headIndex) + (N + 1) := by
        omega
      rw [this, Nat.add_mod_right, Nat.mod_eq_of_lt (by omega)]
    · rw [if_neg h2, Nat.mod_eq_of_lt (by omega)]

theorem canRead_le {N : Nat} {f : MirroredFifo α} (h : FifoInv N f) : f.canRead ≤ N := by
  rw [canRead_eq h]
  have := Nat.mod_lt (f.m_tailIndex + (N + 1) - f.m_headIndex) (by omega : 0 < N + 1)
  omega

theorem canRead_add_canWrite {N : Nat} {f : MirroredFifo α} (h : FifoInv N f) :
    f.canRead + f.canWrite = N := by
  have hh := h.head
  have ht := h.tail
  unfold MirroredFifo.canRead MirroredFifo.canWrite
  rw [h.len]
  split_ifs <;> omega

theorem queued_getElem_opt (f : MirroredFifo α) (n : Nat) :
    f.queued[n]? = if n < f.canRead then f.m_storage[f.m_headIndex + n]? else none := by
  simp only [MirroredFifo.queued, List.getElem?_take, List.getElem?_drop]

theorem queued_length {N : Nat} {f : MirroredFifo α} (h : FifoInv N f) :
    f.queued.length = f.canRead := by
  have := h.head
  have := canRead_le h
  simp only [MirroredFifo.queued, List.length_take, List.length_drop, h.size]
  omega

/-- The state after the store-and-advance block, slot by slot. -/
theorem storeAtTail_spec {N : Nat} {f : MirroredFifo α} (x : α) (h : FifoInv N f) :
    ∃ f1, f.storeAtTail x = some f1 ∧ FifoInv N f1 ∧
      f1.m_headIndex = f.m_headIndex ∧
      f1.m_tailIndex = (if f.m_tailIndex + 1 = N + 1 then 0 else f.m_tailIndex + 1) ∧
      ∀ j, f1.m_storage[j]? =
        if j = f.m_tailIndex ∨ j = f.m_tailIndex + (N + 1) then some x else f.m_storage[j]? := by
  have ht := h.tail
  have hs := h.size
  have hl := h.len
  have hst : ∀ j, ((f.m_storage.set f.m_tailIndex x).set (f.m_tailIndex + (N + 1)) x)[j]? =
      if j = f.m_tailIndex ∨ j = f.m_tailIndex + (N + 1) then some x else f.m_storage[j]? :=
    fun j => getElem_opt_set_set _ _ _ _ _ (by omega) (by omega)
  refine ⟨{ f with
      m_storage := (f.m_storage.set f.m_tailIndex x).set (f.m_tailIndex + (N + 1)) x
      m_tailIndex := if f.m_tailIndex + 1 = N + 1 then 0 else f.m_tailIndex + 1 },
    ?_, ?_, rfl, rfl, hst⟩
  · unfold MirroredFifo.storeAtTail
    rw [if_pos (by omega)]
    simp only [List.length_set]
    rw [if_pos (by omega), hl]
  · refine ⟨hl, h.total, by simp [hs], h.head, ?_, ?_⟩
    · show (if f.m_tailIndex + 1 = N + 1 then 0 else f.m_tailIndex + 1) < N + 1
      split <;> omega
    · intro i hiN
      show ((f.m_storage.set f.m_tailIndex x).set (f.m_tailIndex + (N + 1)) x)[i]? =
        ((f.m_storage.set f.m_tailIndex x).set (f.m_tailIndex + (N + 1)) x)[i + (N + 1)]?
      rw [hst, hst]
      by_cases hc : i = f.m_tailIndex
      · rw [if_pos (Or.inl hc), if_pos (Or.inr (by omega))]
      · rw [if_neg (by omega), if_neg (by omega)]
        exact h.mirror i hiN

theorem bumpHead_spec {N : Nat} {f : MirroredFifo α} (h : FifoInv N f) :
    FifoInv N f.bumpHead ∧
      f.bumpHead.m_headIndex = (if f.m_headIndex + 1 = N + 1 then 0 else f.m_headIndex + 1) ∧
      f.bumpHead.m_tailIndex = f.m_tailIndex ∧ f.bumpHead.m_storage = f.m_storage := by
  have hh := h.head
  refine ⟨⟨h.len, h.total, h.size, ?_, h.tail, h.mirror⟩, ?_, rfl, rfl⟩
  · show (if f.m_headIndex + 1 = f.m_fifoLength then 0 else f.m_headIndex + 1) < N + 1
    rw [h.len]
    split <;> omega
  · show (if f.m_headIndex + 1 = f.m_fifoLength then 0 else f.m_headIndex + 1) = _
    rw [h.len]

theorem wrap_cases (a L : Nat) :
    (a + 1 = L ∧ (if a + 1 = L then 0 else a + 1) = 0) ∨
      (a + 1 ≠ L ∧ (if a + 1 = L then 0 else a + 1) = a + 1) := by
  by_cases h : a + 1 = L
  · exact Or.inl ⟨h, if_pos h⟩
  · exact Or.inr ⟨h, if_neg h⟩

theorem canRead_cases {N : Nat} {f : MirroredFifo α} (h : FifoInv N f) :
    (f.m_headIndex ≤ f.m_tailIndex ∧ f.canRead = f.m_tailIndex - f.m_headIndex) ∨
      (f.m_tailIndex < f.m_headIndex ∧
        f.canRead = f.m_tailIndex + (N + 1) - f.m_headIndex) := by
  unfold MirroredFifo.canRead
  rw [h.len]
  split_ifs <;> omega

/-- Storing into a fifo that is not full appends the item to the queued items. -/
theorem storeAtTail_free {N : Nat} {f f1 : MirroredFifo α} (x : α) (h : FifoInv N f)
    (hw : 0 < f.canWrite) (hs : f.storeAtTail x = some f1) :
    FifoInv N f1 ∧ f1.m_headIndex = f.m_headIndex ∧ f1.canRead = f.canRead + 1 ∧
      f1.queued = f.queued ++ [x] := by
  obtain ⟨f2, h2, hinv, hhd, htl, hst⟩ := storeAtTail_spec x h
  rw [h2] at hs
  cases hs
  have hh := h.head
  have ht := h.tail
  have hrw := canRead_add_canWrite h
  have hcr := canRead_cases h
  have hcr1 := canRead_cases hinv
  rw [hhd] at hcr1
  have htl1 := wrap_cases f.m_tailIndex (N + 1)
  rw [← htl] at htl1
  have hcr2 : f1.canRead = f.canRead + 1 := by omega
  refine ⟨hinv, hhd, hcr2, ?_⟩
  apply List.ext_getElem?
  intro n
  rw [queued_getElem_opt, hcr2, hhd, hst, List.getElem?_append, queued_length h, queued_getElem_opt]
  by_cases hn : n < f.canRead
  · rw [if_pos (by omega), if_pos hn, if_pos hn, if_neg (by omega)]
  · rw [if_neg hn]
    by_cases hn2 : n = f.canRead
    · rw [if_pos (by omega), hn2, Nat.sub_self, if_pos (by omega)]
      rfl
    · rw [if_neg (by omega), List.getElem?_eq_none (by simp; omega)]

/-- Storing into a full fifo and advancing the head drops the oldest queued item and
appends the new one. -/
theorem storeAtTail_over {N : Nat} {f f1 : MirroredFifo α} (x : α) (h : FifoInv N f)
    (hw : f.canWrite = 0) (hs : f.storeAtTail x = some f1) :
    FifoInv N f1.bumpHead ∧ f1.bumpHead.canWrite = 0 ∧
      f1.bumpHead.m_headIndex = (f.m_headIndex + 1) % (N + 1) ∧
      f1.bumpHead.queued = (f.queued ++ [x]).drop 1 := by
  obtain ⟨f2, h2, hinv, hhd, htl, hst⟩ := storeAtTail_spec x h
  rw [h2] at hs
  cases hs
  obtain ⟨hinvb, hbh, hbt, hbs⟩ := bumpHead_spec hinv
  have hh := h.head
  have ht := h.tail
  have hrw := canRead_add_canWrite h
  have hrwb := canRead_add_canWrite hinvb
  have hcr := canRead_cases h
  have hcrb := canRead_cases hinvb
  rw [hbt] at hcrb
  have htl1 := wrap_cases f.m_tailIndex (N + 1)
  rw [← htl] at htl1
  have hhd1 := wrap_cases f.m_headIndex (N + 1)
  rw [← hhd, ← hbh, hhd] at hhd1
  have hfull : f.canRead = N := by omega
  have hfullb : f1.bumpHead.canRead = N := by omega
  have hmod : (f.m_headIndex + 1) % (N + 1) = f1.bumpHead.m_headIndex := by
    rcases hhd1 with ⟨hc, he⟩ | ⟨hc, he⟩
    · rw [he, hc, Nat.mod_self]
    · rw [he, Nat.mod_eq_of_lt (by omega)]
  refine ⟨hinvb, by omega, hmod.symm, ?_⟩
  apply List.ext_getElem?
  intro n
  rw [queued_getElem_opt, hfullb, hbs, hst, List.getElem?_drop, List.getElem?_append,
    queued_length h, queued_getElem_opt, hfull]
  by_cases hn : n < N
  · rw [if_pos hn]
    by_cases hn1 : 1 + n < N
    · rw [if_pos hn1, if_pos hn1, if_neg (by omega)]
      rcases hhd1 with ⟨hc, he⟩ | ⟨hc, he⟩
      · rw [he, Nat.zero_add, h.mirror n (by omega)]
        congr 1
        omega
      · rw [he]
        congr 1
        omega
    · rw [if_neg hn1, if_pos (by omega)]
      have : 1 + n - N = 0 := by omega
      rw [this]
      rfl
  · rw [if_neg hn, if_neg (by omega), List.getElem?_eq_none (by simp; omega)]

theorem take_drop_cons (data : List α) (m i : Nat) (x : α) (hx : data[i]? = some x)
    (hi : i < m) : (data.take m).drop i = x :: (data.take m).drop (i + 1) := by
  have hlt : i < data.length := by
    by_contra hc
    rw [List.getElem?_eq_none (by omega)] at hx
    cases hx
  have hlt2 : i < (data.take m).length := by
    rw [List.length_take]
    omega
  rw [List.drop_eq_getElem_cons hlt2, List.getElem_take]
  rw [List.getElem?_eq_getElem hlt] at hx
  cases hx
  rfl

theorem drop_take_self (data : List α) (m : Nat) : (data.take m).drop m = [] :=
  List.drop_of_length_le (by simp)

theorem drop_one_append {l : List α} (hl : 0 < l.length) (r : List α) :
    l.drop 1 ++ r = (l ++ r).drop 1 := by
  cases l with
  | nil => simp at hl
  | cons a l => simp

/-- The first loop of `write`: it runs to `i = m`, the smaller of `length` and
`canWriteCount`, and appends `data[i .. m)` to the queued items. -/
theorem writeLoopFree_spec {N : Nat} (length cwc m : Nat) (data : List α)
    (hml : m ≤ length) (hmc : m ≤ cwc) (hm : m = length ∨ m = cwc) (hd : m ≤ data.length) :
    ∀ (fuel i : Nat) (f : MirroredFifo α), FifoInv N f → i ≤ m → m ≤ i + fuel →
      f.canWrite + i = cwc →
      ∃ f1, MirroredFifo.writeLoopFree length cwc data fuel i f = some (m, f1) ∧
        FifoInv N f1 ∧ f1.m_headIndex = f.m_headIndex ∧ f1.canWrite + m = cwc ∧
        f1.queued = f.queued ++ (data.take m).drop i := by
  intro fuel
  induction fuel with
  | zero =>
    intro i f h hi hf hc
    have him : i = m := by omega
    subst him
    refine ⟨f, ?_, h, rfl, hc, ?_⟩
    · unfold MirroredFifo.writeLoopFree
      rw [if_neg (by omega)]
    · rw [drop_take_self, List.append_nil]
  | succ fuel ih =>
    intro i f h hi hf hc
    by_cases hlt : i < m
    · have hb : i < data.length := by omega
      have hx : data[i]? = some data[i] := List.getElem?_eq_getElem hb
      obtain ⟨f1, h1, -⟩ := storeAtTail_spec data[i] h
      obtain ⟨hinv1, hhd1, hcr1, hq1⟩ := storeAtTail_free _ h (by omega) h1
      have hrw := canRead_add_canWrite h
      have hrw1 := canRead_add_canWrite hinv1
      obtain ⟨f2, h2, hinv2, hhd2, hcw2, hq2⟩ := ih (i + 1) f1 hinv1 (by omega) (by omega)
        (by omega)
      refine ⟨f2, ?_, hinv2, by rw [hhd2, hhd1], hcw2, ?_⟩
      · unfold MirroredFifo.writeLoopFree
        rw [if_pos ⟨by omega, by omega⟩, hx]
        simp only [h1, Option.bind]
        exact h2
      · rw [hq2, hq1, List.append_assoc, take_drop_cons data m i _ hx hlt]
        rfl
    · have him : i = m := by omega
      subst him
      refine ⟨f, ?_, h, rfl, hc, ?_⟩
      · unfold MirroredFifo.writeLoopFree
        rw [if_neg (by omega)]
      · rw [drop_take_self, List.append_nil]

/-- The second loop of `write`: each of its `length - i` passes stores one item into the
full fifo and drops the oldest one. -/
theorem writeLoopOver_spec {N : Nat} (length : Nat) (data : List α) (hd : length ≤ data.length) :
    ∀ (fuel i : Nat) (f : MirroredFifo α), FifoInv N f → i ≤ length → length ≤ i + fuel →
      (i < length → f.canWrite = 0) →
      ∃ f1, MirroredFifo.writeLoopOver length data fuel i f = some f1 ∧
        FifoInv N f1 ∧ f1.m_headIndex = (f.m_headIndex + (length - i)) % (N + 1) ∧
        f1.canRead = f.canRead ∧
        f1.queued = (f.queued ++ (data.take length).drop i).drop (length - i) := by
  intro fuel
  induction fuel with
  | zero =>
    intro i f h hi hf hc
    have him : i = length := by omega
    subst him
    refine ⟨f, ?_, h, ?_, rfl, ?_⟩
    · unfold MirroredFifo.writeLoopOver
      rw [if_neg (by omega)]
    · rw [Nat.sub_self, Nat.add_zero, Nat.mod_eq_of_lt h.head]
    · rw [Nat.sub_self, List.drop_zero, drop_take_self, List.append_nil]
  | succ fuel ih =>
    intro i f h hi hf hc
    by_cases hlt : i < length
    · have hb : i < data.length := by omega
      have hx : data[i]? = some data[i] := List.getElem?_eq_getElem hb
      obtain ⟨f1, h1, -⟩ := storeAtTail_spec data[i] h
      obtain ⟨hinv1, hcw1, hhd1, hq1⟩ := storeAtTail_over _ h (hc hlt) h1
      have hrw := canRead_add_canWrite h
      have hrw1 := canRead_add_canWrite hinv1
      have hc0 := hc hlt
      obtain ⟨f2, h2, hinv2, hhd2, hcr2, hq2⟩ := ih (i + 1) f1.bumpHead hinv1 (by omega)
        (by omega) (fun _ => hcw1)
      refine ⟨f2, ?_, hinv2, ?_, by omega, ?_⟩
      · unfold MirroredFifo.writeLoopOver
        rw [if_pos hlt, hx]
        simp only [h1, Option.bind]
        exact h2
      · rw [hhd2, hhd1, Nat.mod_add_mod]
        congr 1
        omega
      · rw [hq2, hq1, drop_one_append (by simp), List.drop_drop, List.append_assoc,
          take_drop_cons data length i _ hx hlt]
        congr 1
        omega
    · have him : i = length := by omega
      subst him
      refine ⟨f, ?_, h, ?_, rfl, ?_⟩
      · unfold MirroredFifo.writeLoopOver
        rw [if_neg (by omega)]
      · rw [Nat.sub_self, Nat.add_zero, Nat.mod_eq_of_lt h.head]
      · rw [Nat.sub_self, List.drop_zero, drop_take_self, List.append_nil]

theorem storeAtTail_inv {N : Nat} {f f1 : MirroredFifo α} (x : α) (h : FifoInv N f)
    (hs : f.storeAtTail x = some f1) : FifoInv N f1 := by
  obtain ⟨f2, h2, hinv, -⟩ := storeAtTail_spec x h
  rw [h2] at hs
  cases hs
  exact hinv

theorem writeLoopFree_inv {N : Nat} (length cwc : Nat) (data : List α) :
    ∀ (fuel i : Nat) (f : MirroredFifo α) (j : Nat) (f1 : MirroredFifo α), FifoInv N f →
      MirroredFifo.writeLoopFree length cwc data fuel i f = some (j, f1) → FifoInv N f1 := by
  intro fuel
  induction fuel with
  | zero =>
    intro i f j f1 h hr
    unfold MirroredFifo.writeLoopFree at hr
    split at hr
    · cases hr
    · cases hr
      exact h
  | succ fuel ih =>
    intro i f j f1 h hr
    unfold MirroredFifo.writeLoopFree at hr
    split at hr
    · split at hr
      · cases hr
      · rename_i x _
        cases hs : f.storeAtTail x with
        | none =>
          rw [hs] at hr
          cases hr
        | some f2 =>
          rw [hs] at hr
          exact ih _ _ _ _ (storeAtTail_inv x h hs) hr
    · cases hr
      exact h

theorem writeLoopOver_inv {N : Nat} (length : Nat) (data : List α) :
    ∀ (fuel i : Nat) (f f1 : MirroredFifo α), FifoInv N f →
      MirroredFifo.writeLoopOver length data fuel i f = some f1 → FifoInv N f1 := by
  intro fuel
  induction fuel with
  | zero =>
    intro i f f1 h hr
    unfold MirroredFifo.writeLoopOver at hr
    split at hr
    · cases hr
    · cases hr
      exact h
  | succ fuel ih =>
    intro i f f1 h hr
    unfold MirroredFifo.writeLoopOver at hr
    split at hr
    · split at hr
      · cases hr
      · rename_i x _
        cases hs : f.storeAtTail x with
        | none =>
          rw [hs] at hr
          cases hr
        | some f2 =>
          rw [hs] at hr
          exact ih _ _ _ (bumpHead_spec (storeAtTail_inv x h hs)).1 hr
    · cases hr
      exact h

theorem write_inv {N : Nat} {f f1 : MirroredFifo α} {n : Nat} (length : Nat) (data : List α)
    (overwrite : Bool) (h : FifoInv N f)
    (hr : f.write length data overwrite = some (n, f1)) : FifoInv N f1 := by
  unfold MirroredFifo.write at hr
  simp only [] at hr
  generalize (if (!overwrite && decide (length > f.canWrite)) = true then f.canWrite
    else length) = len at hr
  cases h1 : MirroredFifo.writeLoopFree len f.canWrite data len 0 f with
  | none =>
    rw [h1] at hr
    cases hr
  | some r =>
    obtain ⟨j, f2⟩ := r
    rw [h1] at hr
    have hinv2 := writeLoopFree_inv _ _ _ _ _ _ _ _ h h1
    cases h3 : MirroredFifo.writeLoopOver len data len j f2 with
    | none =>
      simp only [Option.bind, h3] at hr
      cases hr
    | some f3 =>
      simp only [Option.bind, h3] at hr
      cases hr
      exact writeLoopOver_inv _ _ _ _ _ _ hinv2 h3

theorem writeOne_inv {N : Nat} {f f1 : MirroredFifo α} {n : Nat} (x : α) (overwrite : Bool)
    (h : FifoInv N f) (hr : f.writeOne x overwrite = some (n, f1)) : FifoInv N f1 := by
  unfold MirroredFifo.writeOne at hr
  simp only [] at hr
  split at hr
  · cases hr
    exact h
  · cases hs : f.storeAtTail x with
    | none =>
      rw [hs] at hr
      cases hr
    | some f2 =>
      rw [hs] at hr
      have hinv2 := storeAtTail_inv x h hs
      simp only [Option.bind] at hr
      split at hr
      · cases hr
        exact (bumpHead_spec hinv2).1
      · cases hr
        exact hinv2

theorem read_inv {N : Nat} {f f1 : MirroredFifo α} {n : Nat} {out : List α} (length : Nat)
    (h : FifoInv N f) (hr : f.read length = some (n, out, f1)) : FifoInv N f1 := by
  have hh := h.head
  have hc := canRead_le h
  unfold MirroredFifo.read at hr
  simp only [] at hr
  split at hr
  · cases hr
    exact h
  · have hlen : (if length > f.canRead then f.canRead else length) ≤ f.canRead := by
      split <;> omega
    generalize (if length > f.canRead then f.canRead else length) = len at hr hlen
    split at hr
    · cases hr
      refine ⟨h.len, h.total, h.size, ?_, h.tail, h.mirror⟩
      simp only [h.len]
      split_ifs <;> omega
    · cases hr

theorem readOne_inv {N : Nat} {f f1 : MirroredFifo α} {x : α} (h : FifoInv N f)
    (hr : f.readOne = some (x, f1)) : FifoInv N f1 := by
  have hh := h.head
  unfold MirroredFifo.readOne at hr
  split at hr
  · cases hr
  · cases hr
    refine ⟨h.len, h.total, h.size, ?_, h.tail, h.mirror⟩
    simp only [h.len]
    split_ifs <;> omega

theorem reachable_fifoInv [Inhabited α] {N : Nat} {f : MirroredFifo α}
    (h : MirroredFifo.Reachable N f) : FifoInv N f := by
  induction h with
  | new => exact fifoInv_new N
  | write length data overwrite _ hw ih => exact write_inv length data overwrite ih hw
  | writeOne x overwrite _ hw ih => exact writeOne_inv x overwrite ih hw
  | read length _ hr ih => exact read_inv length ih hr
  | readOne _ hr ih => exact readOne_inv ih hr
  | clear _ ih => exact fifoInv_clear ih

/-- A `write` without overwrite accepts the first `min length canWrite()` items. -/
theorem write_keep_spec {N : Nat} {f : MirroredFifo α} (length : Nat) (data : List α)
    (h : FifoInv N f) (hd : min length f.canWrite ≤ data.length) :
    ∃ f1, f.write length data false = some (min length f.canWrite, f1) ∧ FifoInv N f1 ∧
      f1.m_headIndex = f.m_headIndex ∧
      f1.canRead = f.canRead + min length f.canWrite ∧
      f1.queued = f.queued ++ data.take (min length f.canWrite) := by
  have hlen : (if (!false && decide (length > f.canWrite)) = true then f.canWrite
      else length) = min length f.canWrite := by
    by_cases hc : length > f.canWrite
    · simp only [Bool.not_false, Bool.true_and, decide_eq_true_eq, if_pos hc]
      omega
    · simp only [Bool.not_false, Bool.true_and, decide_eq_true_eq, if_neg hc]
      omega
  have hmc : min length f.canWrite ≤ f.canWrite := Nat.min_le_right _ _
  obtain ⟨f1, h1, hinv1, hhd1, hcw1, hq1⟩ := writeLoopFree_spec (min length f.canWrite)
    f.canWrite (min length f.canWrite) data (Nat.le_refl _) hmc (Or.inl rfl) hd
    (min length f.canWrite) 0 f h (Nat.zero_le _) (by omega) rfl
  obtain ⟨f2, h2, hinv2, hhd2, hcr2, hq2⟩ := writeLoopOver_spec (min length f.canWrite) data hd
    (min length f.canWrite) (min length f.canWrite) f1 hinv1 (Nat.le_refl _) (by omega)
    (fun hlt => absurd hlt (Nat.lt_irrefl _))
  have hrw := canRead_add_canWrite h
  have hrw1 := canRead_add_canWrite hinv1
  refine ⟨f2, ?_, hinv2, ?_, by omega, ?_⟩
  · unfold MirroredFifo.write
    simp only [hlen, h1, Option.bind, h2]
  · rw [hhd2, Nat.sub_self, Nat.add_zero, Nat.mod_eq_of_lt hinv1.head, hhd1]
  · rw [hq2, Nat.sub_self, List.drop_zero, drop_take_self, List.append_nil, hq1, List.drop_zero]

/-- An overwriting `write` accepts all `length` items and drops the oldest
`length - canWrite()` items of the queue followed by the accepted items. -/
theorem write_over_spec {N : Nat} {f : MirroredFifo α} (length : Nat) (data : List α)
    (h : FifoInv N f) (hd : length ≤ data.length) :
    ∃ f1, f.write length data true = some (length, f1) ∧ FifoInv N f1 ∧
      f1.m_headIndex = (f.m_headIndex + (length - f.canWrite)) % (N + 1) ∧
      f1.canRead = min N (f.canRead + length) ∧
      f1.queued = (f.queued ++ data.take length).drop (length - f.canWrite) := by
  have hlen : (if (!true && decide (length > f.canWrite)) = true then f.canWrite
      else length) = length := by
    simp only [Bool.not_true, Bool.false_and, Bool.false_eq_true, if_false]
  have hml : min length f.canWrite ≤ length := Nat.min_le_left _ _
  have hmc : min length f.canWrite ≤ f.canWrite := Nat.min_le_right _ _
  have hm : min length f.canWrite = length ∨ min length f.canWrite = f.canWrite := by omega
  obtain ⟨f1, h1, hinv1, hhd1, hcw1, hq1⟩ := writeLoopFree_spec length
    f.canWrite (min length f.canWrite) data hml hmc hm (by omega)
    length 0 f h (Nat.zero_le _) (by omega) rfl
  obtain ⟨f2, h2, hinv2, hhd2, hcr2, hq2⟩ := writeLoopOver_spec length data hd
    length (min length f.canWrite) f1 hinv1 hml (by omega) (fun hlt => by omega)
  have hrw := canRead_add_canWrite h
  have hrw1 := canRead_add_canWrite hinv1
  have hsub : length - min length f.canWrite = length - f.canWrite := by omega
  refine ⟨f2, ?_, hinv2, ?_, by omega, ?_⟩
  · unfold MirroredFifo.write
    simp only [hlen, h1, Option.bind, h2]
  · rw [hhd2, hhd1, hsub]
  · have htt : data.take (min length f.canWrite) =
        (data.take length).take (min length f.canWrite) := by
      rw [List.take_take, Nat.min_eq_left hml]
    rw [hq2, hq1, List.drop_zero, hsub, List.append_assoc, htt, List.take_append_drop]

theorem fifoTwoQueued_reachable : MirroredFifo.Reachable 3 fifoTwoQueued :=
  MirroredFifo.Reachable.write 2 [1, 2] false MirroredFifo.Reachable.new
    (by decide : (MirroredFifo.new 3 : MirroredFifo Int).write 2 [1, 2] false
      = some (2, fifoTwoQueued))

theorem fifoHeadMoved_reachable : MirroredFifo.Reachable 3 fifoHeadMoved :=
  MirroredFifo.Reachable.read 2
    (MirroredFifo.Reachable.write 3 [1, 2, 3] false MirroredFifo.Reachable.new
      (by decide : (MirroredFifo.new 3 : MirroredFifo Int).write 3 [1, 2, 3] false
        = some (3, { m_fifoLength := 4, m_totalStorageLength := 8,
                     m_storage := [1, 2, 3, 0, 1, 2, 3, 0],
                     m_headIndex := 0, m_tailIndex := 3 })))
    (by decide : ({ m_fifoLength := 4, m_totalStorageLength := 8,
                    m_storage := [1, 2, 3, 0, 1, 2, 3, 0],
                    m_headIndex := 0, m_tailIndex := 3 } : MirroredFifo Int).read 2
      = some (2, [1, 2], fifoHeadMoved))

/-! ## Claims on the fifo: occupancy and `write` -/

/-- C5, as the code has it: in every state of a fifo constructed with `2(N+1) < 2^64`,
`write(length, data, false)` on an array of at least `length` items returns
`min(length, canWrite())`, taken before the call; `canRead()` grows by exactly the returned
count and does not exceed `N`. -/
theorem fifo_write_keep_count [Inhabited α] (max_size N : Nat)
    (hS : 2 * (N + 1) < 18446744073709551616) (f : MirroredFifo α)
    (hb : MirroredFifo.Built max_size N f) (length : Nat) (data : List α)
    (hd : length ≤ data.length) :
    ∃ f1, f.write length data false = some (min length f.canWrite, f1) ∧
      f1.canRead = f.canRead + min length f.canWrite ∧ f1.canRead ≤ N := by
  have hr := fifo_built_reachable hS hb
  obtain ⟨f1, h1, hinv1, -, hcr, -⟩ := write_keep_spec length data (reachable_fifoInv hr)
    (Nat.le_trans (Nat.min_le_left _ _) hd)
  exact ⟨f1, h1, hcr, canRead_le hinv1⟩

/-- C5, as the code has it, when four items are offered to the capacity 3 fifo that holds two. -/
theorem fifo_write_keep_count_witness :
    ∃ f1, fifoTwoQueued.write 4 [5, 6, 7, 8] false = some (min 4 fifoTwoQueued.canWrite, f1) ∧
      f1.canRead = fifoTwoQueued.canRead + min 4 fifoTwoQueued.canWrite ∧ f1.canRead ≤ 3 :=
  fifo_write_keep_count maxSizeInt 3 (by decide) fifoTwoQueued
    (fifo_reachable_built (by decide) (by decide) fifoTwoQueued_reachable) 4 [5, 6, 7, 8] (by decide)

/-- C5 as stated fails: `MirroredFifo<int>(9223372036854775807)`, of capacity `2^63 - 1`,
is constructed with an empty storage, because `2 * 2^63` wraps to 0; `canWrite()` is
`2^63 - 1`, and `write(1, {1}, false)` stores past the end of the storage instead of
returning 1. -/
theorem fifo_keep_count_storage_wraps :
    MirroredFifo.Built maxSizeInt 9223372036854775807 fifoNoStorage ∧
    fifoNoStorage.canWrite = 9223372036854775807 ∧
    fifoNoStorage.write 1 [1] false = none :=
  ⟨fifoNoStorage_built, by decide, by decide⟩

/-- C6, as the code has it: in every state, with queued items `c`, of a fifo constructed
with `2(N+1) < 2^64`, `write(|xs|, xs, false)` leaves the queued items `c` followed by the
first `min(|xs|, canWrite())` items of `xs`: the old items keep their values and order, the
accepted items follow in input order and the rest of `xs` is dropped. -/
theorem fifo_write_keep_queued [Inhabited α] (max_size N : Nat)
    (hS : 2 * (N + 1) < 18446744073709551616) (f : MirroredFifo α)
    (hb : MirroredFifo.Built max_size N f) (xs : List α) :
    ∃ n f1, f.write xs.length xs false = some (n, f1) ∧
      f1.queued = f.queued ++ xs.take (min xs.length f.canWrite) := by
  have hr := fifo_built_reachable hS hb
  obtain ⟨f1, h1, -, -, -, hq⟩ := write_keep_spec xs.length xs (reachable_fifoInv hr)
    (Nat.min_le_left _ _)
  exact ⟨_, f1, h1, hq⟩

/-- C6, as the code has it, when three items are offered to the capacity 3 fifo whose single item sits at
slot 2, so that the accepted items wrap. -/
theorem fifo_write_keep_queued_witness :
    ∃ n f1, fifoHeadMoved.write [7, 8, 9].length [7, 8, 9] false = some (n, f1) ∧
      f1.queued = fifoHeadMoved.queued ++ [7, 8, 9].take (min [7, 8, 9].length
        fifoHeadMoved.canWrite) :=
  fifo_write_keep_queued maxSizeInt 3 (by decide) fifoHeadMoved
    (fifo_reachable_built (by decide) (by decide) fifoHeadMoved_reachable) [7, 8, 9]

/-- C6 as stated fails: on the fifo of capacity `2^63 - 1`, which is constructed with an
empty storage, `write(2, {7, 8}, false)` stores past the end of the storage and queues
nothing. -/
theorem fifo_keep_queued_storage_wraps :
    MirroredFifo.Built maxSizeInt 9223372036854775807 fifoNoStorage ∧
    fifoNoStorage.queued = [] ∧
    fifoNoStorage.write [7, 8].length [7, 8] false = none :=
  ⟨fifoNoStorage_built, by decide, by decide⟩

/-- C7, as the code has it: in every state, with `canRead() == p`, of a fifo constructed
with `2(N+1) < 2^64`, after `write(r, data, true)` on an array of at least `r` items,
`canRead() == min(N, p + r)`. -/
theorem fifo_write_over_canRead [Inhabited α] (max_size N : Nat)
    (hS : 2 * (N + 1) < 18446744073709551616) (f : MirroredFifo α)
    (hb : MirroredFifo.Built max_size N f) (r : Nat) (data : List α) (hd : r ≤ data.length) :
    ∃ n f1, f.write r data true = some (n, f1) ∧ f1.canRead = min N (f.canRead + r) := by
  have hr := fifo_built_reachable hS hb
  obtain ⟨f1, h1, -, -, hcr, -⟩ := write_over_spec r data (reachable_fifoInv hr) hd
  exact ⟨_, f1, h1, hcr⟩

/-- C7, as the code has it, when five items are written over the capacity 3 fifo that holds two. -/
theorem fifo_write_over_canRead_witness :
    ∃ n f1, fifoTwoQueued.write 5 [5, 6, 7, 8, 9] true = some (n, f1) ∧
      f1.canRead = min 3 (fifoTwoQueued.canRead + 5) :=
  fifo_write_over_canRead maxSizeInt 3 (by decide) fifoTwoQueued
    (fifo_reachable_built (by decide) (by decide) fifoTwoQueued_reachable) 5 [5, 6, 7, 8, 9]
    (by decide)

/-- C7 as stated fails: on the fifo of capacity `2^63 - 1`, which is constructed with an
empty storage and has `canRead() == 0`, `write(1, {1}, true)` stores past the end of the
storage, so that there is no state afterwards in which `canRead()` is 1. -/
theorem fifo_over_canRead_storage_wraps :
    MirroredFifo.Built maxSizeInt 9223372036854775807 fifoNoStorage ∧
    fifoNoStorage.canRead = 0 ∧
    fifoNoStorage.write 1 [1] true = none :=
  ⟨fifoNoStorage_built, by decide, by decide⟩

/-- C8, as the code has it: in every state, with queued items `c`, of a fifo constructed
with `2(N+1) < 2^64`, after `write(|xs|, xs, true)` the queued items are the last
`min(N, |c| + |xs|)` items of `c ++ xs`, in that order, also when `|xs|` is larger than
`N`. -/
theorem fifo_write_over_queued [Inhabited α] (max_size N : Nat)
    (hS : 2 * (N + 1) < 18446744073709551616) (f : MirroredFifo α)
    (hb : MirroredFifo.Built max_size N f) (xs : List α) :
    ∃ n f1, f.write xs.length xs true = some (n, f1) ∧
      f1.queued = lastN (min N (f.queued.length + xs.length)) (f.queued ++ xs) := by
  have hr := fifo_built_reachable hS hb
  have hinv := reachable_fifoInv hr
  obtain ⟨f1, h1, -, -, -, hq⟩ := write_over_spec xs.length xs hinv (Nat.le_refl _)
  refine ⟨_, f1, h1, ?_⟩
  have hrw := canRead_add_canWrite hinv
  have hql := queued_length hinv
  rw [hq, List.take_length, lastN, List.length_append]
  congr 1
  omega

/-- C8, as the code has it, when five items, more than the capacity, are written over the capacity 3 fifo
whose single item sits at slot 2. -/
theorem fifo_write_over_queued_witness :
    ∃ n f1, fifoHeadMoved.write [5, 6, 7, 8, 9].length [5, 6, 7, 8, 9] true = some (n, f1) ∧
      f1.queued = lastN (min 3 (fifoHeadMoved.queued.length + [5, 6, 7, 8, 9].length))
        (fifoHeadMoved.queued ++ [5, 6, 7, 8, 9]) :=
  fifo_write_over_queued maxSizeInt 3 (by decide) fifoHeadMoved
    (fifo_reachable_built (by decide) (by decide) fifoHeadMoved_reachable) [5, 6, 7, 8, 9]

/-- C8 as stated fails: on the fifo of capacity `2^63 - 1`, which is constructed with an
empty storage, `write(3, {1, 2, 3}, true)` stores past the end of the storage and retains
nothing. -/
theorem fifo_over_queued_storage_wraps :
    MirroredFifo.Built maxSizeInt 9223372036854775807 fifoNoStorage ∧
    fifoNoStorage.write [1, 2, 3].length [1, 2, 3] true = none :=
  ⟨fifoNoStorage_built, by decide⟩

/-- C9, as the code has it: in every state of a fifo constructed with `2(N+1) < 2^64`,
`write(r, data, true)` on an array of at least `r` items discards exactly
`max(0, r - canWrite())` oldest items: the head index afterwards is
`(head + max(0, r - canWrite())) mod (N+1)` and the queued items are the old ones followed
by the `r` written ones with that many dropped from the front.  When `r == canWrite()` the
head is unchanged and nothing is dropped. -/
theorem fifo_write_over_discards [Inhabited α] (max_size N : Nat)
    (hS : 2 * (N + 1) < 18446744073709551616) (f : MirroredFifo α)
    (hb : MirroredFifo.Built max_size N f) (r : Nat) (data : List α) (hd : r ≤ data.length) :
    ∃ n f1, f.write r data true = some (n, f1) ∧
      f1.m_headIndex = (f.m_headIndex + (r - f.canWrite)) % (N + 1) ∧
      f1.queued = (f.queued ++ data.take r).drop (r - f.canWrite) ∧
      (r = f.canWrite →
        f1.m_headIndex = f.m_headIndex ∧ f1.queued = f.queued ++ data.take r) := by
  have hr := fifo_built_reachable hS hb
  have hinv := reachable_fifoInv hr
  obtain ⟨f1, h1, -, hhd, -, hq⟩ := write_over_spec r data hinv hd
  refine ⟨_, f1, h1, hhd, hq, ?_⟩
  intro hrc
  rw [hhd, hq, hrc, Nat.sub_self, Nat.add_zero, List.drop_zero, Nat.mod_eq_of_lt hinv.head]
  exact ⟨rfl, rfl⟩

/-- C9, as the code has it, at the boundary: two items written over the capacity 3 fifo whose free space is
two. -/
theorem fifo_write_over_discards_witness :
    ∃ n f1, fifoHeadMoved.write 2 [8, 9] true = some (n, f1) ∧
      f1.m_headIndex = (fifoHeadMoved.m_headIndex + (2 - fifoHeadMoved.canWrite)) % (3 + 1) ∧
      f1.queued = (fifoHeadMoved.queued ++ [8, 9].take 2).drop (2 - fifoHeadMoved.canWrite) ∧
      (2 = fifoHeadMoved.canWrite →
        f1.m_headIndex = fifoHeadMoved.m_headIndex ∧
          f1.queued = fifoHeadMoved.queued ++ [8, 9].take 2) :=
  fifo_write_over_discards maxSizeInt 3 (by decide) fifoHeadMoved
    (fifo_reachable_built (by decide) (by decide) fifoHeadMoved_reachable) 2 [8, 9] (by decide)

/-- C9 as stated fails: on the fifo of capacity `2^63 - 1`, which is constructed with an
empty storage, `write(2, {8, 9}, true)` with `2 ≤ canWrite()` discards nothing and queues
nothing: its first store is past the end of the storage. -/
theorem fifo_over_discards_storage_wraps :
    MirroredFifo.Built maxSizeInt 9223372036854775807 fifoNoStorage ∧
    2 - fifoNoStorage.canWrite = 0 ∧
    fifoNoStorage.write 2 [8, 9] true = none :=
  ⟨fifoNoStorage_built, by decide, by decide⟩

/-- C10, as the code has it: in every state of a fifo constructed with `2(N+1) < 2^64`,
`write(r, data, true)` on an array of at least `r` items returns `r`, also when `r` exceeds
the free space or `N`. -/
theorem fifo_write_over_returns_all [Inhabited α] (max_size N : Nat)
    (hS : 2 * (N + 1) < 18446744073709551616) (f : MirroredFifo α)
    (hb : MirroredFifo.Built max_size N f) (r : Nat) (data : List α) (hd : r ≤ data.length) :
    ∃ f1, f.write r data true = some (r, f1) := by
  have hr := fifo_built_reachable hS hb
  obtain ⟨f1, h1, -⟩ := write_over_spec r data (reachable_fifoInv hr) hd
  exact ⟨f1, h1⟩

/-- C10, as the code has it, when five items are written over the capacity 3 fifo that holds two. -/
theorem fifo_write_over_returns_all_witness :
    ∃ f1, fifoTwoQueued.write 5 [1, 2, 3, 4, 5] true = some (5, f1) :=
  fifo_write_over_returns_all maxSizeInt 3 (by decide) fifoTwoQueued
    (fifo_reachable_built (by decide) (by decide) fifoTwoQueued_reachable) 5 [1, 2, 3, 4, 5]
    (by decide)

/-- C10 as stated fails: on the fifo of capacity `2^63 - 1`, which is constructed with an
empty storage, `write(5, {1, 2, 3, 4, 5}, true)` does not return 5: its first store is past
the end of the storage. -/
theorem fifo_over_returns_storage_wraps :
    MirroredFifo.Built maxSizeInt 9223372036854775807 fifoNoStorage ∧
    ¬ ∃ f1, fifoNoStorage.write 5 [1, 2, 3, 4, 5] true = some (5, f1) := by
  refine ⟨fifoNoStorage_built, ?_⟩
  rintro ⟨f1, h⟩
  revert h
  rw [(by decide : fifoNoStorage.write 5 [1, 2, 3, 4, 5] true = none)]
  exact fun h => Option.noConfusion h


end Fifo

/-! ## Lemmas on `read` -/

section FifoRead

variable {α : Type}

/-- In a mirrored storage a slot past the first half holds what the slot reduced modulo
`N + 1` holds. -/
theorem storage_mod {N : Nat} {f : MirroredFifo α} (h : FifoInv N f) (k : Nat)
    (hk : k < 2 * (N + 1)) :
    f.m_storage[k]? = f.m_storage[k % (N + 1)]? := by
  by_cases hlt : k < N + 1
  · rw [Nat.mod_eq_of_lt hlt]
  · have hm : k % (N + 1) = k - (N + 1) := by
      rw [Nat.mod_eq_sub_mod (by omega), Nat.mod_eq_of_lt (by omega)]
    rw [hm, h.mirror (k - (N + 1)) (by omega)]
    congr 1
    omega

/-- The result of `read`: count, copied items and the state afterwards. -/
theorem read_spec {N : Nat} {f : MirroredFifo α} (length : Nat) (h : FifoInv N f) :
    ∃ f1, f.read length = some (min length f.canRead,
        (f.m_storage.drop f.m_headIndex).take (min length f.canRead), f1) ∧
      FifoInv N f1 ∧
      f1.m_headIndex = (f.m_headIndex + min length f.canRead) % (N + 1) ∧
      f1.m_tailIndex = f.m_tailIndex ∧ f1.m_storage = f.m_storage ∧
      f1.canRead = f.canRead - min length f.canRead ∧
      (f.m_storage.drop f.m_headIndex).take (min length f.canRead)
        = f.queued.take (min length f.canRead) ∧
      f1.queued = f.queued.drop (min length f.canRead) := by
  have hh := h.head
  have ht := h.tail
  have hc := canRead_le h
  have hcr := canRead_cases h
  have hq : (f.m_storage.drop f.m_headIndex).take (min length f.canRead)
      = f.queued.take (min length f.canRead) := by
    rw [MirroredFifo.queued, List.take_take, Nat.min_eq_left (Nat.min_le_right _ _)]
  by_cases h0 : f.canRead = 0
  · refine ⟨f, ?_, h, ?_, rfl, rfl, ?_, hq, ?_⟩
    · unfold MirroredFifo.read
      simp only [h0, if_true, Nat.min_zero, List.take_zero]
    · rw [h0, Nat.min_zero, Nat.add_zero, Nat.mod_eq_of_lt hh]
    · omega
    · rw [h0, Nat.min_zero, List.drop_zero]
  · have hlen : (if length > f.canRead then f.canRead else length) = min length f.canRead := by
      split <;> omega
    have hn : min length f.canRead ≤ f.canRead := Nat.min_le_right _ _
    generalize hnd : min length f.canRead = n at *
    have hhead : (if f.m_headIndex + n ≥ N + 1 then f.m_headIndex + n - (N + 1)
        else f.m_headIndex + n) = (f.m_headIndex + n) % (N + 1) := by
      by_cases hw : f.m_headIndex + n ≥ N + 1
      · rw [if_pos hw, Nat.mod_eq_sub_mod hw, Nat.mod_eq_of_lt (by omega)]
      · rw [if_neg hw, Nat.mod_eq_of_lt (by omega)]
    have hinv1 : FifoInv N { f with m_headIndex := (f.m_headIndex + n) % (N + 1) } :=
      ⟨h.len, h.total, h.size, Nat.mod_lt _ (by omega), h.tail, h.mirror⟩
    have hcr1 := canRead_cases hinv1
    have hc1 : ({ f with m_headIndex := (f.m_headIndex + n) % (N + 1) } : MirroredFifo α).canRead
        = f.canRead - n := by
      have hmod : (f.m_headIndex + n < N + 1 ∧ (f.m_headIndex + n) % (N + 1) = f.m_headIndex + n)
          ∨ (N + 1 ≤ f.m_headIndex + n ∧
            (f.m_headIndex + n) % (N + 1) = f.m_headIndex + n - (N + 1)) := by
        rw [← hhead]
        by_cases hw : f.m_headIndex + n ≥ N + 1
        · exact Or.inr ⟨hw, if_pos hw⟩
        · exact Or.inl ⟨by omega, if_neg hw⟩
      simp only [] at hcr1
      omega
    refine ⟨{ f with m_headIndex := (f.m_headIndex + n) % (N + 1) }, ?_, hinv1, rfl, rfl, rfl,
      hc1, hq, ?_⟩
    · unfold MirroredFifo.read
      simp only [if_neg h0, hlen, h.len, hhead]
      rw [if_pos (by rw [h.size]; omega)]
    · apply List.ext_getElem?
      intro k
      rw [queued_getElem_opt, hc1, List.getElem?_drop, queued_getElem_opt]
      show (if k < f.canRead - n then
        f.m_storage[(f.m_headIndex + n) % (N + 1) + k]? else none) = _
      by_cases hk : k < f.canRead - n
      · rw [if_pos hk, if_pos (by omega),
          storage_mod h ((f.m_headIndex + n) % (N + 1) + k) (by
            have := Nat.mod_lt (f.m_headIndex + n) (by omega : 0 < N + 1)
            omega),
          storage_mod h (f.m_headIndex + (n + k)) (by omega), Nat.mod_add_mod, Nat.add_assoc]
      · rw [if_neg hk, if_neg (by omega)]

theorem mapM_option_congr (g k : Nat → Option α) (l : List Nat) (h : ∀ i, i ∈ l → g i = k i) :
    l.mapM g = l.mapM k := by
  induction l with
  | nil => rfl
  | cons a t ih =>
    simp only [List.mapM_cons]
    rw [h a (List.mem_cons_self a t), ih (fun i hi => h i (List.mem_cons_of_mem a hi))]

theorem mapM_range_slice (s : List α) (b : Nat) :
    ∀ n, b + n ≤ s.length →
      (List.range n).mapM (fun i => s[b + i]?) = some ((s.drop b).take n) := by
  intro n
  induction n with
  | zero =>
    intro _
    rw [List.range_zero, List.mapM_nil, List.take_zero]
    rfl
  | succ n ih =>
    intro hb
    have hlt : b + n < s.length := by omega
    rw [List.range_succ, List.mapM_append, ih (by omega), List.take_succ, List.getElem?_drop,
      List.getElem?_eq_getElem hlt]
    simp only [List.mapM_cons, List.mapM_nil, List.getElem?_eq_getElem hlt]
    rfl

/-- The printed contents are the queued items. -/
theorem debug_printContents_eq {N : Nat} {f : MirroredFifo α} (h : FifoInv N f) :
    f.debug_printContents = some f.queued := by
  have := h.head
  have := canRead_le h
  unfold MirroredFifo.debug_printContents MirroredFifo.queued
  exact mapM_range_slice f.m_storage f.m_headIndex f.canRead (by rw [h.size]; omega)

/-- A modulo-indexed read of at most `N + 1` items yields the contiguous slice at the head. -/
theorem moduloRead_eq {N : Nat} {f : MirroredFifo α} (h : FifoInv N f) (n : Nat)
    (hn : n ≤ N + 1) :
    f.moduloRead n = some ((f.m_storage.drop f.m_headIndex).take n) := by
  have hh := h.head
  unfold MirroredFifo.moduloRead
  rw [mapM_option_congr _ (fun i => f.m_storage[f.m_headIndex + i]?)]
  · exact mapM_range_slice f.m_storage f.m_headIndex n (by rw [h.size]; omega)
  · intro i hi
    rw [List.mem_range] at hi
    show f.m_storage[(f.m_headIndex + i) % f.m_fifoLength]? = f.m_storage[f.m_headIndex + i]?
    rw [h.len]
    exact (storage_mod h (f.m_headIndex + i) (by omega)).symm

theorem take_take_append (n : Nat) (a b : List α) :
    ((a.take n) ++ b).take n = (a ++ b).take n := by
  by_cases hl : n ≤ a.length
  · rw [List.take_append_eq_append_take, List.take_append_eq_append_take, List.take_take,
      Nat.min_self, List.length_take, Nat.min_eq_left hl, Nat.sub_self, List.take_zero,
      Nat.sub_eq_zero_of_le hl, List.take_zero]
  · rw [List.take_of_length_le (by omega : a.length ≤ n)]

/-- Writing arrays without overwrite keeps the first `N` items of everything offered. -/
theorem writeAll_spec {N : Nat} (arrays : List (List α)) :
    ∀ {f : MirroredFifo α}, FifoInv N f →
      ∃ f1, f.writeAll arrays = some f1 ∧ FifoInv N f1 ∧
        f1.m_headIndex = f.m_headIndex ∧
        f1.queued = (f.queued ++ arrays.flatten).take N := by
  induction arrays with
  | nil =>
    intro f h
    refine ⟨f, rfl, h, rfl, ?_⟩
    rw [List.flatten_nil, List.append_nil, List.take_of_length_le]
    rw [queued_length h]
    exact canRead_le h
  | cons xs rest ih =>
    intro f h
    obtain ⟨f1, h1, hinv1, hhd1, -, hq1⟩ := write_keep_spec xs.length xs h (Nat.min_le_left _ _)
    obtain ⟨f2, h2, hinv2, hhd2, hq2⟩ := ih hinv1
    have hrw := canRead_add_canWrite h
    have hql := queued_length h
    have hle := canRead_le h
    refine ⟨f2, ?_, hinv2, by rw [hhd2, hhd1], ?_⟩
    · simp only [MirroredFifo.writeAll, h1, Option.bind, h2]
    · have hstep : f1.queued = (f.queued ++ xs).take N := by
        rw [hq1, List.take_append_eq_append_take, List.take_of_length_le (by omega : f.queued.length ≤ N)]
        congr 1
        by_cases hc : xs.length ≤ f.canWrite
        · rw [Nat.min_eq_left hc, List.take_length, List.take_of_length_le (by omega)]
        · rw [Nat.min_eq_right (by omega)]
          congr 1
          omega
      rw [hq2, hstep, take_take_append, List.flatten_cons, List.append_assoc]

theorem fifoDrained_reachable : MirroredFifo.Reachable 3 fifoDrained :=
  MirroredFifo.Reachable.read 1 fifoHeadMoved_reachable
    (by decide : fifoHeadMoved.read 1 = some (1, [3], fifoDrained))

theorem fifoWrapped_reachable : MirroredFifo.Reachable 3 fifoWrapped :=
  MirroredFifo.Reachable.write 3 [7, 8, 9] false fifoDrained_reachable
    (by decide : fifoDrained.write 3 [7, 8, 9] false = some (3, fifoWrapped))

/-! ## Claims on the fifo: `read` and the mirror -/

/-- C11, as the code has it: in every state, with queued items `c`, of a fifo constructed
with `2(N+1) < 2^64`, `read(maxCount, out)` returns `n = min(maxCount, |c|)`, copies the
first `n` items of `c`, which are the one contiguous slice `storage[head .. head+n)`,
advances the head to `(head + n) mod (N+1)` and leaves the other `|c| - n` items queued in
order; on an empty queue it returns 0 and changes nothing. -/
theorem fifo_read_takes_oldest [Inhabited α] (max_size N : Nat)
    (hS : 2 * (N + 1) < 18446744073709551616) (f : MirroredFifo α)
    (hb : MirroredFifo.Built max_size N f) (maxCount : Nat) :
    ∃ f1, f.read maxCount = some (min maxCount f.queued.length,
        f.queued.take (min maxCount f.queued.length), f1) ∧
      f.queued.take (min maxCount f.queued.length)
        = (f.m_storage.drop f.m_headIndex).take (min maxCount f.queued.length) ∧
      f1.m_headIndex = (f.m_headIndex + min maxCount f.queued.length) % (N + 1) ∧
      f1.queued = f.queued.drop (min maxCount f.queued.length) ∧
      (f.queued = [] → f.read maxCount = some (0, [], f)) := by
  have hr := fifo_built_reachable hS hb
  have hinv := reachable_fifoInv hr
  have hql := queued_length hinv
  obtain ⟨f1, h1, -, hhd, -, -, -, hq, hq1⟩ := read_spec maxCount hinv
  rw [hql]
  refine ⟨f1, ?_, hq.symm, hhd, hq1, ?_⟩
  · rw [h1, hq]
  · intro he
    have h0 : f.canRead = 0 := by rw [← hql, he]; rfl
    unfold MirroredFifo.read
    simp only [h0, if_true]

/-- C11, as the code has it, for a read of one item from the capacity 3 fifo that holds two. -/
theorem fifo_read_takes_oldest_witness :
    ∃ f1, fifoTwoQueued.read 1 = some (min 1 fifoTwoQueued.queued.length,
        fifoTwoQueued.queued.take (min 1 fifoTwoQueued.queued.length), f1) ∧
      fifoTwoQueued.queued.take (min 1 fifoTwoQueued.queued.length)
        = (fifoTwoQueued.m_storage.drop fifoTwoQueued.m_headIndex).take
            (min 1 fifoTwoQueued.queued.length) ∧
      f1.m_headIndex = (fifoTwoQueued.m_headIndex + min 1 fifoTwoQueued.queued.length)
        % (3 + 1) ∧
      f1.queued = fifoTwoQueued.queued.drop (min 1 fifoTwoQueued.queued.length) ∧
      (fifoTwoQueued.queued = [] → fifoTwoQueued.read 1 = some (0, [], fifoTwoQueued)) :=
  fifo_read_takes_oldest maxSizeInt 3 (by decide) fifoTwoQueued
    (fifo_reachable_built (by decide) (by decide) fifoTwoQueued_reachable) 1

/-- C11 as stated fails: `MirroredFifo<int>(9223372036854775808)`, of capacity `2^63`, is
constructed with two storage slots, because `2 * (2^63 + 1)` wraps to 2.  After one
`readOne()` its head is at slot 1 and `canRead()` is `2^63`, and `read(2, out)` copies from
slot 1 past the end of the storage instead of returning 2 items. -/
theorem fifo_read_storage_wraps :
    MirroredFifo.Built maxSizeInt 9223372036854775808 fifoShortStorageRead ∧
    fifoShortStorageRead.canRead = 9223372036854775808 ∧
    fifoShortStorageRead.m_storage.length = 2 ∧
    fifoShortStorageRead.read 2 = none :=
  ⟨fifoShortStorageRead_built, by decide, by decide, by decide⟩

/-- C12, as the code has it: for every `N` with `2(N+1) < 2^64` and every list of arrays
written with `write(.., false)` to an empty fifo, one that the constructor just returned
or that was just cleared, every write succeeds and the following `read(N, out)` returns
the first `min(N, total length)` items of the concatenation of the arrays, in write order,
and leaves the queue empty. -/
theorem fifo_write_then_drain [Inhabited α] (max_size N : Nat)
    (hS : 2 * (N + 1) < 18446744073709551616) (f : MirroredFifo α)
    (hb : MirroredFifo.construct max_size N = some f ∨
      ∃ g, MirroredFifo.Built max_size N g ∧ f = g.clear)
    (arrays : List (List α)) :
    ∃ f1 f2, f.writeAll arrays = some f1 ∧
      f1.read N = some (min N arrays.flatten.length,
        arrays.flatten.take (min N arrays.flatten.length), f2) ∧
      f2.canRead = 0 ∧ f2.queued = [] := by
  have h0 : f = MirroredFifo.new N ∨ ∃ g, MirroredFifo.Reachable N g ∧ f = g.clear := by
    rcases hb with hc | ⟨g, hg, hf⟩
    · exact Or.inl (fifo_construct_eq hS hc).1
    · exact Or.inr ⟨g, fifo_built_reachable hS hg, hf⟩
  have hinv : FifoInv N f := by
    rcases h0 with h0 | ⟨g, hg, h0⟩
    · rw [h0]; exact fifoInv_new N
    · rw [h0]; exact fifoInv_clear (reachable_fifoInv hg)
  have hq0 : f.queued = [] := by
    have hc : f.canRead = 0 := by
      rcases h0 with h0 | ⟨g, hg, h0⟩ <;> rw [h0] <;> rfl
    rw [MirroredFifo.queued, hc, List.take_zero]
  obtain ⟨f1, h1, hinv1, -, hq1⟩ := writeAll_spec arrays hinv
  rw [hq0, List.nil_append] at hq1
  have hql := queued_length hinv1
  obtain ⟨f2, h2, hinv2, -, -, -, hcr2, hq, hq2⟩ := read_spec N hinv1
  have hcl : f1.canRead = min N arrays.flatten.length := by
    rw [← hql, hq1, List.length_take]
  have hmin : min N f1.canRead = min N arrays.flatten.length := by omega
  refine ⟨f1, f2, h1, ?_, by omega, ?_⟩
  · have hmm : min (min N arrays.flatten.length) N = min N arrays.flatten.length := by omega
    rw [h2, hq, hmin, hq1, List.take_take, hmm]
  · rw [MirroredFifo.queued, hcr2, hmin, hcl, Nat.sub_self, List.take_zero]

/-- C12, as the code has it, for the arrays `{1, 2}` and `{3, 4, 5}` written to a cleared capacity 3 fifo. -/
theorem fifo_write_then_drain_witness :
    ∃ f1 f2, fifoHeadMoved.clear.writeAll [[1, 2], [3, 4, 5]] = some f1 ∧
      f1.read 3 = some (min 3 [[(1 : Int), 2], [3, 4, 5]].flatten.length,
        [[(1 : Int), 2], [3, 4, 5]].flatten.take (min 3 [[(1 : Int), 2], [3, 4, 5]].flatten.length),
        f2) ∧
      f2.canRead = 0 ∧ f2.queued = [] :=
  fifo_write_then_drain maxSizeInt 3 (by decide) fifoHeadMoved.clear
    (Or.inr ⟨fifoHeadMoved,
      fifo_reachable_built (by decide) (by decide) fifoHeadMoved_reachable, rfl⟩)
    [[1, 2], [3, 4, 5]]

/-- C12 as stated fails: the fifo of capacity `2^63 - 1` is constructed with an empty
storage, and the first `write(1, {1}, false)` to the freshly constructed fifo stores past
its end. -/
theorem fifo_drain_storage_wraps :
    MirroredFifo.construct maxSizeInt 9223372036854775807 = some fifoNoStorage ∧
    fifoNoStorage.writeAll [[1]] = none :=
  ⟨by decide, by decide⟩

/-- C13, as the code has it: in every empty state, with head and tail equal at whatever
slot, of a fifo constructed with `2(N+1) < 2^64`, and for every array `xs` of at most `N`
items, `write(|xs|, xs, false)` returns `|xs|`, the following `read(|xs|, out)` returns
`|xs|` and `out` is `xs`, also when the written slots wrap around, and the queue is empty
again afterwards. -/
theorem fifo_write_read_round_trip [Inhabited α] (max_size N : Nat)
    (hS : 2 * (N + 1) < 18446744073709551616) (f : MirroredFifo α)
    (hb : MirroredFifo.Built max_size N f) (he : f.m_headIndex = f.m_tailIndex) (xs : List α)
    (hxs : xs.length ≤ N) :
    ∃ f1 f2, f.write xs.length xs false = some (xs.length, f1) ∧
      f1.read xs.length = some (xs.length, xs, f2) ∧ f2.canRead = 0 ∧ f2.queued = [] := by
  have hr := fifo_built_reachable hS hb
  have hinv := reachable_fifoInv hr
  have hc : f.canRead = 0 := by
    unfold MirroredFifo.canRead
    rw [if_pos he]
  have hrw := canRead_add_canWrite hinv
  have hq0 : f.queued = [] := by rw [MirroredFifo.queued, hc, List.take_zero]
  have hmin : min xs.length f.canWrite = xs.length := by omega
  obtain ⟨f1, h1, hinv1, -, hcr1, hq1⟩ := write_keep_spec xs.length xs hinv (Nat.min_le_left _ _)
  rw [hmin] at h1 hcr1 hq1
  rw [hq0, List.nil_append, List.take_length] at hq1
  obtain ⟨f2, h2, -, -, -, -, hcr2, hq, -⟩ := read_spec xs.length hinv1
  have hmin2 : min xs.length f1.canRead = xs.length := by omega
  rw [hmin2] at h2 hcr2 hq
  refine ⟨f1, f2, h1, ?_, by omega, ?_⟩
  · rw [h2, hq, hq1, List.take_length]
  · rw [MirroredFifo.queued, hcr2, hcr1, hc, Nat.zero_add, Nat.sub_self, List.take_zero]

/-- C13, as the code has it, for three items written to the empty capacity 3 fifo with head and tail at slot 3,
where the written slots are 3, 0 and 1. -/
theorem fifo_write_read_round_trip_witness :
    ∃ f1 f2, fifoDrained.write [7, 8, 9].length [7, 8, 9] false
        = some ([(7 : Int), 8, 9].length, f1) ∧
      f1.read [(7 : Int), 8, 9].length = some ([(7 : Int), 8, 9].length, [7, 8, 9], f2) ∧
      f2.canRead = 0 ∧ f2.queued = [] :=
  fifo_write_read_round_trip maxSizeInt 3 (by decide) fifoDrained
    (fifo_reachable_built (by decide) (by decide) fifoDrained_reachable) (by decide) [7, 8, 9]
    (by decide)

/-- C13 as stated fails: the freshly constructed fifo of capacity `N = 2^63 - 1` is empty,
with head and tail at slot 0, and has no storage; `write(1, {7}, false)` of one item, which
is at most `N`, stores past the end instead of returning 1. -/
theorem fifo_round_trip_storage_wraps :
    MirroredFifo.Built maxSizeInt 9223372036854775807 fifoNoStorage ∧
    fifoNoStorage.m_headIndex = fifoNoStorage.m_tailIndex ∧
    [(7 : Int)].length ≤ 9223372036854775807 ∧
    fifoNoStorage.write [7].length [7] false = none :=
  ⟨fifoNoStorage_built, by decide, by decide, by decide⟩

/-- C14, as the code has it: in every state of a fifo constructed with `2(N+1) < 2^64` and
for every offset `j` with `head + j < 2(N+1)`, the slot `storage[head + j]` exists and
holds what `storage[(head + j) mod (N+1)]` holds; so the slice copied by `read` and the
items printed by `debug_printContents` are what a read with every index reduced modulo
`N+1` yields. -/
theorem fifo_contiguous_is_modulo [Inhabited α] (max_size N : Nat)
    (hS : 2 * (N + 1) < 18446744073709551616) (f : MirroredFifo α)
    (hb : MirroredFifo.Built max_size N f) :
    (∀ j, f.m_headIndex + j < 2 * (N + 1) →
      ∃ y, f.m_storage[f.m_headIndex + j]? = some y ∧
        f.m_storage[(f.m_headIndex + j) % (N + 1)]? = some y) ∧
    (∀ maxCount, ∃ n out f1, f.read maxCount = some (n, out, f1) ∧
      f.moduloRead n = some out) ∧
    (∃ out, f.debug_printContents = some out ∧ f.moduloRead f.canRead = some out) := by
  have hr := fifo_built_reachable hS hb
  have hinv := reachable_fifoInv hr
  have hcl := canRead_le hinv
  refine ⟨?_, ?_, ?_⟩
  · intro j hj
    have hlt : f.m_headIndex + j < f.m_storage.length := by rw [hinv.size]; exact hj
    refine ⟨f.m_storage[f.m_headIndex + j], List.getElem?_eq_getElem hlt, ?_⟩
    rw [← storage_mod hinv _ hj]
    exact List.getElem?_eq_getElem hlt
  · intro maxCount
    obtain ⟨f1, h1, -⟩ := read_spec maxCount hinv
    refine ⟨_, _, f1, h1, ?_⟩
    exact moduloRead_eq hinv _ (by omega)
  · refine ⟨f.queued, debug_printContents_eq hinv, ?_⟩
    rw [moduloRead_eq hinv _ (by omega)]
    rfl

/-- C14, as the code has it, at the capacity 3 fifo whose queued slice runs over the end of the first storage
half. -/
theorem fifo_contiguous_is_modulo_witness :
    (∀ j, fifoWrapped.m_headIndex + j < 2 * (3 + 1) →
      ∃ y, fifoWrapped.m_storage[fifoWrapped.m_headIndex + j]? = some y ∧
        fifoWrapped.m_storage[(fifoWrapped.m_headIndex + j) % (3 + 1)]? = some y) ∧
    (∀ maxCount, ∃ n out f1, fifoWrapped.read maxCount = some (n, out, f1) ∧
      fifoWrapped.moduloRead n = some out) ∧
    (∃ out, fifoWrapped.debug_printContents = some out ∧
      fifoWrapped.moduloRead fifoWrapped.canRead = some out) :=
  fifo_contiguous_is_modulo maxSizeInt 3 (by decide) fifoWrapped
    (fifo_reachable_built (by decide) (by decide) fifoWrapped_reachable)

/-- C14 as stated fails: in the fifo of capacity `N = 2^63 - 1`, whose storage length
`2(N+1)` wraps to 0, the slot `storage[head + 0]` does not exist although
`head + 0 < 2(N+1)`. -/
theorem fifo_contiguous_storage_wraps :
    MirroredFifo.Built maxSizeInt 9223372036854775807 fifoNoStorage ∧
    fifoNoStorage.m_headIndex + 0 < 2 * (9223372036854775807 + 1) ∧
    fifoNoStorage.m_storage[fifoNoStorage.m_headIndex + 0]? = none :=
  ⟨fifoNoStorage_built, by decide, by decide⟩

/-! ## Claims on the fifo: mirror offset and construction -/

/-- C15, as the code has it: in every state of a fifo constructed with usable capacity `N`
and `2(N+1) < 2^64`, so after every mutating call, the slots `i` and `i + (N+1)` exist and
hold the same value for every `i < N + 1`; the mirror offset is the slot count
`m_fifoLength = N + 1`. -/
theorem fifo_mirror_invariant [Inhabited α] (max_size N : Nat)
    (hS : 2 * (N + 1) < 18446744073709551616) (f : MirroredFifo α)
    (hb : MirroredFifo.Built max_size N f) (i : Nat) (hi : i < N + 1) :
    ∃ y, f.m_storage[i]? = some y ∧ f.m_storage[i + (N + 1)]? = some y := by
  have hr := fifo_built_reachable hS hb
  have hinv := reachable_fifoInv hr
  have hlt : i < f.m_storage.length := by rw [hinv.size]; omega
  refine ⟨f.m_storage[i], List.getElem?_eq_getElem hlt, ?_⟩
  rw [← hinv.mirror i hi]
  exact List.getElem?_eq_getElem hlt

/-- C15, as the code has it, at slot 0 of the capacity 3 fifo that holds two items. -/
theorem fifo_mirror_invariant_witness :
    ∃ y, fifoTwoQueued.m_storage[0]? = some y ∧ fifoTwoQueued.m_storage[0 + (3 + 1)]? = some y :=
  fifo_mirror_invariant maxSizeInt 3 (by decide) fifoTwoQueued
    (fifo_reachable_built (by decide) (by decide) fifoTwoQueued_reachable) 0 (by decide)

/-- C15 as stated fails: in the capacity 3 fifo after `write(2, {1, 2})` slot 0 holds 1 and
slot `0 + 3` holds 0, so `storage[i] == storage[i + N]` does not hold in every reachable
state. -/
theorem fifo_mirror_offset_N_fails :
    ¬ ∀ (f : MirroredFifo Int), MirroredFifo.Reachable 3 f →
        ∀ i, i < 3 → f.m_storage[i]? = f.m_storage[i + 3]? := by
  intro hall
  have h := hall fifoTwoQueued fifoTwoQueued_reachable 0 (by decide)
  revert h
  decide

end FifoRead

/-! ## Lemmas on element access of the delay line -/

section DelayLineAccess

variable {α : Type}

theorem reachable_appendAll [Inhabited α] [ByteFill α] {N : Nat} (xs : List α) :
    ∀ {d d1 : MirroredDelayLine α}, MirroredDelayLine.Reachable N d →
      d.appendAll xs = some d1 → MirroredDelayLine.Reachable N d1 := by
  induction xs with
  | nil =>
    intro d d1 hr ha
    cases ha
    exact hr
  | cons x xs ih =>
    intro d d1 hr ha
    unfold MirroredDelayLine.appendAll at ha
    cases hx : d.append x with
    | none =>
      rw [hx] at ha
      cases ha
    | some d2 =>
      rw [hx] at ha
      exact ih (MirroredDelayLine.Reachable.append x hr hx) ha

theorem delayLineFour_reachable : MirroredDelayLine.Reachable 3 delayLineFour :=
  reachable_appendAll [1, 2, 3, 4] (MirroredDelayLine.Reachable.newFill 0)
    (by decide : (MirroredDelayLine.newFill 3 (0 : Int)).appendAll [1, 2, 3, 4]
      = some delayLineFour)

/-! ## Claims on the delay line: element access, construction and `clear` -/

/-- C16, as the code has it: `operator[]` has no range check.  In every state of a delay
line constructed with `N > 0` and `2N < 2^64`, and for every index `i ≥ N` (a `size_t`,
so below `2^64`), `operator[](i)` reads `m_storage[(i + cursor) mod 2^64]`: while
`i + cursor < 2N` it returns a stored value, the one of window position `i - N`; for
`2N ≤ i + cursor < 2^64` the access is past the end of the storage; and when `i + cursor`
reaches `2^64` the sum wraps and it returns the stored value of slot
`i + cursor - 2^64`, which is below the cursor. -/
theorem delayLine_subscript_past_window [Inhabited α] [ByteFill α] (max_size N : Nat)
    (hN : 0 < N) (hS : 2 * N < 18446744073709551616)
    (d : MirroredDelayLine α) (hb : MirroredDelayLine.Built max_size N d) (i : Nat)
    (hi : N ≤ i) (hi64 : i < 18446744073709551616) :
    (i + d.m_index < 2 * N → ∃ y, d.subscript i = some y ∧ d.subscript (i - N) = some y) ∧
    (2 * N ≤ i + d.m_index → i + d.m_index < 18446744073709551616 → d.subscript i = none) ∧
    (18446744073709551616 ≤ i + d.m_index →
      i + d.m_index - 18446744073709551616 < d.m_index ∧
      ∃ y, d.subscript i = some y ∧
        d.m_storage[i + d.m_index - 18446744073709551616]? = some y) := by
  have hinv := reachable_delayInv hN (delayLine_built_reachable hS hb)
  have hidx := hinv.idx
  refine ⟨?_, ?_, ?_⟩
  · intro hlt
    have hl : i + d.m_index < d.m_storage.length := by rw [hinv.size]; exact hlt
    have hm1 : (i + d.m_index) % 18446744073709551616 = i + d.m_index :=
      Nat.mod_eq_of_lt (by omega)
    have hm2 : (i - N + d.m_index) % 18446744073709551616 = i - N + d.m_index :=
      Nat.mod_eq_of_lt (by omega)
    unfold MirroredDelayLine.subscript
    rw [hm1, hm2]
    refine ⟨d.m_storage[i + d.m_index], List.getElem?_eq_getElem hl, ?_⟩
    rw [hinv.mirror (i - N + d.m_index) (by omega)]
    have he : i - N + d.m_index + N = i + d.m_index := by omega
    rw [he]
    exact List.getElem?_eq_getElem hl
  · intro hge hlt
    unfold MirroredDelayLine.subscript
    rw [Nat.mod_eq_of_lt hlt]
    exact List.getElem?_eq_none (by rw [hinv.size]; exact hge)
  · intro hge
    have hm : (i + d.m_index) % 18446744073709551616
        = i + d.m_index - 18446744073709551616 := by omega
    have hl : i + d.m_index - 18446744073709551616 < d.m_storage.length := by
      rw [hinv.size]; omega
    refine ⟨by omega, d.m_storage[i + d.m_index - 18446744073709551616], ?_,
      List.getElem?_eq_getElem hl⟩
    unfold MirroredDelayLine.subscript
    rw [hm]
    exact List.getElem?_eq_getElem hl

/-- C16, as the code has it, at index 3 of the delay line of length 3 after four appends:
`operator[](3)` returns 2, the value at window position 0. -/
theorem delayLine_subscript_past_window_witness :
    (3 + delayLineFour.m_index < 2 * 3 →
      ∃ y, delayLineFour.subscript 3 = some y ∧ delayLineFour.subscript (3 - 3) = some y) ∧
    (2 * 3 ≤ 3 + delayLineFour.m_index → 3 + delayLineFour.m_index < 18446744073709551616 →
      delayLineFour.subscript 3 = none) ∧
    (18446744073709551616 ≤ 3 + delayLineFour.m_index →
      3 + delayLineFour.m_index - 18446744073709551616 < delayLineFour.m_index ∧
      ∃ y, delayLineFour.subscript 3 = some y ∧
        delayLineFour.m_storage[3 + delayLineFour.m_index - 18446744073709551616]?
          = some y) :=
  delayLine_subscript_past_window maxSizeInt 3 (by decide) (by decide) delayLineFour
    (delayLine_reachable_built (by decide) (by decide) delayLineFour_reachable) 3
    (by decide) (by decide)

/-- The index sum of `operator[]` wraps: on the delay line of length 3 after four appends,
with the cursor at 1, `operator[](SIZE_MAX)` returns `m_storage[0]`, which is 4, and
`operator[](5)` is past the end of the six slots. -/
theorem delayLineFour_subscript_wraps :
    delayLineFour.subscript 18446744073709551615 = some 4 ∧
    delayLineFour.m_storage[0]? = some 4 ∧
    delayLineFour.subscript 5 = none := by
  decide

/-- C16 as stated fails: in a reachable state of a delay line of length 3, `operator[](3)`
returns a stored value instead of failing. -/
theorem delayLine_subscript_no_range_error :
    ¬ ∀ (d : MirroredDelayLine Int), MirroredDelayLine.Reachable 3 d →
        ∀ i, 3 ≤ i → d.subscript i = none := by
  intro hall
  have h := hall delayLineFour delayLineFour_reachable 3 (by decide)
  revert h
  decide

/-- C17, as the code has it: in every state of a delay line constructed with `N > 0` and
`2N < 2^64`, and for every `i < N`, `operator[](i)` returns `storage[cursor + i]`, the same
element as `data()[i]`. -/
theorem delayLine_subscript_eq_data [Inhabited α] [ByteFill α] (max_size N : Nat) (hN : 0 < N)
    (hS : 2 * N < 18446744073709551616) (d : MirroredDelayLine α)
    (hb : MirroredDelayLine.Built max_size N d) (i : Nat) (hi : i < N) :
    ∃ y, d.subscript i = some y ∧ d.m_storage[d.m_index + i]? = some y ∧
      d.data[i]? = some y := by
  have hr := delayLine_built_reachable hS hb
  have hinv := reachable_delayInv hN hr
  have hidx := hinv.idx
  have hl : d.m_index + i < d.m_storage.length := by rw [hinv.size]; omega
  refine ⟨d.m_storage[d.m_index + i], ?_, List.getElem?_eq_getElem hl, ?_⟩
  · unfold MirroredDelayLine.subscript
    rw [Nat.mod_eq_of_lt (by omega), Nat.add_comm]
    exact List.getElem?_eq_getElem hl
  · unfold MirroredDelayLine.data
    rw [List.getElem?_drop]
    exact List.getElem?_eq_getElem hl

/-- C17, as the code has it, at index 2 of the delay line of length 3 after four appends. -/
theorem delayLine_subscript_eq_data_witness :
    ∃ y, delayLineFour.subscript 2 = some y ∧
      delayLineFour.m_storage[delayLineFour.m_index + 2]? = some y ∧
      delayLineFour.data[2]? = some y :=
  delayLine_subscript_eq_data maxSizeInt 3 (by decide) (by decide) delayLineFour
    (delayLine_reachable_built (by decide) (by decide) delayLineFour_reachable) 2 (by decide)

/-- C17 as stated fails: in the delay line of length `N = 2^63`, whose storage length
`2 * N` wraps to 0, `operator[](0)` and `data()[0]` are past the end of the storage. -/
theorem delayLine_subscript_storage_wraps :
    MirroredDelayLine.Built maxSizeInt 9223372036854775808 delayLineNoStorage ∧
    delayLineNoStorage.subscript 0 = none ∧
    delayLineNoStorage.m_storage[delayLineNoStorage.m_index + 0]? = none ∧
    delayLineNoStorage.data[0]? = none :=
  ⟨delayLineNoStorage_built, by decide, by decide, by decide⟩

/-- C20 at `clear(1)` on `MirroredDelayLine<int>(2, 0)`: the cursor is 0 and every slot
holds 16843009, the `int` with all four bytes 1, not 1. -/
theorem delayLine_clear_one_fills_bytes :
    (MirroredDelayLine.newFill 2 (0 : Int)).clear 1 =
      some { m_delayLineLength := 2, m_totalStorageLength := 4
             m_storage := [16843009, 16843009, 16843009, 16843009], m_index := 0 } ∧
    ((MirroredDelayLine.newFill 2 (0 : Int)).clear 1).map MirroredDelayLine.window
      = some [16843009, 16843009] ∧
    (MirroredDelayLine.newFill 2 (0 : Int)).clear 0 =
      some { m_delayLineLength := 2, m_totalStorageLength := 4
             m_storage := [0, 0, 0, 0], m_index := 0 } := by
  decide


end DelayLineAccess

/-! ## Lemmas on single-item operations of the fifo -/

section FifoSingle

variable {α : Type}

/-- `writeOne` is `write` of a one-item array, in every state. -/
theorem writeOne_eq_write (f : MirroredFifo α) (x : α) (overwrite : Bool) :
    f.writeOne x overwrite = f.write 1 [x] overwrite := by
  unfold MirroredFifo.writeOne MirroredFifo.write
  cases overwrite <;> by_cases hc : f.canWrite = 0
  · simp [hc, MirroredFifo.writeLoopFree, MirroredFifo.writeLoopOver]
  · have hpos : 0 < f.canWrite := Nat.pos_of_ne_zero hc
    have h1 : ¬ 1 > f.canWrite := by omega
    cases hs : f.storeAtTail x <;>
      simp [hc, h1, hpos, hs, MirroredFifo.writeLoopFree, MirroredFifo.writeLoopOver]
  · cases hs : f.storeAtTail x <;>
      simp [hc, hs, MirroredFifo.writeLoopFree, MirroredFifo.writeLoopOver]
  · have hpos : 0 < f.canWrite := Nat.pos_of_ne_zero hc
    cases hs : f.storeAtTail x <;>
      simp [hc, hpos, hs, MirroredFifo.writeLoopFree, MirroredFifo.writeLoopOver]

/-- The result of `readOne` in a state that satisfies the invariant. -/
theorem readOne_spec {N : Nat} {f : MirroredFifo α} (h : FifoInv N f) :
    ∃ x f1, f.readOne = some (x, f1) ∧ f.m_storage[f.m_headIndex]? = some x ∧
      FifoInv N f1 ∧ f1.m_headIndex = (f.m_headIndex + 1) % (N + 1) ∧
      f1.m_tailIndex = f.m_tailIndex ∧ f1.m_storage = f.m_storage ∧
      f1 = { f with m_headIndex :=
              if f.m_headIndex + 1 ≥ f.m_fifoLength then f.m_headIndex + 1 - f.m_fifoLength
              else f.m_headIndex + 1 } := by
  have hh := h.head
  have hl : f.m_headIndex < f.m_storage.length := by rw [h.size]; omega
  have hx : f.m_storage[f.m_headIndex]? = some f.m_storage[f.m_headIndex] :=
    List.getElem?_eq_getElem hl
  have hhead : (if f.m_headIndex + 1 ≥ f.m_fifoLength then f.m_headIndex + 1 - f.m_fifoLength
      else f.m_headIndex + 1) = (f.m_headIndex + 1) % (N + 1) := by
    rw [h.len]
    by_cases hw : f.m_headIndex + 1 ≥ N + 1
    · rw [if_pos hw, Nat.mod_eq_sub_mod hw, Nat.mod_eq_of_lt (by omega)]
    · rw [if_neg hw, Nat.mod_eq_of_lt (by omega)]
  refine ⟨f.m_storage[f.m_headIndex], { f with m_headIndex :=
      if f.m_headIndex + 1 ≥ f.m_fifoLength then f.m_headIndex + 1 - f.m_fifoLength
      else f.m_headIndex + 1 }, ?_, hx, ?_, hhead, rfl, rfl, rfl⟩
  · unfold MirroredFifo.readOne
    rw [hx]
  · refine ⟨h.len, h.total, h.size, ?_, h.tail, h.mirror⟩
    show (if f.m_headIndex + 1 ≥ f.m_fifoLength then f.m_headIndex + 1 - f.m_fifoLength
      else f.m_headIndex + 1) < N + 1
    rw [hhead]
    exact Nat.mod_lt _ (by omega)

/-- With at least one item queued, `read(1, out)` is `readOne`. -/
theorem read_one_eq_readOne {N : Nat} {f : MirroredFifo α} (h : FifoInv N f)
    (hc : 0 < f.canRead) {x : α} {f1 : MirroredFifo α} (hr : f.readOne = some (x, f1)) :
    f.read 1 = some (1, [x], f1) := by
  have hh := h.head
  obtain ⟨y, f2, h2, hy, -, -, -, -, hf2⟩ := readOne_spec h
  rw [h2] at hr
  cases hr
  have hl : f.m_headIndex < f.m_storage.length := by rw [h.size]; omega
  have hlen : (if 1 > f.canRead then f.canRead else 1) = 1 := by
    split <;> omega
  have hout : (f.m_storage.drop f.m_headIndex).take 1 = [x] := by
    rw [List.getElem?_eq_getElem hl] at hy
    cases hy
    rw [List.drop_eq_getElem_cons hl]
    rfl
  unfold MirroredFifo.read
  simp only [if_neg (by omega : ¬ f.canRead = 0), hlen, hout]
  rw [if_pos (by omega), hf2]

theorem canRead_zero_iff {N : Nat} {f : MirroredFifo α} (h : FifoInv N f) :
    f.canRead = 0 ↔ f.m_headIndex = f.m_tailIndex := by
  have hh := h.head
  have ht := h.tail
  rcases canRead_cases h with ⟨hle, hc⟩ | ⟨hlt, hc⟩ <;> constructor <;> intro h0 <;> omega

/-! ## Claims on the fifo: `clear`, single items, indices -/

/-- C22, as the code has it: in every state of a fifo constructed with `2(N+1) < 2^64`, for
every item and both overwrite settings, `writeOne(x, overwrite)` returns the count and
state of `write(1, {x}, overwrite)`: 0 and the unchanged state when the fifo is full and
overwrite is off; 1, with the head advanced by one and the oldest item dropped, when it is
full and overwrite is on; 1 with the head unchanged and `x` queued last otherwise. -/
theorem fifo_writeOne_is_write_of_one [Inhabited α] (max_size N : Nat)
    (hS : 2 * (N + 1) < 18446744073709551616) (f : MirroredFifo α)
    (hb : MirroredFifo.Built max_size N f) (x : α) (overwrite : Bool) :
    f.writeOne x overwrite = f.write 1 [x] overwrite ∧
    (f.canWrite = 0 → f.writeOne x false = some (0, f)) ∧
    (f.canWrite = 0 → ∃ f1, f.writeOne x true = some (1, f1) ∧
      f1.m_headIndex = (f.m_headIndex + 1) % (N + 1) ∧
      f1.queued = (f.queued ++ [x]).drop 1) ∧
    (0 < f.canWrite → ∃ f1, f.writeOne x overwrite = some (1, f1) ∧
      f1.m_headIndex = f.m_headIndex ∧ f1.queued = f.queued ++ [x]) := by
  have hr := fifo_built_reachable hS hb
  have hinv := reachable_fifoInv hr
  refine ⟨writeOne_eq_write f x overwrite, ?_, ?_, ?_⟩
  · intro hc
    unfold MirroredFifo.writeOne
    simp [hc]
  · intro hc
    obtain ⟨f1, h1, -, hhd, -, hq⟩ := write_over_spec 1 [x] hinv (Nat.le_refl _)
    rw [hc] at hhd hq
    exact ⟨f1, by rw [writeOne_eq_write, h1], hhd, hq⟩
  · intro hc
    cases overwrite with
    | false =>
      obtain ⟨f1, h1, -, hhd, -, hq⟩ := write_keep_spec 1 [x] hinv (Nat.min_le_left _ _)
      have hmin : min 1 f.canWrite = 1 := by omega
      rw [hmin] at h1 hq
      exact ⟨f1, by rw [writeOne_eq_write, h1], hhd, hq⟩
    | true =>
      obtain ⟨f1, h1, -, hhd, -, hq⟩ := write_over_spec 1 [x] hinv (Nat.le_refl _)
      have hsub : 1 - f.canWrite = 0 := by omega
      rw [hsub, Nat.add_zero, Nat.mod_eq_of_lt hinv.head] at hhd
      rw [hsub, List.drop_zero] at hq
      exact ⟨f1, by rw [writeOne_eq_write, h1], hhd, hq⟩

/-- C22, as the code has it, for an overwriting `writeOne(9, true)` on the full capacity 3
fifo with head at slot 3. -/
theorem fifo_writeOne_is_write_of_one_witness :
    fifoWrapped.writeOne 9 true = fifoWrapped.write 1 [9] true ∧
    (fifoWrapped.canWrite = 0 → fifoWrapped.writeOne 9 false = some (0, fifoWrapped)) ∧
    (fifoWrapped.canWrite = 0 → ∃ f1, fifoWrapped.writeOne 9 true = some (1, f1) ∧
      f1.m_headIndex = (fifoWrapped.m_headIndex + 1) % (3 + 1) ∧
      f1.queued = (fifoWrapped.queued ++ [9]).drop 1) ∧
    (0 < fifoWrapped.canWrite → ∃ f1, fifoWrapped.writeOne 9 true = some (1, f1) ∧
      f1.m_headIndex = fifoWrapped.m_headIndex ∧ f1.queued = fifoWrapped.queued ++ [9]) :=
  fifo_writeOne_is_write_of_one maxSizeInt 3 (by decide) fifoWrapped
    (fifo_reachable_built (by decide) (by decide) fifoWrapped_reachable) 9 true

/-- C22 as stated fails: the fifo of capacity `2^63 - 1` is constructed with an empty
storage; it is not full, and `writeOne(1, overwrite)` stores past the end of the storage
with either overwrite setting instead of returning 1. -/
theorem fifo_writeOne_storage_wraps :
    MirroredFifo.Built maxSizeInt 9223372036854775807 fifoNoStorage ∧
    0 < fifoNoStorage.canWrite ∧
    fifoNoStorage.writeOne 1 false = none ∧
    fifoNoStorage.writeOne 1 true = none :=
  ⟨fifoNoStorage_built, by decide, by decide, by decide⟩

/-- C23, as the code has it: in every state with `canRead() > 0` of a fifo constructed with
`2(N+1) < 2^64`, `readOne()` returns the item at the head, which is the oldest queued
item, and advances the head by 1 modulo `N+1`; item and resulting state are those of
`read(1, out)`. -/
theorem fifo_readOne_is_read_of_one [Inhabited α] (max_size N : Nat)
    (hS : 2 * (N + 1) < 18446744073709551616) (f : MirroredFifo α)
    (hb : MirroredFifo.Built max_size N f) (hc : 0 < f.canRead) :
    ∃ x f1, f.readOne = some (x, f1) ∧ f.m_storage[f.m_headIndex]? = some x ∧
      f.queued[0]? = some x ∧ f1.m_headIndex = (f.m_headIndex + 1) % (N + 1) ∧
      f1.queued = f.queued.drop 1 ∧ f.read 1 = some (1, [x], f1) := by
  have hr := fifo_built_reachable hS hb
  have hinv := reachable_fifoInv hr
  obtain ⟨x, f1, h1, hx, -, hhd, -, -, -⟩ := readOne_spec hinv
  have hread := read_one_eq_readOne hinv hc h1
  obtain ⟨f2, h2, -, -, -, -, -, -, hq2⟩ := read_spec 1 hinv
  have hmin : min 1 f.canRead = 1 := by omega
  rw [hmin, hread] at h2
  simp only [Option.some.injEq, Prod.mk.injEq] at h2
  obtain ⟨-, -, hf⟩ := h2
  subst hf
  refine ⟨x, f1, h1, hx, ?_, hhd, by rw [hq2, hmin], hread⟩
  rw [queued_getElem_opt, if_pos hc, Nat.add_zero, hx]

/-- C23, as the code has it, at the capacity 3 fifo that holds the items 1 and 2. -/
theorem fifo_readOne_is_read_of_one_witness :
    ∃ x f1, fifoTwoQueued.readOne = some (x, f1) ∧
      fifoTwoQueued.m_storage[fifoTwoQueued.m_headIndex]? = some x ∧
      fifoTwoQueued.queued[0]? = some x ∧
      f1.m_headIndex = (fifoTwoQueued.m_headIndex + 1) % (3 + 1) ∧
      f1.queued = fifoTwoQueued.queued.drop 1 ∧ fifoTwoQueued.read 1 = some (1, [x], f1) :=
  fifo_readOne_is_read_of_one maxSizeInt 3 (by decide) fifoTwoQueued
    (fifo_reachable_built (by decide) (by decide) fifoTwoQueued_reachable) (by decide)

/-- C23 as stated fails: the fifo of capacity `2^63` is constructed with two storage
slots.  After two calls of `readOne()` its head is at slot 2 and `canRead()` is
`2^63 - 1 > 0`, and `readOne()` reads past the end of the storage. -/
theorem fifo_readOne_storage_wraps :
    MirroredFifo.Built maxSizeInt 9223372036854775808 fifoShortStorageReadTwice ∧
    0 < fifoShortStorageReadTwice.canRead ∧
    fifoShortStorageReadTwice.m_storage[fifoShortStorageReadTwice.m_headIndex]? = none ∧
    fifoShortStorageReadTwice.readOne = none :=
  ⟨fifoShortStorageReadTwice_built, by decide, by decide, by decide⟩

/-- C26, as the code has it: in every state of a fifo constructed with `2(N+1) < 2^64`,
`debug_printContents` lists the `canRead()` queued items from head to tail, the sequence
that `read(canRead(), out)` returns. -/
theorem fifo_debug_print_lists_queued [Inhabited α] (max_size N : Nat)
    (hS : 2 * (N + 1) < 18446744073709551616) (f : MirroredFifo α)
    (hb : MirroredFifo.Built max_size N f) :
    ∃ out f1, f.debug_printContents = some out ∧ out = f.queued ∧
      out.length = f.canRead ∧ f.read f.canRead = some (f.canRead, out, f1) := by
  have hr := fifo_built_reachable hS hb
  have hinv := reachable_fifoInv hr
  obtain ⟨f1, h1, -, -, -, -, -, hq, -⟩ := read_spec f.canRead hinv
  have hql := queued_length hinv
  rw [hq, Nat.min_self, ← hql, List.take_length, hql] at h1
  exact ⟨f.queued, f1, debug_printContents_eq hinv, rfl, hql, h1⟩

/-- C26, as the code has it, at the full capacity 3 fifo whose queued slice starts at slot 3. -/
theorem fifo_debug_print_lists_queued_witness :
    ∃ out f1, fifoWrapped.debug_printContents = some out ∧ out = fifoWrapped.queued ∧
      out.length = fifoWrapped.canRead ∧
      fifoWrapped.read fifoWrapped.canRead = some (fifoWrapped.canRead, out, f1) :=
  fifo_debug_print_lists_queued maxSizeInt 3 (by decide) fifoWrapped
    (fifo_reachable_built (by decide) (by decide) fifoWrapped_reachable)

/-- C26 as stated fails: in the fifo of capacity `2^63`, constructed with two storage
slots, after one `readOne()` the head is at slot 1 and `canRead()` is `2^63`; the second
slot that `debug_printContents` prints, `m_storage[head + 1]`, is past the end of the
storage, and so is the copy of `read(canRead(), out)`. -/
theorem fifo_debug_print_storage_wraps :
    MirroredFifo.Built maxSizeInt 9223372036854775808 fifoShortStorageRead ∧
    1 < fifoShortStorageRead.canRead ∧
    fifoShortStorageRead.m_storage[fifoShortStorageRead.m_headIndex + 1]? = none ∧
    fifoShortStorageRead.read fifoShortStorageRead.canRead = none :=
  ⟨fifoShortStorageRead_built, by decide, by decide, by decide⟩

/-- C27, as the code has it: for `N > 0` with `2(N+1) < 2^64`, in every state with
`canRead() == 0` of a fifo constructed with capacity `N`, `readOne()` does not fail: it
returns the value in `storage[head]` and moves the head one slot past the tail, after
which `canRead() == N` and `canWrite() == 0`. -/
theorem fifo_readOne_on_empty [Inhabited α] (max_size N : Nat) (hN : 0 < N)
    (hS : 2 * (N + 1) < 18446744073709551616) (f : MirroredFifo α)
    (hb : MirroredFifo.Built max_size N f) (he : f.canRead = 0) :
    ∃ x f1, f.readOne = some (x, f1) ∧ f.m_storage[f.m_headIndex]? = some x ∧
      f1.m_headIndex = (f.m_tailIndex + 1) % (N + 1) ∧ f1.m_tailIndex = f.m_tailIndex ∧
      f1.canRead = N ∧ f1.canWrite = 0 := by
  have hr := fifo_built_reachable hS hb
  have hinv := reachable_fifoInv hr
  have heq := (canRead_zero_iff hinv).mp he
  obtain ⟨x, f1, h1, hx, hinv1, hhd, htl, -, -⟩ := readOne_spec hinv
  have hh := hinv.head
  have hrw1 := canRead_add_canWrite hinv1
  have hc1 := canRead_cases hinv1
  have hmod : (f.m_headIndex + 1 < N + 1 ∧ (f.m_headIndex + 1) % (N + 1) = f.m_headIndex + 1)
      ∨ (f.m_headIndex + 1 = N + 1 ∧ (f.m_headIndex + 1) % (N + 1) = 0) := by
    by_cases hw : f.m_headIndex + 1 < N + 1
    · exact Or.inl ⟨hw, Nat.mod_eq_of_lt hw⟩
    · have hw2 : f.m_headIndex + 1 = N + 1 := by omega
      exact Or.inr ⟨hw2, by rw [hw2, Nat.mod_self]⟩
  rw [← hhd] at hmod
  have hcr : f1.canRead = N := by omega
  exact ⟨x, f1, h1, hx, by rw [hhd, heq], htl, hcr, by omega⟩

/-- C27, as the code has it, at the empty capacity 3 fifo with head and tail at slot 3. -/
theorem fifo_readOne_on_empty_witness :
    ∃ x f1, fifoDrained.readOne = some (x, f1) ∧
      fifoDrained.m_storage[fifoDrained.m_headIndex]? = some x ∧
      f1.m_headIndex = (fifoDrained.m_tailIndex + 1) % (3 + 1) ∧
      f1.m_tailIndex = fifoDrained.m_tailIndex ∧ f1.canRead = 3 ∧ f1.canWrite = 0 :=
  fifo_readOne_on_empty maxSizeInt 3 (by decide) (by decide) fifoDrained
    (fifo_reachable_built (by decide) (by decide) fifoDrained_reachable) (by decide)

/-- C27 as stated fails: the freshly constructed fifo of capacity `N = 2^63 - 1 > 0` has
`canRead() == 0` and no storage, and `readOne()` reads past its end. -/
theorem fifo_readOne_empty_storage_wraps :
    MirroredFifo.Built maxSizeInt 9223372036854775807 fifoNoStorage ∧
    fifoNoStorage.canRead = 0 ∧
    fifoNoStorage.m_storage[fifoNoStorage.m_headIndex]? = none ∧
    fifoNoStorage.readOne = none :=
  ⟨fifoNoStorage_built, by decide, by decide, by decide⟩

/-- C29, as the code has it: for every `fifoLength = N` with `2(N+1) < 2^64` and every
state of a fifo constructed with it, the storage has `2(N+1)` slots and every index an
operation touches, `tail`, `tail + (N+1)`, `head` and `head + j` for `j` below
`canRead()`, is below that length; no call of `writeOne`, `write` on an array that holds
the requested items, `read`, `readOne` or `debug_printContents` takes the out-of-bounds
branch. -/
theorem fifo_indices_in_bounds [Inhabited α] (max_size N : Nat)
    (hS : 2 * (N + 1) < 18446744073709551616) (f : MirroredFifo α)
    (hb : MirroredFifo.Built max_size N f) :
    f.m_storage.length = 2 * (N + 1) ∧ f.m_fifoLength = N + 1 ∧
      f.m_tailIndex < 2 * (N + 1) ∧ f.m_tailIndex + (N + 1) < 2 * (N + 1) ∧
      f.m_headIndex < 2 * (N + 1) ∧
      (∀ j, j < f.canRead → f.m_headIndex + j < 2 * (N + 1)) ∧
      (∀ x, ∃ f1, f.storeAtTail x = some f1) ∧
      (∀ x overwrite, ∃ r, f.writeOne x overwrite = some r) ∧
      (∀ length data overwrite, length ≤ data.length →
        ∃ r, f.write length data overwrite = some r) ∧
      (∀ length, ∃ r, f.read length = some r) ∧
      (∃ r, f.readOne = some r) ∧
      (∃ out, f.debug_printContents = some out) := by
  have hr := fifo_built_reachable hS hb
  have hinv := reachable_fifoInv hr
  have hh := hinv.head
  have ht := hinv.tail
  have hc := canRead_le hinv
  have hwrite : ∀ length data overwrite, length ≤ data.length →
      ∃ r, f.write length data overwrite = some r := by
    intro length data overwrite hd
    cases overwrite with
    | false =>
      obtain ⟨f1, h1, -⟩ := write_keep_spec length data hinv
        (Nat.le_trans (Nat.min_le_left _ _) hd)
      exact ⟨_, h1⟩
    | true =>
      obtain ⟨f1, h1, -⟩ := write_over_spec length data hinv hd
      exact ⟨_, h1⟩
  refine ⟨hinv.size, hinv.len, by omega, by omega, by omega, fun j hj => by omega, ?_, ?_,
    hwrite, ?_, ?_, ⟨_, debug_printContents_eq hinv⟩⟩
  · intro x
    obtain ⟨f1, h1, -⟩ := storeAtTail_spec x hinv
    exact ⟨f1, h1⟩
  · intro x overwrite
    obtain ⟨r, h1⟩ := hwrite 1 [x] overwrite (Nat.le_refl _)
    exact ⟨r, by rw [writeOne_eq_write, h1]⟩
  · intro length
    obtain ⟨f1, h1, -⟩ := read_spec length hinv
    exact ⟨_, h1⟩
  · obtain ⟨x, f1, h1, -⟩ := readOne_spec hinv
    exact ⟨_, h1⟩

/-- C29, as the code has it, at the full capacity 3 fifo with head at slot 3, where the queued slice ends at
slot 5 of the 8 slots. -/
theorem fifo_indices_in_bounds_witness :
    fifoWrapped.m_storage.length = 2 * (3 + 1) ∧ fifoWrapped.m_fifoLength = 3 + 1 ∧
      fifoWrapped.m_tailIndex < 2 * (3 + 1) ∧ fifoWrapped.m_tailIndex + (3 + 1) < 2 * (3 + 1) ∧
      fifoWrapped.m_headIndex < 2 * (3 + 1) ∧
      (∀ j, j < fifoWrapped.canRead → fifoWrapped.m_headIndex + j < 2 * (3 + 1)) ∧
      (∀ x, ∃ f1, fifoWrapped.storeAtTail x = some f1) ∧
      (∀ x overwrite, ∃ r, fifoWrapped.writeOne x overwrite = some r) ∧
      (∀ length data overwrite, length ≤ data.length →
        ∃ r, fifoWrapped.write length data overwrite = some r) ∧
      (∀ length, ∃ r, fifoWrapped.read length = some r) ∧
      (∃ r, fifoWrapped.readOne = some r) ∧
      (∃ out, fifoWrapped.debug_printContents = some out) :=
  fifo_indices_in_bounds maxSizeInt 3 (by decide) fifoWrapped
    (fifo_reachable_built (by decide) (by decide) fifoWrapped_reachable)

/-- C29 as stated fails: for `fifoLength = 2^63 - 1` the constructor returns a fifo whose
storage has 0 slots, not `2 * 2^63`; the indices `tail` and `head` are not below that
length, and `writeOne`, the store of `write` and `readOne` are out of bounds. -/
theorem fifo_bounds_storage_wraps :
    MirroredFifo.Built maxSizeInt 9223372036854775807 fifoNoStorage ∧
    fifoNoStorage.m_storage.length = 0 ∧
    ¬ fifoNoStorage.m_tailIndex < fifoNoStorage.m_storage.length ∧
    ¬ fifoNoStorage.m_headIndex < fifoNoStorage.m_storage.length ∧
    fifoNoStorage.storeAtTail 1 = none ∧
    fifoNoStorage.writeOne 1 true = none ∧
    fifoNoStorage.readOne = none :=
  ⟨fifoNoStorage_built, by decide, by decide, by decide, by decide, by decide, by decide⟩


end FifoSingle

/-! ## Lemmas on the cursor of the delay line -/

section DelayLineCursor

variable {α : Type}

theorem appendAll_index {N : Nat} (xs : List α) :
    ∀ {d : MirroredDelayLine α}, DelayInv N d →
      ∃ d1, d.appendAll xs = some d1 ∧ DelayInv N d1 ∧
        d1.m_index = (d.m_index + xs.length) % N := by
  induction xs with
  | nil =>
    intro d h
    exact ⟨d, rfl, h, by rw [List.length_nil, Nat.add_zero, Nat.mod_eq_of_lt h.idx]⟩
  | cons x xs ih =>
    intro d h
    obtain ⟨d2, h2, hinv, hidx, -⟩ := delayInv_append x h
    obtain ⟨d3, h3, hinv3, hidx3⟩ := ih hinv
    have hi := h.idx
    have hstep : d2.m_index = (d.m_index + 1) % N := by
      rw [hidx]
      by_cases hw : d.m_index + 1 = N
      · rw [if_pos hw, hw, Nat.mod_self]
      · rw [if_neg hw, Nat.mod_eq_of_lt (by omega)]
    refine ⟨d3, ?_, hinv3, ?_⟩
    · simp only [MirroredDelayLine.appendAll, h2, Option.bind, h3]
    · rw [hidx3, hstep, Nat.mod_add_mod, List.length_cons]
      congr 1
      omega

theorem clear_spec [ByteFill α] {N : Nat} {d : MirroredDelayLine α} (v : α)
    (h : DelayInv N d) :
    ∃ d1, d.clear v = some d1 ∧ DelayInv N d1 ∧ d1.m_index = 0 ∧
      d1.m_storage = List.replicate (2 * N) (ByteFill.memsetValue v) := by
  have hc : d.clear v = some { d with
      m_index := 0
      m_storage := List.replicate d.m_totalStorageLength (ByteFill.memsetValue v)
        ++ d.m_storage.drop d.m_totalStorageLength } := by
    unfold MirroredDelayLine.clear
    rw [if_pos (by rw [h.total, h.size])]
  refine ⟨_, hc, delayInv_clear v h hc, rfl, ?_⟩
  show List.replicate d.m_totalStorageLength (ByteFill.memsetValue v)
    ++ d.m_storage.drop d.m_totalStorageLength = _
  rw [h.total, List.drop_of_length_le (by rw [h.size]), List.append_nil]

theorem delay_debug_printContents_eq {N : Nat} {d : MirroredDelayLine α} (h : DelayInv N d) :
    d.debug_printContents = some d.window := by
  have := h.idx
  unfold MirroredDelayLine.debug_printContents MirroredDelayLine.window MirroredDelayLine.data
    MirroredDelayLine.length
  exact mapM_range_slice d.m_storage d.m_index d.m_delayLineLength
    (by rw [h.size, h.len]; omega)

theorem reachable_zero_storage [Inhabited α] [ByteFill α] {d : MirroredDelayLine α}
    (hr : MirroredDelayLine.Reachable 0 d) :
    d.m_storage = [] ∧ d.m_totalStorageLength = 0 := by
  induction hr with
  | new => exact ⟨rfl, rfl⟩
  | newFill v => exact ⟨rfl, rfl⟩
  | append x _ ha ih =>
    unfold MirroredDelayLine.append at ha
    rw [ih.1] at ha
    simp at ha
  | clear v _ hc ih =>
    unfold MirroredDelayLine.clear at hc
    rw [ih.1, ih.2] at hc
    simp at hc
    rw [← hc]
    exact ⟨rfl, rfl⟩

/-! ## Claims on the delay line: cursor, partial fill, indices -/

/-- C25, as the code has it: in every state of a delay line constructed with `N > 0` and
`2N < 2^64` the cursor is below `N` and each `append` replaces it by `(cursor + 1) mod N`;
hence `k` appends move it to `(cursor + k) mod N`, which is `k mod N` on a line that either
constructor just returned or that was just cleared. -/
theorem delayLine_cursor_invariant [Inhabited α] [ByteFill α] (max_size N : Nat) (hN : 0 < N)
    (hS : 2 * N < 18446744073709551616) (d : MirroredDelayLine α)
    (hb : MirroredDelayLine.Built max_size N d) :
    d.m_index < N ∧
    (∀ x, ∃ d1, d.append x = some d1 ∧ d1.m_index = (d.m_index + 1) % N) ∧
    (∀ xs, ∃ d1, d.appendAll xs = some d1 ∧ d1.m_index = (d.m_index + xs.length) % N) ∧
    (∀ d0 : MirroredDelayLine α, MirroredDelayLine.construct max_size N = some d0 →
      ∀ xs, ∃ d1, d0.appendAll xs = some d1 ∧ d1.m_index = xs.length % N) ∧
    (∀ (v : α) d0, MirroredDelayLine.constructFill max_size N v = some d0 →
      ∀ xs, ∃ d1, d0.appendAll xs = some d1 ∧ d1.m_index = xs.length % N) ∧
    (∀ v, ∃ d0, d.clear v = some d0 ∧ d0.m_index = 0 ∧
      ∀ xs, ∃ d1, d0.appendAll xs = some d1 ∧ d1.m_index = xs.length % N) := by
  have hr := delayLine_built_reachable hS hb
  have hinv := reachable_delayInv hN hr
  have hfrom0 : ∀ {d0 : MirroredDelayLine α}, DelayInv N d0 → d0.m_index = 0 →
      ∀ xs, ∃ d1, d0.appendAll xs = some d1 ∧ d1.m_index = xs.length % N := by
    intro d0 h0 hi xs
    obtain ⟨d1, h1, -, hidx⟩ := appendAll_index xs h0
    rw [hi, Nat.zero_add] at hidx
    exact ⟨d1, h1, hidx⟩
  refine ⟨hinv.idx, ?_, ?_, ?_, ?_, ?_⟩
  rotate_left 2
  · intro d0 hc
    rw [(delayLine_construct_eq hS hc).1]
    exact hfrom0 (delayInv_new N hN) rfl
  · intro v d0 hc
    rw [(delayLine_constructFill_eq hS hc).1]
    exact hfrom0 (delayInv_newFill N hN v) rfl
  rotate_left 1
  · intro x
    obtain ⟨d1, h1, -, hidx⟩ := appendAll_index [x] hinv
    refine ⟨d1, ?_, hidx⟩
    unfold MirroredDelayLine.appendAll at h1
    cases ha : d.append x with
    | none =>
      rw [ha] at h1
      cases h1
    | some d2 =>
      rw [ha] at h1
      exact h1
  · intro xs
    obtain ⟨d1, h1, -, hidx⟩ := appendAll_index xs hinv
    exact ⟨d1, h1, hidx⟩
  · intro v
    obtain ⟨d0, h0, hinv0, hi0, -⟩ := clear_spec v hinv
    exact ⟨d0, h0, hi0, hfrom0 hinv0 hi0⟩

/-- C25, as the code has it, at the delay line of length 3 after four appends, where the cursor is 1. -/
theorem delayLine_cursor_invariant_witness :
    delayLineFour.m_index < 3 ∧
    (∀ x, ∃ d1, delayLineFour.append x = some d1 ∧
      d1.m_index = (delayLineFour.m_index + 1) % 3) ∧
    (∀ xs, ∃ d1, delayLineFour.appendAll xs = some d1 ∧
      d1.m_index = (delayLineFour.m_index + xs.length) % 3) ∧
    (∀ d0 : MirroredDelayLine Int, MirroredDelayLine.construct maxSizeInt 3 = some d0 →
      ∀ xs, ∃ d1, d0.appendAll xs = some d1 ∧ d1.m_index = xs.length % 3) ∧
    (∀ (v : Int) d0, MirroredDelayLine.constructFill maxSizeInt 3 v = some d0 →
      ∀ xs, ∃ d1, d0.appendAll xs = some d1 ∧ d1.m_index = xs.length % 3) ∧
    (∀ v, ∃ d0, delayLineFour.clear v = some d0 ∧ d0.m_index = 0 ∧
      ∀ xs, ∃ d1, d0.appendAll xs = some d1 ∧ d1.m_index = xs.length % 3) :=
  delayLine_cursor_invariant maxSizeInt 3 (by decide) (by decide) delayLineFour
    (delayLine_reachable_built (by decide) (by decide) delayLineFour_reachable)

/-- C25 as stated fails: the delay line of length `N = 2^63` is returned by both
constructors with the cursor at 0 and an empty storage, and no `append` moves the cursor:
every `append` stores past the end of the storage. -/
theorem delayLine_cursor_storage_wraps :
    MirroredDelayLine.construct maxSizeInt 9223372036854775808 = some delayLineNoStorage ∧
    MirroredDelayLine.constructFill maxSizeInt 9223372036854775808 (0 : Int)
      = some delayLineNoStorage ∧
    delayLineNoStorage.m_index = 0 ∧
    (∀ x : Int, delayLineNoStorage.append x = none) ∧
    delayLineNoStorage.appendAll [1, 2] = none :=
  ⟨by decide, by decide, rfl, fun _ => rfl, by decide⟩

/-- C28, as the code has it: for every `N > 0` with `2N < 2^64`, fill value and list `xs`
of `k ≥ 0` values appended to the object `d0` that the constructor call
`MirroredDelayLine(N, fill)` returned, the window `data()[0..N)` is the last `N` elements
of `N` copies of the fill value followed by `xs`; for `k < N` it is `N - k` copies of the
fill value followed by `xs`. -/
theorem delayLine_window_partial_fill (max_size N : Nat) (hN : 0 < N)
    (hS : 2 * N < 18446744073709551616) (fill : α) (d0 : MirroredDelayLine α)
    (hc : MirroredDelayLine.constructFill max_size N fill = some d0) (xs : List α) :
    ∃ d, d0.appendAll xs = some d ∧
      d.data.take N = lastN N (List.replicate N fill ++ xs) ∧
      (xs.length < N → d.data.take N = List.replicate (N - xs.length) fill ++ xs) := by
  rw [(delayLine_constructFill_eq hS hc).1]
  obtain ⟨d, hd, hinv, hw⟩ := appendAll_window xs (delayInv_newFill N hN fill)
  rw [window_newFill] at hw
  have hwin : d.window = d.data.take N := by
    rw [MirroredDelayLine.window, MirroredDelayLine.length, hinv.len]
  rw [hwin] at hw
  refine ⟨d, hd, ?_, ?_⟩
  · rw [hw, lastN, List.length_append, List.length_replicate, Nat.add_sub_cancel_left]
  · intro hk
    rw [hw, List.drop_append_of_le_length (by rw [List.length_replicate]; omega),
      List.drop_replicate]

/-- C28, as the code has it, for two appends to `MirroredDelayLine(5, 0)`. -/
theorem delayLine_window_partial_fill_witness :
    ∃ d, (MirroredDelayLine.newFill 5 (0 : Int)).appendAll [1, 2] = some d ∧
      d.data.take 5 = lastN 5 (List.replicate 5 (0 : Int) ++ [1, 2]) ∧
      ([(1 : Int), 2].length < 5 →
        d.data.take 5 = List.replicate (5 - [(1 : Int), 2].length) 0 ++ [1, 2]) :=
  delayLine_window_partial_fill maxSizeInt 5 (by decide) (by decide) 0
    (MirroredDelayLine.newFill 5 0) (by decide) [1, 2]

/-- C28 as stated fails: `MirroredDelayLine<int>(9223372036854775808, 0)` is constructed
with an empty storage, so that after `k = 0` appends the window `data()[0..N)` is empty and
not `N = 2^63` copies of the fill value. -/
theorem delayLine_partial_fill_storage_wraps :
    MirroredDelayLine.constructFill maxSizeInt 9223372036854775808 (0 : Int)
      = some delayLineNoStorage ∧
    delayLineNoStorage.appendAll [] = some delayLineNoStorage ∧
    delayLineNoStorage.data.take 9223372036854775808 = [] ∧
    delayLineNoStorage.data.take 9223372036854775808
      ≠ List.replicate 9223372036854775808 0 := by
  refine ⟨by decide, rfl, by decide, ?_⟩
  intro h
  have hl := congrArg List.length h
  rw [List.length_replicate] at hl
  revert hl
  decide

/-- C30, as the code has it: in every state of a delay line constructed with `2N < 2^64`,
if `N > 0` the storage has `2N` slots, the slots `cursor` and `cursor + N` that `append`
writes and the slots `cursor + i`, `i < N`, that `operator[]`, `data()` and
`debug_printContents` read are below `2N`, and none of these calls is out of bounds; if
`N == 0` every `append` indexes past the end of the empty storage. -/
theorem delayLine_indices_in_bounds [Inhabited α] [ByteFill α] (max_size N : Nat)
    (hS : 2 * N < 18446744073709551616) (d : MirroredDelayLine α)
    (hb : MirroredDelayLine.Built max_size N d) :
    (0 < N →
      d.m_storage.length = 2 * N ∧ d.m_index < 2 * N ∧ d.m_index + N < 2 * N ∧
      (∀ i, i < N → i + d.m_index < 2 * N) ∧
      (∀ x, ∃ d1, d.append x = some d1) ∧
      (∀ i, i < N → ∃ y, d.subscript i = some y ∧ d.data[i]? = some y) ∧
      (∃ out, d.debug_printContents = some out)) ∧
    (N = 0 → d.m_storage = [] ∧ ∀ x, d.append x = none) := by
  have hr := delayLine_built_reachable hS hb
  constructor
  · intro hN
    have hinv := reachable_delayInv hN hr
    have hi := hinv.idx
    refine ⟨hinv.size, by omega, by omega, fun i hiN => by omega, ?_, ?_,
      ⟨_, delay_debug_printContents_eq hinv⟩⟩
    · intro x
      obtain ⟨d1, h1, -⟩ := delayInv_append x hinv
      exact ⟨d1, h1⟩
    · intro i hiN
      have hl : d.m_index + i < d.m_storage.length := by rw [hinv.size]; omega
      refine ⟨d.m_storage[d.m_index + i], ?_, ?_⟩
      · unfold MirroredDelayLine.subscript
        rw [Nat.mod_eq_of_lt (by omega), Nat.add_comm]
        exact List.getElem?_eq_getElem hl
      · unfold MirroredDelayLine.data
        rw [List.getElem?_drop]
        exact List.getElem?_eq_getElem hl
  · intro h0
    subst h0
    have hs := (reachable_zero_storage hr).1
    refine ⟨hs, ?_⟩
    intro x
    unfold MirroredDelayLine.append
    rw [hs]
    rfl

/-- C30, as the code has it, at the delay line of length 3 after four appends, cursor 1 of 6 slots. -/
theorem delayLine_indices_in_bounds_witness :
    (0 < 3 →
      delayLineFour.m_storage.length = 2 * 3 ∧ delayLineFour.m_index < 2 * 3 ∧
      delayLineFour.m_index + 3 < 2 * 3 ∧
      (∀ i, i < 3 → i + delayLineFour.m_index < 2 * 3) ∧
      (∀ x, ∃ d1, delayLineFour.append x = some d1) ∧
      (∀ i, i < 3 → ∃ y, delayLineFour.subscript i = some y ∧
        delayLineFour.data[i]? = some y) ∧
      (∃ out, delayLineFour.debug_printContents = some out)) ∧
    (3 = 0 → delayLineFour.m_storage = [] ∧ ∀ x, delayLineFour.append x = none) :=
  delayLine_indices_in_bounds maxSizeInt 3 (by decide) delayLineFour
    (delayLine_reachable_built (by decide) (by decide) delayLineFour_reachable)

/-- C30 as stated fails: for `N = 2^63 > 0` the storage of the constructed delay line has
0 slots, not `2N`; the cursor is not below its length, and `append` and `operator[](0)`
are out of bounds. -/
theorem delayLine_bounds_storage_wraps :
    MirroredDelayLine.Built maxSizeInt 9223372036854775808 delayLineNoStorage ∧
    delayLineNoStorage.m_storage.length = 0 ∧
    ¬ delayLineNoStorage.m_index < delayLineNoStorage.m_storage.length ∧
    delayLineNoStorage.append 1 = none ∧
    delayLineNoStorage.subscript 0 = none :=
  ⟨delayLineNoStorage_built, by decide, by decide, by decide, by decide⟩


end DelayLineCursor

/-! ## Lemmas on batch and item-by-item writes -/

section FifoBatch

variable {α : Type}

theorem writeLoopFree_shift (length cwc : Nat) (x : α) (data : List α) :
    ∀ (fuel i : Nat) (f : MirroredFifo α),
      MirroredFifo.writeLoopFree (length + 1) (cwc + 1) (x :: data) fuel (i + 1) f =
        (MirroredFifo.writeLoopFree length cwc data fuel i f).map (fun r => (r.1 + 1, r.2)) := by
  intro fuel
  induction fuel with
  | zero =>
    intro i f
    unfold MirroredFifo.writeLoopFree
    by_cases hc : i < length ∧ i < cwc
    · rw [if_pos hc, if_pos ⟨by omega, by omega⟩]
      rfl
    · rw [if_neg hc, if_neg (by omega)]
      rfl
  | succ fuel ih =>
    intro i f
    unfold MirroredFifo.writeLoopFree
    by_cases hc : i < length ∧ i < cwc
    · rw [if_pos hc, if_pos ⟨by omega, by omega⟩, List.getElem?_cons_succ]
      cases hd : data[i]? with
      | none => rfl
      | some y =>
        dsimp only
        cases hs : f.storeAtTail y with
        | none => rfl
        | some f1 =>
          simp only [Option.bind]
          exact ih (i + 1) f1
    · rw [if_neg hc, if_neg (by omega)]
      rfl

theorem writeLoopOver_shift (length : Nat) (x : α) (data : List α) :
    ∀ (fuel i : Nat) (f : MirroredFifo α),
      MirroredFifo.writeLoopOver (length + 1) (x :: data) fuel (i + 1) f =
        MirroredFifo.writeLoopOver length data fuel i f := by
  intro fuel
  induction fuel with
  | zero =>
    intro i f
    unfold MirroredFifo.writeLoopOver
    by_cases hc : i < length
    · rw [if_pos hc, if_pos (by omega)]
    · rw [if_neg hc, if_neg (by omega)]
  | succ fuel ih =>
    intro i f
    unfold MirroredFifo.writeLoopOver
    by_cases hc : i < length
    · rw [if_pos hc, if_pos (by omega), List.getElem?_cons_succ]
      cases hd : data[i]? with
      | none => rfl
      | some y =>
        dsimp only
        cases hs : f.storeAtTail y with
        | none => rfl
        | some f1 =>
          simp only [Option.bind]
          exact ih (i + 1) f1.bumpHead
    · rw [if_neg hc, if_neg (by omega)]

theorem writeLoopOver_fuel (length : Nat) (data : List α) :
    ∀ (fuel i : Nat) (f : MirroredFifo α), length ≤ i + fuel →
      MirroredFifo.writeLoopOver length data (fuel + 1) i f =
        MirroredFifo.writeLoopOver length data fuel i f := by
  intro fuel
  induction fuel with
  | zero =>
    intro i f hle
    unfold MirroredFifo.writeLoopOver
    rw [if_neg (by omega), if_neg (by omega)]
  | succ fuel ih =>
    intro i f hle
    rw [MirroredFifo.writeLoopOver]
    conv_rhs => rw [MirroredFifo.writeLoopOver]
    by_cases hc : i < length
    · rw [if_pos hc, if_pos hc]
      cases hd : data[i]? with
      | none => rfl
      | some y =>
        dsimp only
        cases hs : f.storeAtTail y with
        | none => rfl
        | some f1 =>
          simp only [Option.bind]
          exact ih (i + 1) f1.bumpHead (by omega)
    · rw [if_neg hc, if_neg hc]

theorem writeLoopFree_full (length : Nat) (data : List α) (fuel i : Nat) (f : MirroredFifo α) :
    MirroredFifo.writeLoopFree length 0 data fuel i f = some (i, f) := by
  cases fuel with
  | zero =>
    unfold MirroredFifo.writeLoopFree
    rw [if_neg (by omega)]
  | succ fuel =>
    unfold MirroredFifo.writeLoopFree
    rw [if_neg (by omega)]

/-- Both loops of `write` on `x :: xs` with free space: the first pass stores `x`, the rest
is both loops on `xs` with one slot less. -/
theorem write_loops_cons (f f1 : MirroredFifo α) (len c : Nat) (x : α) (xs : List α)
    (hs : f.storeAtTail x = some f1) :
    (MirroredFifo.writeLoopFree (len + 1) (c + 1) (x :: xs) (len + 1) 0 f).bind (fun r =>
        (MirroredFifo.writeLoopOver (len + 1) (x :: xs) (len + 1) r.1 r.2).bind
          (fun g => some (len + 1, g)))
      = ((MirroredFifo.writeLoopFree len c xs len 0 f1).bind (fun r =>
          (MirroredFifo.writeLoopOver len xs len r.1 r.2).bind (fun g => some (len, g)))).bind
          (fun s => some (1 + s.1, s.2)) := by
  rw [MirroredFifo.writeLoopFree, if_pos ⟨by omega, by omega⟩]
  simp only [List.getElem?_cons_zero, hs, Option.bind]
  rw [writeLoopFree_shift]
  cases h1 : MirroredFifo.writeLoopFree len c xs len 0 f1 with
  | none => rfl
  | some r =>
    obtain ⟨j, g⟩ := r
    simp only [Option.map]
    rw [writeLoopOver_fuel _ _ _ _ _ (by omega), writeLoopOver_shift]
    cases h2 : MirroredFifo.writeLoopOver len xs len j g with
    | none => rfl
    | some g2 =>
      simp only []
      rw [Nat.add_comm]

/-- The second loop of `write` on `x :: xs` from a full fifo: the first pass stores `x` and
advances the head, the rest is the loop on `xs`. -/
theorem write_over_loop_cons (f f1 : MirroredFifo α) (len : Nat) (x : α) (xs : List α)
    (hs : f.storeAtTail x = some f1) :
    MirroredFifo.writeLoopOver (len + 1) (x :: xs) (len + 1) 0 f =
      MirroredFifo.writeLoopOver len xs len 0 f1.bumpHead := by
  rw [MirroredFifo.writeLoopOver, if_pos (by omega)]
  simp only [List.getElem?_cons_zero, hs, Option.bind]
  rw [writeLoopOver_shift]

/-- A batch `write` of `x :: xs` is `writeOne` of `x` followed by the batch `write` of
`xs`, with the counts added. -/
theorem write_cons {N : Nat} {f : MirroredFifo α} (h : FifoInv N f) (x : α) (xs : List α)
    (overwrite : Bool) :
    f.write (xs.length + 1) (x :: xs) overwrite =
      (f.writeOne x overwrite).bind (fun r =>
        (r.2.write xs.length xs overwrite).bind (fun s => some (r.1 + s.1, s.2))) := by
  obtain ⟨f1, hs, hinv1, -⟩ := storeAtTail_spec x h
  have hrw := canRead_add_canWrite h
  by_cases hc : f.canWrite = 0
  · cases overwrite with
    | false =>
      have hw1 : f.writeOne x false = some (0, f) := by
        unfold MirroredFifo.writeOne
        simp [hc]
      have hleft : f.write (xs.length + 1) (x :: xs) false = some (0, f) := by
        unfold MirroredFifo.write
        simp [hc, MirroredFifo.writeLoopFree, MirroredFifo.writeLoopOver]
      have hright : f.write xs.length xs false = some (0, f) := by
        unfold MirroredFifo.write
        by_cases hn : xs.length > 0
        · simp [hc, hn, MirroredFifo.writeLoopFree, MirroredFifo.writeLoopOver]
        · have hz : xs.length = 0 := by omega
          simp [hc, hz, MirroredFifo.writeLoopFree, MirroredFifo.writeLoopOver]
      rw [hleft, hw1]
      simp only [Option.bind, hright]
    | true =>
      obtain ⟨-, hcw, -⟩ := storeAtTail_over x h hc hs
      have hw1 : f.writeOne x true = some (1, f1.bumpHead) := by
        unfold MirroredFifo.writeOne
        simp [hc, hs]
      rw [hw1]
      unfold MirroredFifo.write
      simp only [hc, hcw, Bool.not_true, Bool.false_and, Bool.false_eq_true, if_false,
        writeLoopFree_full, Option.bind]
      rw [write_over_loop_cons f f1 xs.length x xs hs]
      cases h2 : MirroredFifo.writeLoopOver xs.length xs xs.length 0 f1.bumpHead with
      | none => rfl
      | some g =>
        simp only []
        rw [Nat.add_comm]
  · obtain ⟨c, hcs⟩ : ∃ c, f.canWrite = c + 1 := ⟨f.canWrite - 1, by omega⟩
    obtain ⟨-, -, hcr1, -⟩ := storeAtTail_free x h (by omega) hs
    have hrw1 := canRead_add_canWrite hinv1
    have hc1 : f1.canWrite = c := by omega
    have hw1 : f.writeOne x overwrite = some (1, f1) := by
      unfold MirroredFifo.writeOne
      cases overwrite <;> simp [hcs, hs]
    rw [hw1]
    unfold MirroredFifo.write
    simp only [hcs, hc1, Option.bind]
    cases overwrite with
    | false =>
      by_cases hn : xs.length > c
      · have e1 : (if (!false && decide (xs.length + 1 > c + 1)) = true then c + 1
            else xs.length + 1) = c + 1 := by simp [hn]
        have e2 : (if (!false && decide (xs.length > c)) = true then c else xs.length) = c := by
          simp [hn]
        rw [e1, e2]
        exact write_loops_cons f f1 c c x xs hs
      · have e1 : (if (!false && decide (xs.length + 1 > c + 1)) = true then c + 1
            else xs.length + 1) = xs.length + 1 := by simp [hn]
        have e2 : (if (!false && decide (xs.length > c)) = true then c else xs.length)
            = xs.length := by simp [hn]
        rw [e1, e2]
        exact write_loops_cons f f1 xs.length c x xs hs
    | true =>
      simp only [Bool.not_true, Bool.false_and, Bool.false_eq_true, if_false]
      exact write_loops_cons f f1 xs.length c x xs hs

/-- The batch `write` of a whole array is `writeOne` item by item. -/
theorem write_eq_writeEach {N : Nat} (overwrite : Bool) (xs : List α) :
    ∀ {f : MirroredFifo α}, FifoInv N f →
      f.write xs.length xs overwrite = f.writeEach overwrite xs := by
  induction xs with
  | nil =>
    intro f h
    unfold MirroredFifo.write MirroredFifo.writeEach
    cases overwrite <;>
      simp [MirroredFifo.writeLoopFree, MirroredFifo.writeLoopOver]
  | cons x xs ih =>
    intro f h
    rw [List.length_cons, write_cons h, MirroredFifo.writeEach]
    cases h1 : f.writeOne x overwrite with
    | none => rfl
    | some r =>
      simp only [Option.bind]
      rw [ih (writeOne_inv x overwrite h h1)]

theorem fifo_eq_of_fields {a b : MirroredFifo α} (h1 : a.m_fifoLength = b.m_fifoLength)
    (h2 : a.m_totalStorageLength = b.m_totalStorageLength) (h3 : a.m_storage = b.m_storage)
    (h4 : a.m_headIndex = b.m_headIndex) (h5 : a.m_tailIndex = b.m_tailIndex) : a = b := by
  cases a
  cases b
  simp only [MirroredFifo.mk.injEq]
  exact ⟨h1, h2, h3, h4, h5⟩

/-- Item-by-item writes without overwrite: head, slot counts and every slot that is not
written stay as they are; nothing changes when the fifo is full. -/
theorem writeEach_keep_frame {N : Nat} (xs : List α) :
    ∀ {f : MirroredFifo α}, FifoInv N f →
      ∃ n f1, f.writeEach false xs = some (n, f1) ∧ FifoInv N f1 ∧
        f1.m_headIndex = f.m_headIndex ∧
        f1.m_tailIndex = (f.m_tailIndex + n) % (N + 1) ∧
        (∀ j, (∀ t, t < n → j ≠ (f.m_tailIndex + t) % (N + 1) ∧
            j ≠ (f.m_tailIndex + t) % (N + 1) + (N + 1)) →
          f1.m_storage[j]? = f.m_storage[j]?) ∧
        (f.canWrite = 0 → n = 0 ∧ f1 = f) := by
  induction xs with
  | nil =>
    intro f h
    refine ⟨0, f, rfl, h, rfl, ?_, fun _ _ => rfl, fun _ => ⟨rfl, rfl⟩⟩
    rw [Nat.add_zero, Nat.mod_eq_of_lt h.tail]
  | cons x xs ih =>
    intro f h
    have ht := h.tail
    by_cases hc : f.canWrite = 0
    · have hw1 : f.writeOne x false = some (0, f) := by
        unfold MirroredFifo.writeOne
        simp [hc]
      obtain ⟨n, f1, h1, hinv1, hhd, htl, hfr, hfull⟩ := ih h
      obtain ⟨hn0, hf1⟩ := hfull hc
      refine ⟨0 + n, f1, ?_, hinv1, hhd, ?_, ?_, fun _ => ⟨by omega, hf1⟩⟩
      · simp only [MirroredFifo.writeEach, hw1, Option.bind, h1]
      · rw [Nat.zero_add]
        exact htl
      · rw [Nat.zero_add]
        exact hfr
    · obtain ⟨f1, hs, hinv1, hhd1, htl1, hst1⟩ := storeAtTail_spec x h
      have hw1 : f.writeOne x false = some (1, f1) := by
        unfold MirroredFifo.writeOne
        simp [hc, hs]
      have hmod1 : f1.m_tailIndex = (f.m_tailIndex + 1) % (N + 1) := by
        rw [htl1]
        by_cases hw : f.m_tailIndex + 1 = N + 1
        · rw [if_pos hw, hw, Nat.mod_self]
        · rw [if_neg hw, Nat.mod_eq_of_lt (by omega)]
      obtain ⟨n, f2, h2, hinv2, hhd2, htl2, hfr2, -⟩ := ih hinv1
      refine ⟨1 + n, f2, ?_, hinv2, by rw [hhd2, hhd1], ?_, ?_, fun h0 => absurd h0 hc⟩
      · simp only [MirroredFifo.writeEach, hw1, Option.bind, h2]
      · rw [htl2, hmod1, Nat.mod_add_mod, Nat.add_assoc]
      · intro j hj
        have hj0 := hj 0 (by omega)
        rw [Nat.add_zero, Nat.mod_eq_of_lt ht] at hj0
        rw [hfr2 j, hst1, if_neg (by omega)]
        intro t htn
        have hjt := hj (1 + t) (by omega)
        rw [hmod1, Nat.mod_add_mod, Nat.add_assoc]
        exact hjt

/-! ## Claims on the fifo: batch and single writes, frame conditions -/

/-- C31, as the code has it: in every state of a fifo constructed with `2(N+1) < 2^64`, for
every array `xs` and both overwrite settings, `write(|xs|, xs, overwrite)` succeeds and
gives the state that calling `writeOne(x, overwrite)` for each `x` of `xs` in order gives,
and returns the sum of the counts those calls return. -/
theorem fifo_write_is_writeOne_each [Inhabited α] (max_size N : Nat)
    (hS : 2 * (N + 1) < 18446744073709551616) (f : MirroredFifo α)
    (hb : MirroredFifo.Built max_size N f) (xs : List α) (overwrite : Bool) :
    f.write xs.length xs overwrite = f.writeEach overwrite xs ∧
      ∃ n f1, f.write xs.length xs overwrite = some (n, f1) := by
  have hr := fifo_built_reachable hS hb
  have hinv := reachable_fifoInv hr
  refine ⟨write_eq_writeEach overwrite xs hinv, ?_⟩
  cases overwrite with
  | false =>
    obtain ⟨f1, h1, -⟩ := write_keep_spec xs.length xs hinv (Nat.min_le_left _ _)
    exact ⟨_, f1, h1⟩
  | true =>
    obtain ⟨f1, h1, -⟩ := write_over_spec xs.length xs hinv (Nat.le_refl _)
    exact ⟨_, f1, h1⟩

/-- C31, as the code has it, for four items written over the capacity 3 fifo whose single item sits at slot 2. -/
theorem fifo_write_is_writeOne_each_witness :
    fifoHeadMoved.write [7, 8, 9, 10].length [7, 8, 9, 10] true
        = fifoHeadMoved.writeEach true [7, 8, 9, 10] ∧
      ∃ n f1, fifoHeadMoved.write [7, 8, 9, 10].length [7, 8, 9, 10] true = some (n, f1) :=
  fifo_write_is_writeOne_each maxSizeInt 3 (by decide) fifoHeadMoved
    (fifo_reachable_built (by decide) (by decide) fifoHeadMoved_reachable) [7, 8, 9, 10] true

/-- C31 as stated fails: on the fifo of capacity `2^63 - 1`, which is constructed with an
empty storage, neither `write(2, {7, 8}, overwrite)` nor the two `writeOne` calls return a
count and a state: the first store is past the end of the storage. -/
theorem fifo_batch_storage_wraps :
    MirroredFifo.Built maxSizeInt 9223372036854775807 fifoNoStorage ∧
    fifoNoStorage.write [7, 8].length [7, 8] false = none ∧
    fifoNoStorage.write [7, 8].length [7, 8] true = none ∧
    fifoNoStorage.writeEach false [7, 8] = none ∧
    fifoNoStorage.writeEach true [7, 8] = none :=
  ⟨fifoNoStorage_built, by decide, by decide, by decide, by decide⟩

/-- C32, as the code has it: frame conditions in every state of a fifo constructed with
`2(N+1) < 2^64`.  `read` and `readOne` change only the head index.  `write` of a whole
array and `writeOne`, both without overwrite, change only the tail index and the storage,
leave every slot other than the written ones (`(tail + t) mod (N+1)` and its mirror, for
`t` below the returned count) as it was, and change nothing when the fifo is full. -/
theorem fifo_frame_conditions [Inhabited α] (max_size N : Nat)
    (hS : 2 * (N + 1) < 18446744073709551616) (f : MirroredFifo α)
    (hb : MirroredFifo.Built max_size N f) :
    (∀ length, ∃ n out f1, f.read length = some (n, out, f1) ∧
      f1 = { f with m_headIndex := f1.m_headIndex }) ∧
    (∃ x f1, f.readOne = some (x, f1) ∧ f1 = { f with m_headIndex := f1.m_headIndex }) ∧
    (∀ xs, ∃ n f1, f.write xs.length xs false = some (n, f1) ∧
      f1 = { f with m_tailIndex := f1.m_tailIndex, m_storage := f1.m_storage } ∧
      (∀ j, (∀ t, t < n → j ≠ (f.m_tailIndex + t) % (N + 1) ∧
          j ≠ (f.m_tailIndex + t) % (N + 1) + (N + 1)) →
        f1.m_storage[j]? = f.m_storage[j]?) ∧
      (f.canWrite = 0 → f1 = f)) ∧
    (∀ x, ∃ n f1, f.writeOne x false = some (n, f1) ∧
      f1 = { f with m_tailIndex := f1.m_tailIndex, m_storage := f1.m_storage } ∧
      (∀ j, j ≠ f.m_tailIndex → j ≠ f.m_tailIndex + (N + 1) →
        f1.m_storage[j]? = f.m_storage[j]?) ∧
      (f.canWrite = 0 → f1 = f)) := by
  have hr := fifo_built_reachable hS hb
  have hinv := reachable_fifoInv hr
  have ht := hinv.tail
  have hwrite : ∀ xs : List α, ∃ n f1, f.write xs.length xs false = some (n, f1) ∧
      n ≤ xs.length ∧
      f1 = { f with m_tailIndex := f1.m_tailIndex, m_storage := f1.m_storage } ∧
      (∀ j, (∀ t, t < n → j ≠ (f.m_tailIndex + t) % (N + 1) ∧
          j ≠ (f.m_tailIndex + t) % (N + 1) + (N + 1)) →
        f1.m_storage[j]? = f.m_storage[j]?) ∧
      (f.canWrite = 0 → f1 = f) := by
    intro xs
    obtain ⟨n, f1, h1, hinv1, hhd, -, hfr, hfull⟩ := writeEach_keep_frame xs hinv
    obtain ⟨g, hg, -⟩ := write_keep_spec xs.length xs hinv (Nat.min_le_left _ _)
    have hn : n ≤ xs.length := by
      rw [write_eq_writeEach false xs hinv, h1] at hg
      simp only [Option.some.injEq, Prod.mk.injEq] at hg
      omega
    refine ⟨n, f1, by rw [write_eq_writeEach false xs hinv, h1], hn, ?_, hfr,
      fun h0 => (hfull h0).2⟩
    exact fifo_eq_of_fields (by rw [hinv1.len, hinv.len]) (by rw [hinv1.total, hinv.total])
      rfl hhd rfl
  refine ⟨?_, ?_, ?_, ?_⟩
  · intro length
    obtain ⟨f1, h1, hinv1, -, htl, hst, -⟩ := read_spec length hinv
    exact ⟨_, _, f1, h1,
      fifo_eq_of_fields (by rw [hinv1.len, hinv.len]) (by rw [hinv1.total, hinv.total]) hst
        rfl htl⟩
  · obtain ⟨x, f1, h1, -, hinv1, -, htl, hst, -⟩ := readOne_spec hinv
    exact ⟨x, f1, h1,
      fifo_eq_of_fields (by rw [hinv1.len, hinv.len]) (by rw [hinv1.total, hinv.total]) hst
        rfl htl⟩
  · intro xs
    obtain ⟨n, f1, h1, -, hf, hfr, hfull⟩ := hwrite xs
    exact ⟨n, f1, h1, hf, hfr, hfull⟩
  · intro x
    obtain ⟨n, f1, h1, hn, hf, hfr, hfull⟩ := hwrite [x]
    refine ⟨n, f1, by rw [writeOne_eq_write]; exact h1, hf, ?_, hfull⟩
    intro j hj1 hj2
    apply hfr
    intro t htn
    have ht0 : t = 0 := by
      have : n ≤ 1 := hn
      omega
    subst ht0
    rw [Nat.add_zero, Nat.mod_eq_of_lt ht]
    exact ⟨hj1, hj2⟩

/-- C32, as the code has it, at the capacity 3 fifo whose single item sits at slot 2. -/
theorem fifo_frame_conditions_witness :
    (∀ length, ∃ n out f1, fifoHeadMoved.read length = some (n, out, f1) ∧
      f1 = { fifoHeadMoved with m_headIndex := f1.m_headIndex }) ∧
    (∃ x f1, fifoHeadMoved.readOne = some (x, f1) ∧
      f1 = { fifoHeadMoved with m_headIndex := f1.m_headIndex }) ∧
    (∀ xs, ∃ n f1, fifoHeadMoved.write xs.length xs false = some (n, f1) ∧
      f1 = { fifoHeadMoved with m_tailIndex := f1.m_tailIndex, m_storage := f1.m_storage } ∧
      (∀ j, (∀ t, t < n → j ≠ (fifoHeadMoved.m_tailIndex + t) % (3 + 1) ∧
          j ≠ (fifoHeadMoved.m_tailIndex + t) % (3 + 1) + (3 + 1)) →
        f1.m_storage[j]? = fifoHeadMoved.m_storage[j]?) ∧
      (fifoHeadMoved.canWrite = 0 → f1 = fifoHeadMoved)) ∧
    (∀ x, ∃ n f1, fifoHeadMoved.writeOne x false = some (n, f1) ∧
      f1 = { fifoHeadMoved with m_tailIndex := f1.m_tailIndex, m_storage := f1.m_storage } ∧
      (∀ j, j ≠ fifoHeadMoved.m_tailIndex → j ≠ fifoHeadMoved.m_tailIndex + (3 + 1) →
        f1.m_storage[j]? = fifoHeadMoved.m_storage[j]?) ∧
      (fifoHeadMoved.canWrite = 0 → f1 = fifoHeadMoved)) :=
  fifo_frame_conditions maxSizeInt 3 (by decide) fifoHeadMoved
    (fifo_reachable_built (by decide) (by decide) fifoHeadMoved_reachable)

/-- C32 as stated fails: on the fifo of capacity `2^63 - 1`, which is constructed with an
empty storage and is not full, `readOne()`, `writeOne(1, false)` and `write(1, {1}, false)`
do not return a state at all: each accesses the storage past its end. -/
theorem fifo_frame_storage_wraps :
    MirroredFifo.Built maxSizeInt 9223372036854775807 fifoNoStorage ∧
    fifoNoStorage.canWrite ≠ 0 ∧
    fifoNoStorage.readOne = none ∧
    fifoNoStorage.writeOne 1 false = none ∧
    fifoNoStorage.write [1].length [1] false = none :=
  ⟨fifoNoStorage_built, by decide, by decide, by decide, by decide⟩


end FifoBatch

/-! ## Lemmas on WavWriter -/

namespace WavWriter

theorem leValue_leBytes_four (v : Nat) : leValue (leBytes 4 v) = v % 4294967296 := by
  simp only [leBytes, leValue]
  omega

theorem leValue_leBytes_two (v : Nat) : leValue (leBytes 2 v) = v % 65536 := by
  simp only [leBytes, leValue]
  omega

theorem leBytes_length (w v : Nat) : (leBytes w v).length = w := by
  induction w generalizing v with
  | zero => rfl
  | succ w ih => simp only [leBytes, List.length_cons, ih]

theorem samplesBytes_length (data : List Int) : (samplesBytes data).length = 2 * data.length := by
  induction data with
  | nil => rfl
  | cons s data ih =>
    simp only [samplesBytes, List.flatMap_cons, List.length_append, List.length_cons] at ih ⊢
    rw [ih, int16Bytes, leBytes_length]
    omega

theorem toInt16_int16Bytes (s : Int) (hlo : -32768 ≤ s) (hhi : s < 32768) (rest : List Nat) :
    samplesOfBytes (int16Bytes s ++ rest) = s :: samplesOfBytes rest := by
  simp only [int16Bytes, leBytes, List.cons_append, List.nil_append, samplesOfBytes]
  congr 1
  unfold toInt16
  split <;> omega

theorem samplesOfBytes_samplesBytes (data : List Int)
    (hr : ∀ s, s ∈ data → -32768 ≤ s ∧ s < 32768) :
    samplesOfBytes (samplesBytes data) = data := by
  induction data with
  | nil => rfl
  | cons s data ih =>
    have hs := hr s (List.mem_cons_self s data)
    simp only [samplesBytes, List.flatMap_cons] at ih ⊢
    rw [toInt16_int16Bytes s hs.1 hs.2, ih (fun t ht => hr t (List.mem_cons_of_mem s ht))]

theorem fwrite_at_end (c buf : List Nat) (p : Nat) (hp : p = c.length) :
    fwrite ⟨c, p⟩ buf = ⟨c ++ buf, c.length + buf.length⟩ := by
  subst hp
  simp [fwrite]

theorem fwrite_patch (a old rest new : List Nat) (p : Nat) (hp : p = a.length)
    (hl : old.length = new.length) :
    fwrite ⟨a ++ old ++ rest, p⟩ new = ⟨a ++ new ++ rest, a.length + new.length⟩ := by
  subst hp
  simp [fwrite, List.take_append_of_le_length, ← hl]

/-- The memory image of a header splits into the RIFF tag, the RIFF length, 32 bytes that
do not depend on the two length fields, and the data length. -/
theorem headerBytes_split (audioFormat numChannels sampleRate bitsPerSample : Nat) :
    ∃ A M : List Nat, A.length = 4 ∧ M.length = 32 ∧
      ∀ r d, headerBytes { buildHeader audioFormat numChannels sampleRate bitsPerSample with
                riffChunkLength := r, dataChunkLength := d }
              = A ++ leBytes 4 r ++ M ++ leBytes 4 d := by
  refine ⟨("RIFF".toList.take 4).map Char.toNat,
    ("WAVE".toList.take 4).map Char.toNat ++ ("fmt ".toList.take 4).map Char.toNat ++
      leBytes 4 16 ++ leBytes 2 audioFormat ++ leBytes 2 numChannels ++ leBytes 4 sampleRate ++
      leBytes 4 ((sampleRate * (bitsPerSample / 8) % 4294967296 * numChannels) % 4294967296) ++
      leBytes 2 (((bitsPerSample / 8) * numChannels) % 65536) ++ leBytes 2 bitsPerSample ++
      ("data".toList.take 4).map Char.toNat, by decide, ?_, ?_⟩
  · have hW : (("WAVE".toList.take 4).map Char.toNat).length = 4 := by decide
    have hF : (("fmt ".toList.take 4).map Char.toNat).length = 4 := by decide
    have hD : (("data".toList.take 4).map Char.toNat).length = 4 := by decide
    simp only [List.length_append, leBytes_length, hW, hF, hD]
  · intro r d
    simp only [headerBytes, buildHeader, createEmptyHeader, List.append_assoc]

/-- The file that `writeWav16` leaves: the image of the header of `writeHeader` with the
two length fields patched by `writeData`, then the sample bytes. -/
theorem writeWav16_spec (data : List Int) (sampleRate : Nat)
    (h2 : 2 * data.length < 4294967296) :
    writeWav16 data data.length sampleRate (some ⟨[], 0⟩) =
      some ⟨headerBytes { buildHeader WAVE_FORMAT_PCM 1 sampleRate 16 with
                riffChunkLength := (2 * data.length + 36) % 4294967296
                dataChunkLength := 2 * data.length }
              ++ samplesBytes data,
            sizeofHeader + 2 * data.length⟩ := by
  have hD : (samplesBytes data).length = 2 * data.length := samplesBytes_length data
  have hlen : data.length * 2 % 4294967296 = 2 * data.length := by omega
  unfold writeWav16
  generalize samplesBytes data = D at hD ⊢
  obtain ⟨A, M, hA, hM, hsplit⟩ := headerBytes_split WAVE_FORMAT_PCM 1 sampleRate 16
  have h0 : headerBytes (buildHeader WAVE_FORMAT_PCM 1 sampleRate 16)
      = A ++ leBytes 4 36 ++ M ++ leBytes 4 0 := hsplit 36 0
  have hdcl : (sizeofHeader + 2 * data.length + 18446744073709551616 - sizeofHeader)
      % 18446744073709551616 % 4294967296 = 2 * data.length := by
    unfold sizeofHeader
    omega
  have hriff : (sizeofHeader + 2 * data.length + 18446744073709551616 - 8)
      % 18446744073709551616 % 4294967296 = (2 * data.length + 36) % 4294967296 := by
    unfold sizeofHeader
    omega
  have hl4 : ∀ v, (leBytes 4 v).length = 4 := fun v => leBytes_length 4 v
  have hHl : (A ++ leBytes 4 36 ++ M ++ leBytes 4 0).length = sizeofHeader := by
    simp only [List.length_append, hA, hM, hl4]
    rfl
  unfold writeHeader writeData
  simp only [hlen, hD, le_refl, if_true]
  rw [List.take_of_length_le (by omega), h0, fwrite_at_end [] _ 0 rfl, List.nil_append,
    List.length_nil, Nat.zero_add, hHl]
  rw [fwrite_at_end _ D sizeofHeader hHl.symm, hHl, hD]
  simp only [ftell, fseek, hdcl, hriff]
  rw [fwrite_patch (A ++ leBytes 4 36 ++ M) (leBytes 4 0) D _ _
    (by simp only [List.length_append, hA, hM, hl4]; rfl) (by rw [hl4, hl4])]
  simp only [List.append_assoc]
  rw [← List.append_assoc A, fwrite_patch A (leBytes 4 36) _ _ 4 hA.symm (by rw [hl4, hl4])]
  rw [hsplit]
  simp only [List.append_assoc]

theorem headerBytes_written_length (a n s b r d : Nat) :
    (headerBytes { buildHeader a n s b with riffChunkLength := r, dataChunkLength := d }).length
      = sizeofHeader := by
  obtain ⟨A, M, hA, hM, hsplit⟩ := headerBytes_split a n s b
  rw [hsplit]
  simp only [List.length_append, hA, hM, leBytes_length]
  rfl

theorem take_drop_chunk (pre c post : List Nat) (k w : Nat) (hk : pre.length = k)
    (hw : c.length = w) : ((pre ++ c ++ post).drop k).take w = c := by
  subst hk
  subst hw
  rw [List.append_assoc, List.drop_append_of_le_length (Nat.le_refl _), List.drop_length,
    List.nil_append, List.take_append_of_le_length (Nat.le_refl _), List.take_length]

theorem headerOfBytes_audioFormat (b : List Nat) :
    (headerOfBytes b).audioFormat = leValue ((b.drop 20).take 2) := rfl

theorem headerOfBytes_numChannels (b : List Nat) :
    (headerOfBytes b).numChannels = leValue ((b.drop 22).take 2) := rfl

theorem headerOfBytes_bitsPerSample (b : List Nat) :
    (headerOfBytes b).bitsPerSample = leValue ((b.drop 34).take 2) := rfl

theorem headerOfBytes_dataChunkLength (b : List Nat) :
    (headerOfBytes b).dataChunkLength = leValue ((b.drop 40).take 4) := rfl

theorem headerOfBytes_riffChunkLength (b : List Nat) :
    (headerOfBytes b).riffChunkLength = leValue ((b.drop 4).take 4) := rfl

/-- Reading back the memory image of a header with four-character tags gives the numeric
fields that `readWav16` and the length patch use, reduced to their widths. -/
theorem headerOfBytes_headerBytes (h : wavutil_header) (h1 : h.riffTag.length = 4)
    (h2 : h.waveTag.length = 4) (h3 : h.fmtTag.length = 4) (h4 : h.dataTag.length = 4) :
    (headerOfBytes (headerBytes h)).audioFormat = h.audioFormat % 65536 ∧
    (headerOfBytes (headerBytes h)).numChannels = h.numChannels % 65536 ∧
    (headerOfBytes (headerBytes h)).bitsPerSample = h.bitsPerSample % 65536 ∧
    (headerOfBytes (headerBytes h)).dataChunkLength = h.dataChunkLength % 4294967296 ∧
    (headerOfBytes (headerBytes h)).riffChunkLength = h.riffChunkLength % 4294967296 := by
  refine ⟨?_, ?_, ?_, ?_, ?_⟩
  · rw [headerOfBytes_audioFormat]
    have hs : headerBytes h = (h.riffTag.map Char.toNat ++
        leBytes 4 h.riffChunkLength ++
        h.waveTag.map Char.toNat ++
        h.fmtTag.map Char.toNat ++
        leBytes 4 h.fmtChunkLength) ++ leBytes 2 h.audioFormat ++ (leBytes 2 h.numChannels ++
        leBytes 4 h.sampleRate ++
        leBytes 4 h.byteRate ++
        leBytes 2 h.blockAlign ++
        leBytes 2 h.bitsPerSample ++
        h.dataTag.map Char.toNat ++
        leBytes 4 h.dataChunkLength) := by
      simp only [headerBytes, List.append_assoc, List.append_nil]
    have hpre : (h.riffTag.map Char.toNat ++
        leBytes 4 h.riffChunkLength ++
        h.waveTag.map Char.toNat ++
        h.fmtTag.map Char.toNat ++
        leBytes 4 h.fmtChunkLength).length = 20 := by
      simp only [List.length_append, List.length_map, leBytes_length, h1, h2, h3]
    rw [hs, take_drop_chunk _ _ _ 20 2 hpre (leBytes_length 2 _), leValue_leBytes_two]
  · rw [headerOfBytes_numChannels]
    have hs : headerBytes h = (h.riffTag.map Char.toNat ++
        leBytes 4 h.riffChunkLength ++
        h.waveTag.map Char.toNat ++
        h.fmtTag.map Char.toNat ++
        leBytes 4 h.fmtChunkLength ++
        leBytes 2 h.audioFormat) ++ leBytes 2 h.numChannels ++ (leBytes 4 h.sampleRate ++
        leBytes 4 h.byteRate ++
        leBytes 2 h.blockAlign ++
        leBytes 2 h.bitsPerSample ++
        h.dataTag.map Char.toNat ++
        leBytes 4 h.dataChunkLength) := by
      simp only [headerBytes, List.append_assoc, List.append_nil]
    have hpre : (h.riffTag.map Char.toNat ++
        leBytes 4 h.riffChunkLength ++
        h.waveTag.map Char.toNat ++
        h.fmtTag.map Char.toNat ++
        leBytes 4 h.fmtChunkLength ++
        leBytes 2 h.audioFormat).length = 22 := by
      simp only [List.length_append, List.length_map, leBytes_length, h1, h2, h3]
    rw [hs, take_drop_chunk _ _ _ 22 2 hpre (leBytes_length 2 _), leValue_leBytes_two]
  · rw [headerOfBytes_bitsPerSample]
    have hs : headerBytes h = (h.riffTag.map Char.toNat ++
        leBytes 4 h.riffChunkLength ++
        h.waveTag.map Char.toNat ++
        h.fmtTag.map Char.toNat ++
        leBytes 4 h.fmtChunkLength ++
        leBytes 2 h.audioFormat ++
        leBytes 2 h.numChannels ++
        leBytes 4 h.sampleRate ++
        leBytes 4 h.byteRate ++
        leBytes 2 h.blockAlign) ++ leBytes 2 h.bitsPerSample ++ (h.dataTag.map Char.toNat ++
        leBytes 4 h.dataChunkLength) := by
      simp only [headerBytes, List.append_assoc, List.append_nil]
    have hpre : (h.riffTag.map Char.toNat ++
        leBytes 4 h.riffChunkLength ++
        h.waveTag.map Char.toNat ++
        h.fmtTag.map Char.toNat ++
        leBytes 4 h.fmtChunkLength ++
        leBytes 2 h.audioFormat ++
        leBytes 2 h.numChannels ++
        leBytes 4 h.sampleRate ++
        leBytes 4 h.byteRate ++
        leBytes 2 h.blockAlign).length = 34 := by
      simp only [List.length_append, List.length_map, leBytes_length, h1, h2, h3]
    rw [hs, take_drop_chunk _ _ _ 34 2 hpre (leBytes_length 2 _), leValue_leBytes_two]
  · rw [headerOfBytes_dataChunkLength]
    have hs : headerBytes h = (h.riffTag.map Char.toNat ++
        leBytes 4 h.riffChunkLength ++
        h.waveTag.map Char.toNat ++
        h.fmtTag.map Char.toNat ++
        leBytes 4 h.fmtChunkLength ++
        leBytes 2 h.audioFormat ++
        leBytes 2 h.numChannels ++
        leBytes 4 h.sampleRate ++
        leBytes 4 h.byteRate ++
        leBytes 2 h.blockAlign ++
        leBytes 2 h.bitsPerSample ++
        h.dataTag.map Char.toNat) ++ leBytes 4 h.dataChunkLength ++ ([]) := by
      simp only [headerBytes, List.append_assoc, List.append_nil]
    have hpre : (h.riffTag.map Char.toNat ++
        leBytes 4 h.riffChunkLength ++
        h.waveTag.map Char.toNat ++
        h.fmtTag.map Char.toNat ++
        leBytes 4 h.fmtChunkLength ++
        leBytes 2 h.audioFormat ++
        leBytes 2 h.numChannels ++
        leBytes 4 h.sampleRate ++
        leBytes 4 h.byteRate ++
        leBytes 2 h.blockAlign ++
        leBytes 2 h.bitsPerSample ++
        h.dataTag.map Char.toNat).length = 40 := by
      simp only [List.length_append, List.length_map, leBytes_length, h1, h2, h3, h4]
    rw [hs, take_drop_chunk _ _ _ 40 4 hpre (leBytes_length 4 _), leValue_leBytes_four]
  · rw [headerOfBytes_riffChunkLength]
    have hs : headerBytes h = (h.riffTag.map Char.toNat) ++ leBytes 4 h.riffChunkLength ++ (h.waveTag.map Char.toNat ++
        h.fmtTag.map Char.toNat ++
        leBytes 4 h.fmtChunkLength ++
        leBytes 2 h.audioFormat ++
        leBytes 2 h.numChannels ++
        leBytes 4 h.sampleRate ++
        leBytes 4 h.byteRate ++
        leBytes 2 h.blockAlign ++
        leBytes 2 h.bitsPerSample ++
        h.dataTag.map Char.toNat ++
        leBytes 4 h.dataChunkLength) := by
      simp only [headerBytes, List.append_assoc, List.append_nil]
    have hpre : (h.riffTag.map Char.toNat).length = 4 := by
      simp only [List.length_append, List.length_map, leBytes_length, h1]
    rw [hs, take_drop_chunk _ _ _ 4 4 hpre (leBytes_length 4 _), leValue_leBytes_four]

theorem buildHeader_tags (a n s b : Nat) :
    (buildHeader a n s b).riffTag = "RIFF".toList ∧ (buildHeader a n s b).waveTag = "WAVE".toList ∧
      (buildHeader a n s b).fmtTag = "fmt ".toList ∧ (buildHeader a n s b).dataTag = "data".toList :=
  ⟨rfl, rfl, rfl, rfl⟩

/-- Reading the file that `writeWav16` leaves gives the samples back. -/
theorem readWav16_spec (data : List Int) (sampleRate r : Nat)
    (h2 : 2 * data.length < 4294967296)
    (hr : ∀ s, s ∈ data → -32768 ≤ s ∧ s < 32768) :
    readWav16 (some ⟨headerBytes { buildHeader WAVE_FORMAT_PCM 1 sampleRate 16 with
                riffChunkLength := r, dataChunkLength := 2 * data.length }
              ++ samplesBytes data, 0⟩) = some data := by
  have hD : (samplesBytes data).length = 2 * data.length := samplesBytes_length data
  have hHl := headerBytes_written_length WAVE_FORMAT_PCM 1 sampleRate 16 r (2 * data.length)
  obtain ⟨t1, t2, t3, t4⟩ := buildHeader_tags WAVE_FORMAT_PCM 1 sampleRate 16
  obtain ⟨ha, hn, hb, hd, -⟩ := headerOfBytes_headerBytes
    { buildHeader WAVE_FORMAT_PCM 1 sampleRate 16 with
      riffChunkLength := r, dataChunkLength := 2 * data.length }
    (by rw [show _ = (buildHeader WAVE_FORMAT_PCM 1 sampleRate 16).riffTag from rfl, t1]; rfl)
    (by rw [show _ = (buildHeader WAVE_FORMAT_PCM 1 sampleRate 16).waveTag from rfl, t2]; rfl)
    (by rw [show _ = (buildHeader WAVE_FORMAT_PCM 1 sampleRate 16).fmtTag from rfl, t3]; rfl)
    (by rw [show _ = (buildHeader WAVE_FORMAT_PCM 1 sampleRate 16).dataTag from rfl, t4]; rfl)
  have e1 : (buildHeader WAVE_FORMAT_PCM 1 sampleRate 16).audioFormat % 65536 = 1 := rfl
  have e2 : (buildHeader WAVE_FORMAT_PCM 1 sampleRate 16).numChannels % 65536 = 1 := rfl
  have e3 : (buildHeader WAVE_FORMAT_PCM 1 sampleRate 16).bitsPerSample % 65536 = 16 := rfl
  rw [e1] at ha
  rw [e2] at hn
  rw [e3] at hb
  simp only [] at hd
  have hd2 : 2 * data.length % 4294967296 = 2 * data.length := Nat.mod_eq_of_lt h2
  rw [hd2] at hd
  generalize headerBytes { buildHeader WAVE_FORMAT_PCM 1 sampleRate 16 with
    riffChunkLength := r, dataChunkLength := 2 * data.length } = H at hHl ha hn hb hd
  have htake : ((H ++ samplesBytes data).drop 0).take sizeofHeader = H := by
    rw [List.drop_zero, List.take_append_of_le_length (by omega), List.take_of_length_le (by omega)]
  have hrest : ((H ++ samplesBytes data).drop (0 + H.length)).take (2 * data.length)
      = samplesBytes data := by
    rw [Nat.zero_add, List.drop_append_of_le_length (Nat.le_refl _), List.drop_length,
      List.nil_append, List.take_of_length_le (by omega)]
  unfold readWav16 fread
  simp only [htake, hHl, Nat.sub_self, List.replicate_zero, List.append_nil, ha, hn, hb, hd,
    ne_eq, not_true_eq_false, if_false]
  rw [← hHl, hrest, hD]
  simp only [Nat.mul_div_cancel_left _ (by omega : 0 < 2), le_refl, if_true, Nat.sub_self,
    List.replicate_zero, List.append_nil]
  rw [samplesOfBytes_samplesBytes data hr]

/-- The length fields that `writeWav16` leaves in the first 44 bytes of the file. -/
theorem writeWav16_fields (data : List Int) (sampleRate : Nat)
    (h2 : 2 * data.length < 4294967296) (f : FILE)
    (hf : writeWav16 data data.length sampleRate (some ⟨[], 0⟩) = some f) :
    (headerOfBytes (f.content.take 44)).dataChunkLength = 2 * data.length ∧
    (headerOfBytes (f.content.take 44)).riffChunkLength
      = (2 * data.length + 36) % 4294967296 := by
  rw [writeWav16_spec data sampleRate h2] at hf
  cases hf
  have hHl := headerBytes_written_length WAVE_FORMAT_PCM 1 sampleRate 16
    ((2 * data.length + 36) % 4294967296) (2 * data.length)
  obtain ⟨t1, t2, t3, t4⟩ := buildHeader_tags WAVE_FORMAT_PCM 1 sampleRate 16
  obtain ⟨-, -, -, hd, hriff⟩ := headerOfBytes_headerBytes
    { buildHeader WAVE_FORMAT_PCM 1 sampleRate 16 with
      riffChunkLength := (2 * data.length + 36) % 4294967296
      dataChunkLength := 2 * data.length }
    (by rw [show _ = (buildHeader WAVE_FORMAT_PCM 1 sampleRate 16).riffTag from rfl, t1]; rfl)
    (by rw [show _ = (buildHeader WAVE_FORMAT_PCM 1 sampleRate 16).waveTag from rfl, t2]; rfl)
    (by rw [show _ = (buildHeader WAVE_FORMAT_PCM 1 sampleRate 16).fmtTag from rfl, t3]; rfl)
    (by rw [show _ = (buildHeader WAVE_FORMAT_PCM 1 sampleRate 16).dataTag from rfl, t4]; rfl)
  simp only [] at hd hriff
  rw [Nat.mod_eq_of_lt h2] at hd
  rw [Nat.mod_mod] at hriff
  have htake : (headerBytes { buildHeader WAVE_FORMAT_PCM 1 sampleRate 16 with
      riffChunkLength := (2 * data.length + 36) % 4294967296
      dataChunkLength := 2 * data.length } ++ samplesBytes data).take 44
      = headerBytes { buildHeader WAVE_FORMAT_PCM 1 sampleRate 16 with
          riffChunkLength := (2 * data.length + 36) % 4294967296
          dataChunkLength := 2 * data.length } := by
    have hHl44 : (headerBytes { buildHeader WAVE_FORMAT_PCM 1 sampleRate 16 with
        riffChunkLength := (2 * data.length + 36) % 4294967296
        dataChunkLength := 2 * data.length }).length = 44 := hHl
    rw [List.take_append_of_le_length (Nat.le_of_eq hHl44.symm),
      List.take_of_length_le (Nat.le_of_eq hHl44)]
  simp only [htake]
  exact ⟨hd, hriff⟩

/-! ## Claims on WavWriter -/

/-- C33: for all arguments, the header record built by `writeHeader` has the tags "RIFF",
"WAVE", "fmt " and "data", `riffChunkLength = 36`, `fmtChunkLength = 16`,
`dataChunkLength = 0`, the four format fields equal to the arguments,
`byteRate = (sampleRate * (bitsPerSample / 8) * numChannels) mod 2^32` and
`blockAlign = ((bitsPerSample / 8) * numChannels) mod 2^16`; its 44 byte image is what
`writeHeader` writes to a stream that is not null. -/
theorem wav_header_record (audioFormat numChannels sampleRate bitsPerSample : Nat) :
    (buildHeader audioFormat numChannels sampleRate bitsPerSample).riffTag = "RIFF".toList ∧
    (buildHeader audioFormat numChannels sampleRate bitsPerSample).waveTag = "WAVE".toList ∧
    (buildHeader audioFormat numChannels sampleRate bitsPerSample).fmtTag = "fmt ".toList ∧
    (buildHeader audioFormat numChannels sampleRate bitsPerSample).dataTag = "data".toList ∧
    (buildHeader audioFormat numChannels sampleRate bitsPerSample).riffChunkLength = 36 ∧
    (buildHeader audioFormat numChannels sampleRate bitsPerSample).fmtChunkLength = 16 ∧
    (buildHeader audioFormat numChannels sampleRate bitsPerSample).dataChunkLength = 0 ∧
    (buildHeader audioFormat numChannels sampleRate bitsPerSample).audioFormat = audioFormat ∧
    (buildHeader audioFormat numChannels sampleRate bitsPerSample).numChannels = numChannels ∧
    (buildHeader audioFormat numChannels sampleRate bitsPerSample).sampleRate = sampleRate ∧
    (buildHeader audioFormat numChannels sampleRate bitsPerSample).bitsPerSample
      = bitsPerSample ∧
    (buildHeader audioFormat numChannels sampleRate bitsPerSample).byteRate
      = (sampleRate * (bitsPerSample / 8) * numChannels) % 4294967296 ∧
    (buildHeader audioFormat numChannels sampleRate bitsPerSample).blockAlign
      = ((bitsPerSample / 8) * numChannels) % 65536 ∧
    (headerBytes (buildHeader audioFormat numChannels sampleRate bitsPerSample)).length = 44 ∧
    ∀ f, writeHeader (some f) audioFormat numChannels sampleRate bitsPerSample
      = some (fwrite f
          (headerBytes (buildHeader audioFormat numChannels sampleRate bitsPerSample))) := by
  obtain ⟨t1, t2, t3, t4⟩ := buildHeader_tags audioFormat numChannels sampleRate bitsPerSample
  refine ⟨t1, t2, t3, t4, rfl, rfl, rfl, rfl, rfl, rfl, rfl, ?_, rfl, ?_, fun f => rfl⟩
  · show (sampleRate * (bitsPerSample / 8) % 4294967296 * numChannels) % 4294967296 = _
    rw [Nat.mod_mul_mod]
  · exact headerBytes_written_length audioFormat numChannels sampleRate bitsPerSample 36 0

/-- C34, as the code has it: for every array of `int16` samples with
`2 * sampleCount < 2^32` and every sample rate, `writeWav16` on a freshly opened file
leaves the 44 byte header followed by the `2 * sampleCount` sample bytes, with
`dataChunkLength` patched to `2 * sampleCount` and `riffChunkLength` patched to
`(2 * sampleCount + 36) mod 2^32`, which is `2 * sampleCount + 36` when that is below
`2^32`; `readWav16` on that file returns the samples. -/
theorem wav16_round_trip (data : List Int) (sampleRate : Nat)
    (hlen : 2 * data.length < 4294967296)
    (hrange : ∀ s, s ∈ data → -32768 ≤ s ∧ s < 32768) :
    ∃ f, writeWav16 data data.length sampleRate (some ⟨[], 0⟩) = some f ∧
      f.content = headerBytes { buildHeader WAVE_FORMAT_PCM 1 sampleRate 16 with
                    riffChunkLength := (2 * data.length + 36) % 4294967296
                    dataChunkLength := 2 * data.length } ++ samplesBytes data ∧
      f.content.length = 44 + 2 * data.length ∧
      (headerOfBytes (f.content.take 44)).dataChunkLength = 2 * data.length ∧
      (headerOfBytes (f.content.take 44)).riffChunkLength
        = (2 * data.length + 36) % 4294967296 ∧
      (2 * data.length + 36 < 4294967296 →
        (headerOfBytes (f.content.take 44)).riffChunkLength = 2 * data.length + 36) ∧
      readWav16 (some ⟨f.content, 0⟩) = some data := by
  have hspec := writeWav16_spec data sampleRate hlen
  obtain ⟨hd, hriff⟩ := writeWav16_fields data sampleRate hlen _ hspec
  have hlenc : (headerBytes { buildHeader WAVE_FORMAT_PCM 1 sampleRate 16 with
      riffChunkLength := (2 * data.length + 36) % 4294967296
      dataChunkLength := 2 * data.length } ++ samplesBytes data).length
      = 44 + 2 * data.length := by
    rw [List.length_append, samplesBytes_length, headerBytes_written_length]
    rfl
  refine ⟨_, hspec, rfl, hlenc, hd, hriff, ?_, ?_⟩
  · intro hsmall
    exact hriff.trans (Nat.mod_eq_of_lt hsmall)
  · exact readWav16_spec data sampleRate _ hlen hrange

/-- C34, as the code has it, for three samples at 8000 Hz. -/
theorem wav16_round_trip_witness :
    ∃ f, writeWav16 [1, -2, 300] [(1 : Int), -2, 300].length 8000 (some ⟨[], 0⟩) = some f ∧
      f.content = headerBytes { buildHeader WAVE_FORMAT_PCM 1 8000 16 with
                    riffChunkLength := (2 * [(1 : Int), -2, 300].length + 36) % 4294967296
                    dataChunkLength := 2 * [(1 : Int), -2, 300].length }
                  ++ samplesBytes [1, -2, 300] ∧
      f.content.length = 44 + 2 * [(1 : Int), -2, 300].length ∧
      (headerOfBytes (f.content.take 44)).dataChunkLength = 2 * [(1 : Int), -2, 300].length ∧
      (headerOfBytes (f.content.take 44)).riffChunkLength
        = (2 * [(1 : Int), -2, 300].length + 36) % 4294967296 ∧
      (2 * [(1 : Int), -2, 300].length + 36 < 4294967296 →
        (headerOfBytes (f.content.take 44)).riffChunkLength
          = 2 * [(1 : Int), -2, 300].length + 36) ∧
      readWav16 (some ⟨f.content, 0⟩) = some [1, -2, 300] :=
  wav16_round_trip [1, -2, 300] 8000 (by decide) (by decide)

/-- C34 as stated fails: for `2^31 - 1` samples, where `2 * sampleCount = 2^32 - 2`, the
`uint32_t` field `riffChunkLength` is patched to `(2^32 + 34) mod 2^32 = 34`, not to
`2 * sampleCount + 36`. -/
theorem wav16_riff_length_wraps :
    ¬ ∀ (data : List Int) (sampleRate : Nat), 2 * data.length < 4294967296 →
        ∀ f, writeWav16 data data.length sampleRate (some ⟨[], 0⟩) = some f →
          (headerOfBytes (f.content.take 44)).riffChunkLength = 2 * data.length + 36 := by
  intro hall
  have hl : (List.replicate 2147483647 (0 : Int)).length = 2147483647 :=
    List.length_replicate _ _
  have h2 : 2 * (List.replicate 2147483647 (0 : Int)).length < 4294967296 := by
    rw [hl]
    decide
  have hspec := writeWav16_spec (List.replicate 2147483647 (0 : Int)) 8000 h2
  have hfield := (writeWav16_fields _ 8000 h2 _ hspec).2
  have hclaim := hall _ 8000 h2 _ hspec
  rw [hfield, hl] at hclaim
  revert hclaim
  decide

end WavWriter

/-! ## Lemmas on FilterFactory -/

namespace FilterFactory

theorem forLoop_spec {σ : Type} (P : σ → Prop) (bound : Int) (body : Int → σ → Option σ)
    (hbody : ∀ n s, 0 ≤ n → n < bound → P s → ∃ s1, body n s = some s1 ∧ P s1) :
    ∀ (fuel : Nat) (n : Int) (s : σ), 0 ≤ n → bound ≤ n + fuel → P s →
      ∃ s1, forLoop bound body fuel n s = some s1 ∧ P s1 := by
  intro fuel
  induction fuel with
  | zero =>
    intro n s hn hb hP
    refine ⟨s, ?_, hP⟩
    unfold forLoop
    rw [if_neg (by omega)]
  | succ fuel ih =>
    intro n s hn hb hP
    unfold forLoop
    by_cases hlt : n < bound
    · obtain ⟨s1, h1, hP1⟩ := hbody n s hn hlt hP
      obtain ⟨s2, h2, hP2⟩ := ih (n + 1) s1 (by omega) (by push_cast at hb ⊢; omega) hP1
      refine ⟨s2, ?_, hP2⟩
      rw [if_pos hlt, h1]
      exact h2
    · exact ⟨s, by rw [if_neg hlt], hP⟩

theorem vectorOf_spec (count : Int) (value : Float) (hc : 0 ≤ count) :
    ∃ v, vectorOf count value = some v ∧ v.length = count.toNat := by
  refine ⟨List.replicate count.toNat value, ?_, List.length_replicate _ _⟩
  unfold vectorOf
  rw [if_pos hc]

theorem setAt_spec (v : List Float) (n : Int) (value : Float) (hn : 0 ≤ n)
    (hlt : n.toNat < v.length) :
    ∃ v1, setAt v n value = some v1 ∧ v1.length = v.length := by
  refine ⟨v.set n.toNat value, ?_, List.length_set _ _ _⟩
  unfold setAt
  rw [if_pos ⟨hn, hlt⟩]

theorem getAt_spec (v : List Float) (n : Int) (hn : 0 ≤ n) (hlt : n.toNat < v.length) :
    ∃ y, getAt v n = some y := by
  refine ⟨v[n.toNat], ?_⟩
  unfold getAt
  rw [if_pos hn]
  exact List.getElem?_eq_getElem hlt

/-- A loop over `n < order + 1` whose body stores into slot `n` of a vector of `order + 1`
entries runs to its end and keeps the length. -/
theorem fillLoop_spec (order : Int) (body : Int → List Float → Option (List Float))
    (hbody : ∀ n w, 0 ≤ n → n < order + 1 → w.length = (order + 1).toNat →
      ∃ w1, body n w = some w1 ∧ w1.length = (order + 1).toNat)
    (w : List Float) (hw : w.length = (order + 1).toNat) :
    ∃ w1, forLoop (order + 1) body (order + 1).toNat 0 w = some w1 ∧
      w1.length = (order + 1).toNat :=
  forLoop_spec (fun s => s.length = (order + 1).toNat) (order + 1) body hbody
    (order + 1).toNat 0 w (Int.le_refl 0) (by omega) hw

theorem setAt_in_loop (order n : Int) (w : List Float) (value : Float) (hn : 0 ≤ n)
    (hlt : n < order + 1) (hw : w.length = (order + 1).toNat) :
    ∃ w1, setAt w n value = some w1 ∧ w1.length = (order + 1).toNat := by
  obtain ⟨w1, h1, hl⟩ := setAt_spec w n value hn (by omega)
  exact ⟨w1, h1, by rw [hl, hw]⟩

theorem addInt_one (order : Int) (ho : 0 ≤ order) (hm : order < INT_MAX) :
    addInt order 1 = some (order + 1) := by
  unfold addInt
  rw [if_pos]
  unfold INT_MIN
  unfold INT_MAX at hm ⊢
  omega

theorem addInt_INT_MAX : addInt INT_MAX 1 = none := by
  decide

theorem createWindowWeights_spec (order : Int) (windowType : FilterWindowType)
    (ho : 0 ≤ order) (hm : order < INT_MAX) :
    ∃ w, createWindowWeights order windowType = some w ∧ w.length = (order + 1).toNat := by
  obtain ⟨v, hv, hvl⟩ := vectorOf_spec (order + 1) 0.0 (by omega)
  have hc := addInt_one order ho hm
  cases windowType with
  | RECTANGULAR =>
    unfold createWindowWeights
    rw [hc]
    exact vectorOf_spec (order + 1) 1.0 (by omega)
  | BARTLETT =>
    unfold createWindowWeights
    simp only [hc, hv, Option.bind]
    exact fillLoop_spec order _ (fun n w hn hlt hw => setAt_in_loop order n w _ hn hlt hw) v hvl
  | HANNING =>
    unfold createWindowWeights
    simp only [hc, hv, Option.bind]
    exact fillLoop_spec order _ (fun n w hn hlt hw => setAt_in_loop order n w _ hn hlt hw) v hvl
  | HAMMING =>
    unfold createWindowWeights
    simp only [hc, hv, Option.bind]
    exact fillLoop_spec order _ (fun n w hn hlt hw => setAt_in_loop order n w _ hn hlt hw) v hvl
  | BLACKMAN =>
    unfold createWindowWeights
    simp only [hc, hv, Option.bind]
    exact fillLoop_spec order _ (fun n w hn hlt hw => setAt_in_loop order n w _ hn hlt hw) v hvl

theorem createSincWeights_spec (order : Int) (filterType : FilterType) (Fs Fc1 Fc2 : Float)
    (ho : 0 ≤ order) (hm : order < INT_MAX) :
    ∃ w, createSincWeights order filterType Fs Fc1 Fc2 = some w ∧
      w.length = (order + 1).toNat := by
  obtain ⟨v, hv, hvl⟩ := vectorOf_spec (order + 1) 0.0 (by omega)
  have hc := addInt_one order ho hm
  have hbody : ∀ (a b : Float) (n : Int) (w : List Float), 0 ≤ n → n < order + 1 →
      w.length = (order + 1).toNat →
      ∃ w1, (if n = order.tdiv 2 then setAt w n a else setAt w n b) = some w1 ∧
        w1.length = (order + 1).toNat := by
    intro a b n w hn hlt hw
    split
    · exact setAt_in_loop order n w a hn hlt hw
    · exact setAt_in_loop order n w b hn hlt hw
  cases filterType with
  | LOWPASS =>
    unfold createSincWeights
    simp only [hc, hv, Option.bind]
    exact fillLoop_spec order _ (fun n w hn hlt hw => hbody _ _ n w hn hlt hw) v hvl
  | HIGHPASS =>
    unfold createSincWeights
    simp only [hc, hv, Option.bind]
    exact fillLoop_spec order _ (fun n w hn hlt hw => hbody _ _ n w hn hlt hw) v hvl
  | BANDPASS =>
    unfold createSincWeights
    simp only [hc, hv, Option.bind]
    exact fillLoop_spec order _ (fun n w hn hlt hw => hbody _ _ n w hn hlt hw) v hvl
  | BANDSTOP =>
    unfold createSincWeights
    simp only [hc, hv, Option.bind]
    exact fillLoop_spec order _ (fun n w hn hlt hw => hbody _ _ n w hn hlt hw) v hvl
  | ALLPASS =>
    unfold createSincWeights
    simp only [hc, hv, Option.bind]
    have hdiv : order.tdiv 2 = order / 2 := Int.tdiv_eq_ediv ho (by decide)
    exact setAt_in_loop order (order.tdiv 2) v 1.0 (by rw [hdiv]; omega) (by rw [hdiv]; omega) hvl

theorem accumulateLoop_spec {σ : Type} (order : Int) (weights : List Float)
    (hw : weights.length = (order + 1).toNat) (step : Int → σ → Float → σ) (init : σ) :
    ∃ g, forLoop (order + 1) (fun n g => (getAt weights n).bind (fun wn => some (step n g wn)))
      (order + 1).toNat 0 init = some g := by
  obtain ⟨g, hg, -⟩ := forLoop_spec (fun _ => True) (order + 1)
    (fun n g => (getAt weights n).bind (fun wn => some (step n g wn)))
    (fun n g hn hlt _ => by
      obtain ⟨wn, hwn⟩ := getAt_spec weights n hn (by omega)
      exact ⟨step n g wn, by show (getAt weights n).bind _ = _; rw [hwn]; rfl, trivial⟩)
    (order + 1).toNat 0 init (Int.le_refl 0) (by omega) trivial
  exact ⟨g, hg⟩

theorem accumulate_then {σ : Type} (order : Int) (weights : List Float)
    (hw : weights.length = (order + 1).toNat) (step : Int → σ → Float → σ) (init : σ)
    (k : σ → Option (List Float))
    (hk : ∀ g, ∃ w, k g = some w ∧ w.length = (order + 1).toNat) :
    ∃ w, (forLoop (order + 1)
        (fun n g => (getAt weights n).bind (fun wn => some (step n g wn)))
        (order + 1).toNat 0 init).bind k = some w ∧ w.length = (order + 1).toNat := by
  obtain ⟨g, hg⟩ := accumulateLoop_spec order weights hw step init
  rw [hg]
  exact hk g

theorem createFilterWeights_spec (order : Int) (windowType : FilterWindowType)
    (filterType : FilterType) (Fs Fc1 Fc2 : Float) (ho : 0 ≤ order) (hm : order < INT_MAX) :
    ∃ w, createFilterWeights order windowType filterType Fs Fc1 Fc2 = some w ∧
      w.length = (order + 1).toNat := by
  obtain ⟨window, hwin, hwinl⟩ := createWindowWeights_spec order windowType ho hm
  obtain ⟨weights0, hsinc, hsincl⟩ := createSincWeights_spec order filterType Fs Fc1 Fc2 ho hm
  obtain ⟨weights1, hmul, hmull⟩ := fillLoop_spec order
    (fun n w => (getAt window n).bind (fun a => (getAt w n).bind (fun b => setAt w n (a * b))))
    (fun n w hn hlt hw => by
      obtain ⟨a, ha⟩ := getAt_spec window n hn (by omega)
      obtain ⟨b, hb⟩ := getAt_spec w n hn (by omega)
      simp only [ha, hb, Option.bind]
      exact setAt_in_loop order n w _ hn hlt hw)
    weights0 hsincl
  have hdiv : ∀ gain : Float, ∃ w, forLoop (order + 1)
      (fun n w => (getAt w n).bind (fun wn => setAt w n (wn / gain)))
      (order + 1).toNat 0 weights1 = some w ∧ w.length = (order + 1).toNat := by
    intro gain
    exact fillLoop_spec order _
      (fun n w hn hlt hw => by
        obtain ⟨wn, hwn⟩ := getAt_spec w n hn (by omega)
        simp only [hwn, Option.bind]
        exact setAt_in_loop order n w _ hn hlt hw)
      weights1 hmull
  unfold createFilterWeights
  simp only [hwin, hsinc, addInt_one order ho hm, hmul, Option.some_bind]
  exact accumulate_then order weights1 hmull _ _ _ (fun g => hdiv _)

/-! ## Claims on FilterFactory -/

/-- C35, as the code has it: for every `order` with `0 ≤ order < INT_MAX`, every window type
and every filter type, `createFilter` returns a holder whose `order` field is the given
order and whose coefficient sequence has `order + 1` entries, and `createWindowWeights`,
`createSincWeights` and `createFilterWeights` each return `order + 1` values. -/
theorem filter_has_order_plus_one_coefficients (order : Int) (ho : 0 ≤ order)
    (hm : order < INT_MAX)
    (windowType : FilterWindowType) (filterType : FilterType) (Fs Fc1 Fc2 : Float) :
    (∃ holder, createFilter order windowType filterType Fs Fc1 Fc2 = some holder ∧
      holder.order = order ∧ (holder.coefficients.length : Int) = order + 1) ∧
    (∃ w, createWindowWeights order windowType = some w ∧ (w.length : Int) = order + 1) ∧
    (∃ w, createSincWeights order filterType Fs Fc1 Fc2 = some w ∧
      (w.length : Int) = order + 1) ∧
    (∃ w, createFilterWeights order windowType filterType Fs Fc1 Fc2 = some w ∧
      (w.length : Int) = order + 1) := by
  obtain ⟨w1, h1, hl1⟩ := createWindowWeights_spec order windowType ho hm
  obtain ⟨w2, h2, hl2⟩ := createSincWeights_spec order filterType Fs Fc1 Fc2 ho hm
  obtain ⟨w3, h3, hl3⟩ := createFilterWeights_spec order windowType filterType Fs Fc1 Fc2 ho hm
  refine ⟨⟨{ order := order, coefficients := w3 }, ?_, rfl, ?_⟩, ⟨w1, h1, by omega⟩,
    ⟨w2, h2, by omega⟩, ⟨w3, h3, by omega⟩⟩
  · unfold createFilter
    rw [h3]
    rfl
  · show (w3.length : Int) = order + 1
    omega

/-- C35, as the code has it, for a Hamming-windowed low-pass filter of order 4. -/
theorem filter_has_order_plus_one_coefficients_witness :
    (∃ holder, createFilter 4 .HAMMING .LOWPASS 8000.0 1000.0 0.0 = some holder ∧
      holder.order = 4 ∧ (holder.coefficients.length : Int) = 4 + 1) ∧
    (∃ w, createWindowWeights 4 .HAMMING = some w ∧ (w.length : Int) = 4 + 1) ∧
    (∃ w, createSincWeights 4 .LOWPASS 8000.0 1000.0 0.0 = some w ∧
      (w.length : Int) = 4 + 1) ∧
    (∃ w, createFilterWeights 4 .HAMMING .LOWPASS 8000.0 1000.0 0.0 = some w ∧
      (w.length : Int) = 4 + 1) :=
  filter_has_order_plus_one_coefficients 4 (by decide) (by decide) .HAMMING .LOWPASS
    8000.0 1000.0 0.0

/-- C35 as stated fails: `order = INT_MAX` is an `int` with `order >= 0`, but `order + 1`
overflows, so neither `createFilter` nor any of the three weight functions returns a
result, for every window type and filter type. -/
theorem filter_order_int_max_overflows :
    ¬ ∀ (order : Int) (windowType : FilterWindowType) (filterType : FilterType)
        (Fs Fc1 Fc2 : Float), 0 ≤ order → order ≤ INT_MAX →
        ∃ holder, createFilter order windowType filterType Fs Fc1 Fc2 = some holder ∧
          holder.order = order ∧ (holder.coefficients.length : Int) = order + 1 := by
  intro hall
  obtain ⟨holder, hh, -⟩ := hall INT_MAX .RECTANGULAR .LOWPASS 8000.0 1000.0 0.0
    (by decide) (Int.le_refl _)
  have hnone : createFilter INT_MAX .RECTANGULAR .LOWPASS 8000.0 1000.0 0.0 = none := by
    unfold createFilter createFilterWeights createWindowWeights
    rw [addInt_INT_MAX]
    rfl
  rw [hnone] at hh
  exact Option.noConfusion hh

end FilterFactory

end SherlockCode
